import Mathlib

/-!
# Verification development for the wallet transaction store

Shallow embedding of `backend/db/transactionsdb/transactionsdb.go` (namespace
`transactionsdb`), of the address size model tested by
`backend/coins/btc/addresses/sizes_test.go` (namespace `addresses`) and of
`formatAsCurrency` of `backend/coins/btc/handlers/handlers.go` (namespace `handlers`).
All definitions come first, the theorems follow.

* A bbolt bucket is a byte-ordered key/value map; it is embedded as a key-sorted
  association list with `Get`, `Put`, `Delete` and cursor traversal.
* `encoding/json` is embedded by what its text decodes to: `JSONBytes.encoded v` is JSON
  text that decodes to `v`, `JSONBytes.malformed` is bytes that do not decode.
  `json.Marshal` writes a Go string with every byte that is not part of a valid UTF-8
  character replaced by U+FFFD, so a string or map key that is not valid UTF-8 reads back
  changed, and it fails on a `time.Time` whose year is outside 0..9999.
* Go pointers that may be nil are `Option`s, Go `error` results are `Option Error`
  (`none` is `nil`), and every method of `Tx` passes the store state explicitly.
* Go strings and byte slices are lists of bytes; the standard-library and btcd functions
  the code calls on them (`hex`, `strconv`, `strings.SplitN`, `chainhash`, `wire`) are
  embedded from their documented behaviour.
* `bucket.Put` refuses an empty key and a key of more than 32768 bytes.
* Outside the embedding: failures of the storage engine itself (I/O, a read-only or closed
  transaction, no space left) and bbolt's limit of 2^31 - 2 bytes on a value, which would
  need the byte length of the JSON text.
-/

namespace transactionsdb

/-! ## Errors -/

/-- The error values the embedded code can return. -/
inductive Error where
  /-- The error of `json.Unmarshal` on bytes that do not decode. -/
  | unmarshal
  /-- The error of `chainhash.Hash.SetBytes` / `chainhash.NewHash`: not 32 bytes. -/
  | hashLength
  /-- The error `chainhash.ErrHashStrSize`: more than 64 characters. -/
  | hashStrSize
  /-- The error `hex.InvalidByteError`: a character that is not a hex digit. -/
  | hexInvalidByte
  /-- The error `hex.ErrLength`: an odd number of characters. -/
  | hexLength
  /-- The error `wrong outPoint format` of `parseOutPoint`. -/
  | wrongOutPointFormat
  /-- The error `strconv.ErrSyntax`. -/
  | parseSyntax
  /-- The error `strconv.ErrRange`. -/
  | parseRange
  /-- The error of `json.Marshal`: `Time.MarshalJSON` on a year outside 0..9999. -/
  | marshal
  /-- The error `bbolt.ErrKeyRequired`: the key is empty. -/
  | keyRequired
  /-- The error `bbolt.ErrKeyTooLarge`: the key has more than 32768 bytes. -/
  | keyTooLarge
  deriving DecidableEq

/-- Equality of results is decidable. -/
instance instDecidableEqExcept {ε α : Type} [DecidableEq ε] [DecidableEq α] :
    DecidableEq (Except ε α)
  | Except.ok a, Except.ok b =>
    if h : a = b then isTrue (by rw [h]) else isFalse (fun h1 => h (Except.ok.inj h1))
  | Except.error a, Except.error b =>
    if h : a = b then isTrue (by rw [h]) else isFalse (fun h1 => h (Except.error.inj h1))
  | Except.ok _, Except.error _ => isFalse (fun h => Except.noConfusion h)
  | Except.error _, Except.ok _ => isFalse (fun h => Except.noConfusion h)

/-! ## bbolt buckets -/

/-- One byte. -/
abbrev Byte := Fin 256

/-- A Go string: a sequence of bytes. -/
abbrev GoString := List Byte

/-- A bbolt bucket: the key/value pairs in cursor order. -/
abbrev Bucket (κ ν : Type) := List (κ × ν)

namespace Bucket

variable {κ ν : Type} [DecidableEq κ] [LT κ] [∀ a b : κ, Decidable (a < b)]

/-- The method `bucket.Get(key)`: `none` is Go's nil result for a missing key. -/
def Get : Bucket κ ν → κ → Option ν
  | [], _ => none
  | (k, v) :: rest, key => if k = key then some v else Get rest key

/-- What a successful `bucket.Put(key, value)` does to the pairs: overwrite the key's
value, or insert the pair at the key's place in the byte order. -/
def upsert : Bucket κ ν → κ → ν → Bucket κ ν
  | [], key, value => [(key, value)]
  | (k, v) :: rest, key, value =>
    if k = key then (key, value) :: rest
    else if key < k then (key, value) :: (k, v) :: rest
    else (k, v) :: upsert rest key value

/-- The constant `bbolt.MaxKeySize`. -/
def MaxKeySize : Nat := 32768

/-- The method `bucket.Put(key, value)`: the bucket afterwards and the error. An empty
key is refused with `ErrKeyRequired`, a key above `MaxKeySize` with `ErrKeyTooLarge`. -/
def Put (b : Bucket (List Byte) ν) (key : List Byte) (value : ν) :
    Bucket (List Byte) ν × Option Error :=
  if key.length = 0 then (b, some Error.keyRequired)
  else if key.length > MaxKeySize then (b, some Error.keyTooLarge)
  else (upsert b key value, none)

/-- The method `bucket.Delete(key)`: the key is gone afterwards; deleting a missing key
is no error. -/
def Delete : Bucket κ ν → κ → Bucket κ ν
  | [], _ => []
  | (k, v) :: rest, key => if k = key then Delete rest key else (k, v) :: Delete rest key

/-- The keys a cursor visits from `First` through `Next` until nil. -/
def keys (b : Bucket κ ν) : List κ := b.map Prod.fst

end Bucket

/-! ## encoding/json -/

/-- The bytes stored under a key, seen through the JSON codec of a value type. -/
inductive JSONBytes (α : Type) where
  /-- JSON text that decodes to `value`. A value that no JSON text decodes to (a string
  that is not valid UTF-8, a time that has no JSON text) stands for no bytes, and
  reading it is an error. -/
  | encoded (value : α)
  /-- Bytes that `json.Unmarshal` rejects. -/
  | malformed
  deriving DecidableEq

/-- The JSON codec of a Go type, by the values the text decodes to. -/
class JSONValue (α : Type) where
  /-- The value that the text written by `json.Marshal` decodes to, or the error of
  `json.Marshal`. -/
  marshal : α → Except Error α
  /-- Whether some JSON text decodes to the value. -/
  decodes : α → Bool

/-- The function `json.Marshal`. -/
def jsonMarshal {α : Type} [JSONValue α] (value : α) : Except Error (JSONBytes α) :=
  match JSONValue.marshal value with
  | Except.ok v => Except.ok (JSONBytes.encoded v)
  | Except.error err => Except.error err

/-- The function `json.Unmarshal(jsonBytes, value)`: the decoded value replaces the
target, bytes that do not decode are an error. -/
def jsonUnmarshal {α : Type} [JSONValue α] (jsonBytes : JSONBytes α) (_target : α) :
    Except Error α :=
  match jsonBytes with
  | JSONBytes.encoded v =>
    if JSONValue.decodes v then Except.ok v else Except.error Error.unmarshal
  | JSONBytes.malformed => Except.error Error.unmarshal

/-- The tables `first` and `acceptRanges` of `unicode/utf8` for a byte of 128 or more:
the length of the character the byte starts and the range of its second byte, or `none`
for a byte that starts no character. -/
def utf8Lead (b0 : Byte) : Option (Nat × Nat × Nat) :=
  if 194 ≤ b0.val ∧ b0.val ≤ 223 then some (2, 128, 191)
  else if b0.val = 224 then some (3, 160, 191)
  else if b0.val = 237 then some (3, 128, 159)
  else if 225 ≤ b0.val ∧ b0.val ≤ 239 then some (3, 128, 191)
  else if b0.val = 240 then some (4, 144, 191)
  else if 241 ≤ b0.val ∧ b0.val ≤ 243 then some (4, 128, 191)
  else if b0.val = 244 then some (4, 128, 143)
  else none

/-- Whether the byte is a UTF-8 continuation byte (`locb` to `hicb`). -/
def utf8Continuation (b : Byte) : Bool := decide (128 ≤ b.val ∧ b.val ≤ 191)

/-- The size result of `utf8.DecodeRune`: the number of bytes of the valid UTF-8
character at the start of the text, or 0 when there is none (Go then reports
`RuneError` with width 1). -/
def utf8Width : GoString → Nat
  | [] => 0
  | b0 :: rest =>
    if b0.val < 128 then 1
    else
      match utf8Lead b0, rest with
      | none, _ => 0
      | some _, [] => 0
      | some (size, lo, hi), b1 :: rest1 =>
        if b1.val < lo ∨ hi < b1.val then 0
        else if size ≤ 2 then 2
        else
          match rest1 with
          | [] => 0
          | b2 :: rest2 =>
            if utf8Continuation b2 = false then 0
            else if size ≤ 3 then 3
            else
              match rest2 with
              | [] => 0
              | b3 :: _ => if utf8Continuation b3 = false then 0 else 4

/-- The loop of `json.Marshal` over a Go string, by the string its text decodes to:
every valid UTF-8 character is kept, every other byte becomes U+FFFD (the bytes
239, 191, 189). `pending` counts the bytes of the current character still to copy. -/
def coerceUTF8From : Nat → GoString → GoString
  | _, [] => []
  | pending + 1, b :: rest => b :: coerceUTF8From pending rest
  | 0, b :: rest =>
    match utf8Width (b :: rest) with
    | 0 => [239, 191, 189] ++ coerceUTF8From 0 rest
    | width + 1 => b :: coerceUTF8From width rest

/-- The string that the JSON text of a Go string decodes to. -/
def coerceUTF8 (s : GoString) : GoString := coerceUTF8From 0 s

/-- The function `utf8.Valid`: the JSON text of the string decodes to the string. -/
def validUTF8 (s : GoString) : Bool := decide (coerceUTF8 s = s)

/-! ## chainhash and wire types -/

/-- The constant `chainhash.HashSize`. -/
def HashSize : Nat := 32

/-- The type `chainhash.Hash`, an array of 32 bytes. -/
abbrev Hash := { l : List Byte // l.length = HashSize }

/-- The slice `txHash[:]`. -/
def Hash.slice (h : Hash) : List Byte := h.val

/-- The method `Hash.SetBytes` (and `chainhash.NewHash`): fails unless given 32 bytes. -/
def SetBytes (newHash : List Byte) : Except Error Hash :=
  if h : newHash.length = HashSize then Except.ok ⟨newHash, h⟩
  else Except.error Error.hashLength

/-- The type `wire.OutPoint`; `Index` is a uint32. -/
structure OutPoint where
  Hash : Hash
  Index : Nat
  deriving DecidableEq

/-- The type `wire.TxIn`. -/
structure TxIn where
  PreviousOutPoint : OutPoint
  SignatureScript : List Byte
  Witness : List (List Byte)
  Sequence : Nat
  deriving DecidableEq

/-- The type `wire.TxOut`. -/
structure TxOut where
  Value : Int
  PkScript : List Byte
  deriving DecidableEq

/-- The JSON text of a `wire.TxOut` (a number and a base64 string) always decodes to it. -/
instance instJSONValueTxOut : JSONValue TxOut where
  marshal := fun v => Except.ok v
  decodes := fun _ => true

/-- The type `wire.MsgTx`. -/
structure MsgTx where
  Version : Int
  TxIn : List TxIn
  TxOut : List TxOut
  LockTime : Nat
  deriving DecidableEq

/-- The type `time.Time`, as its clock reading in nanoseconds from the start of the year
1970 of that clock, in a zone with an offset of less than 24 hours (the text of
`Time.MarshalJSON` keeps the reading and the offset). -/
abbrev Time := Int

/-- Whether `Time.MarshalJSON` accepts the time: its year is within 0..9999, that is
from 0000-01-01T00:00:00 to 9999-12-31T23:59:59.999999999. -/
def timeMarshals (t : Time) : Bool :=
  decide (-62167219200000000000 ≤ t ∧ t < 253402300800000000000)

/-- The type `client.TxInfo`, one entry of an address history. -/
structure TxInfoEntry where
  Height : Int
  TXHash : Hash
  deriving DecidableEq

/-- The type `client.TxHistory`. -/
abbrev TxHistory := List TxInfoEntry

/-- The JSON text of a `client.TxHistory` (heights and hash strings) always decodes to
it. -/
instance instJSONValueTxHistory : JSONValue TxHistory where
  marshal := fun v => Except.ok v
  decodes := fun _ => true

/-! ## The store -/

/-- The struct `walletTransaction`. `Addresses` is the key set of the Go map
`map[string]bool` (the code only ever stores `true` and only reads the keys). -/
structure walletTransaction where
  Tx : Option MsgTx
  Height : Int
  Addresses : List GoString
  Verified : Option Bool
  HeaderTimestamp : Option Time
  deriving DecidableEq

/-- The key set of the address map that its JSON object decodes to: every key as
`json.Marshal` writes it, keys that become equal merged. -/
def normalizeAddresses (m : List GoString) : List GoString := (m.map coerceUTF8).dedup

/-- Whether the header timestamp of the record, if any, has a JSON text. -/
def walletTransaction.timestampMarshals (w : walletTransaction) : Bool :=
  match w.HeaderTimestamp with
  | none => true
  | some t => timeMarshals t

/-- The JSON codec of `walletTransaction`: `json.Marshal` fails on a header timestamp
outside the years 0..9999 and writes the address keys as valid UTF-8; a JSON text
decodes to distinct valid UTF-8 address keys and a timestamp within those years. -/
instance instJSONValueWalletTransaction : JSONValue walletTransaction where
  marshal := fun w =>
    if w.timestampMarshals then
      Except.ok { w with Addresses := normalizeAddresses w.Addresses }
    else Except.error Error.marshal
  decodes := fun w =>
    w.timestampMarshals && w.Addresses.all validUTF8 && decide w.Addresses.Nodup

/-- The function `newWalletTransaction`. -/
def newWalletTransaction : walletTransaction :=
  { Tx := none, Height := 0, Addresses := [], Verified := none, HeaderTimestamp := none }

/-- The struct `Tx`: the five buckets of an open database transaction. -/
structure Tx where
  bucketTransactions : Bucket (List Byte) (JSONBytes walletTransaction)
  bucketUnverifiedTransactions : Bucket (List Byte) Unit
  bucketInputs : Bucket (List Byte) (List Byte)
  bucketOutputs : Bucket (List Byte) (JSONBytes TxOut)
  bucketAddressHistories : Bucket (List Byte) (JSONBytes TxHistory)
  deriving DecidableEq

/-- The store right after `Begin` on a new database: five empty buckets. -/
def Tx.empty : Tx :=
  { bucketTransactions := [], bucketUnverifiedTransactions := [], bucketInputs := [],
    bucketOutputs := [], bucketAddressHistories := [] }

/-- The function `readJSON`: found flag, the value after decoding, and the error. -/
def readJSON {κ α : Type} [DecidableEq κ] [JSONValue α] (bucket : Bucket κ (JSONBytes α)) (key : κ)
    (value : α) : Bool × α × Option Error :=
  match Bucket.Get bucket key with
  | some jsonBytes =>
    match jsonUnmarshal jsonBytes value with
    | Except.ok v => (true, v, none)
    | Except.error err => (true, value, some err)
  | none => (false, value, none)

/-- The function `writeJSON`: the bucket afterwards and the error, that of
`json.Marshal` or else that of `bucket.Put`. -/
def writeJSON {α : Type} [JSONValue α] (bucket : Bucket (List Byte) (JSONBytes α))
    (key : List Byte) (value : α) : Bucket (List Byte) (JSONBytes α) × Option Error :=
  match jsonMarshal value with
  | Except.error err => (bucket, some err)
  | Except.ok jsonBytes => Bucket.Put bucket key jsonBytes

/-- The method `Tx.modifyTx`. The Go closure `f` mutates the record and the variables
it captures; here it maps the record and the captured value to their new values. -/
def modifyTx {β : Type} (tx : Tx) (key : List Byte)
    (f : walletTransaction → β → walletTransaction × β) (captured : β) :
    Tx × β × Option Error :=
  let walletTx := newWalletTransaction
  match readJSON tx.bucketTransactions key walletTx with
  | (_, _, some err) => (tx, captured, some err)
  | (_, walletTx, none) =>
    let r := f walletTx captured
    let w := writeJSON tx.bucketTransactions key r.1
    ({ tx with bucketTransactions := w.1 }, r.2, w.2)

/-- The record `readJSON` hands to `modifyTx` and `TxInfo` for a key: the decoded stored
record, or the fresh record of `newWalletTransaction` when the key is missing. -/
def recordAt (tx : Tx) (key : List Byte) : walletTransaction :=
  (readJSON tx.bucketTransactions key newWalletTransaction).2.1

/-- The method `Tx.TxInfo`: raw transaction, addresses, height and header timestamp.
Go collects the addresses by ranging over the map, in no fixed order; here they come in
the order of the key list. -/
def TxInfo (tx : Tx) (txHash : Hash) :
    Except Error (Option MsgTx × List GoString × Int × Option Time) :=
  let walletTx := newWalletTransaction
  match readJSON tx.bucketTransactions txHash.slice walletTx with
  | (_, _, some err) => Except.error err
  | (_, walletTx, none) =>
    Except.ok (walletTx.Tx, walletTx.Addresses, walletTx.Height, walletTx.HeaderTimestamp)

/-- The method `Tx.PutTx`. -/
def PutTx (tx : Tx) (txHash : Hash) (msgTx : Option MsgTx) (height : Int) :
    Tx × Option Error :=
  match modifyTx tx txHash.slice
      (fun walletTx _ => ({ walletTx with Tx := msgTx, Height := height }, walletTx.Verified))
      (none : Option Bool) with
  | (tx1, _, some err) => (tx1, some err)
  | (tx1, verified, none) =>
    if verified = none then
      let p := Bucket.Put tx1.bucketUnverifiedTransactions txHash.slice ()
      ({ tx1 with bucketUnverifiedTransactions := p.1 }, p.2)
    else (tx1, none)

/-- The method `Tx.DeleteTx`. -/
def DeleteTx (tx : Tx) (txHash : Hash) : Tx :=
  { tx with bucketTransactions := Bucket.Delete tx.bucketTransactions txHash.slice }

/-- The Go statement `m[key] = true` on the address map. -/
def addressesInsert (m : List GoString) (key : GoString) : List GoString :=
  if key ∈ m then m else m ++ [key]

/-- The Go statement `delete(m, key)` on the address map. -/
def addressesDelete : List GoString → GoString → List GoString
  | [], _ => []
  | a :: rest, key => if a = key then addressesDelete rest key else a :: addressesDelete rest key

/-- The method `Tx.AddAddressToTx`. -/
def AddAddressToTx (tx : Tx) (txHash : Hash) (scriptHashHex : GoString) : Tx × Option Error :=
  let r := modifyTx tx txHash.slice
    (fun walletTx (u : Unit) =>
      ({ walletTx with Addresses := addressesInsert walletTx.Addresses scriptHashHex }, u)) ()
  (r.1, r.2.2)

/-- The method `Tx.RemoveAddressFromTx`: the `empty` flag and the error. -/
def RemoveAddressFromTx (tx : Tx) (txHash : Hash) (scriptHashHex : GoString) :
    Tx × Bool × Option Error :=
  modifyTx tx txHash.slice
    (fun walletTx _ =>
      let addresses := addressesDelete walletTx.Addresses scriptHashHex
      ({ walletTx with Addresses := addresses }, decide (addresses.length = 0)))
    false

/-- The cursor loop of `getTransactions`: each key becomes a hash appended to `result`;
a key that is not 32 bytes long ends the loop with the error. -/
def getTransactionsLoop : List (List Byte) → List Hash → Except Error (List Hash)
  | [], result => Except.ok result
  | txHashBytes :: rest, result =>
    match SetBytes txHashBytes with
    | Except.error err => Except.error err
    | Except.ok txHash => getTransactionsLoop rest (result ++ [txHash])

/-- The function `getTransactions`: every key of the bucket as a hash, in cursor order. -/
def getTransactions {ν : Type} (bucket : Bucket (List Byte) ν) : Except Error (List Hash) :=
  getTransactionsLoop (Bucket.keys bucket) []

/-- The method `Tx.Transactions`. -/
def Transactions (tx : Tx) : Except Error (List Hash) :=
  getTransactions tx.bucketTransactions

/-- The method `Tx.UnverifiedTransactions`. -/
def UnverifiedTransactions (tx : Tx) : Except Error (List Hash) :=
  getTransactions tx.bucketUnverifiedTransactions

/-- The method `Tx.MarkTxVerified`. -/
def MarkTxVerified (tx : Tx) (txHash : Hash) (headerTimestamp : Time) : Tx × Option Error :=
  let tx0 : Tx := { tx with
    bucketUnverifiedTransactions := Bucket.Delete tx.bucketUnverifiedTransactions txHash.slice }
  let r := modifyTx tx0 txHash.slice
    (fun walletTx (u : Unit) =>
      ({ walletTx with Verified := some true, HeaderTimestamp := some headerTimestamp }, u)) ()
  (r.1, r.2.2)

/-! ## Outpoint keys -/

/-- The table `hextable` of `encoding/hex`, "0123456789abcdef", as bytes. -/
def hextable : List Byte := [48, 49, 50, 51, 52, 53, 54, 55, 56, 57, 97, 98, 99, 100, 101, 102]

/-- The function `hex.EncodeToString`: two lower-case hex digits per byte. -/
def hexEncodeToString (src : List Byte) : GoString :=
  src.flatMap (fun v => [hextable.getD (v.val / 16) 0, hextable.getD (v.val % 16) 0])

/-- The function `fromHexChar` of `encoding/hex`. -/
def fromHexChar (c : Byte) : Option Nat :=
  if 48 ≤ c.val ∧ c.val ≤ 57 then some (c.val - 48)
  else if 97 ≤ c.val ∧ c.val ≤ 102 then some (c.val - 97 + 10)
  else if 65 ≤ c.val ∧ c.val ≤ 70 then some (c.val - 65 + 10)
  else none

/-- The function `hex.Decode`: the bytes of a string of hex digit pairs. -/
def hexDecode : List Byte → Except Error (List Byte)
  | [] => Except.ok []
  | [c] =>
    match fromHexChar c with
    | none => Except.error Error.hexInvalidByte
    | some _ => Except.error Error.hexLength
  | a :: b :: rest =>
    match fromHexChar a, fromHexChar b with
    | some x, some y =>
      match hexDecode rest with
      | Except.ok bs => Except.ok (Fin.ofNat ((x * 16 + y) % 256) :: bs)
      | Except.error err => Except.error err
    | _, _ => Except.error Error.hexInvalidByte

/-- The method `chainhash.Hash.String`: the hex digits of the byte-reversed hash. -/
def Hash.String (hash : Hash) : GoString := hexEncodeToString hash.val.reverse

/-- The constant `chainhash.MaxHashStringSize`. -/
def MaxHashStringSize : Nat := HashSize * 2

/-- The function `chainhash.NewHashFromStr` (through `chainhash.Decode`): at most 64 hex
digits, an odd count padded with a leading zero digit, decoded into the tail of a zeroed
32-byte array that is then byte-reversed. -/
def NewHashFromStr (src : GoString) : Except Error Hash :=
  if src.length > MaxHashStringSize then Except.error Error.hashStrSize
  else
    let srcBytes := if src.length % 2 = 0 then src else 48 :: src
    match hexDecode srcBytes with
    | Except.error err => Except.error err
    | Except.ok decoded =>
      let reversedHash := List.replicate (HashSize - decoded.length) (0 : Byte) ++ decoded
      SetBytes reversedHash.reverse

/-- The digit loop of `strconv.FormatUint(n, 10)`, least significant digit first onto
the front of `acc`; a uint64 has at most 20 digits. -/
def formatDigits : Nat → Nat → List Byte → List Byte
  | 0, _, acc => acc
  | fuel + 1, n, acc =>
    let acc1 := Fin.ofNat (48 + n % 10) :: acc
    if n / 10 = 0 then acc1 else formatDigits fuel (n / 10) acc1

/-- The function `strconv.FormatUint(n, 10)` (also `strconv.AppendUint`) on a uint64. -/
def FormatUint (n : Nat) : GoString := formatDigits 20 n []

/-- The method `wire.OutPoint.String`: hash string, a colon, the index in decimal. -/
def OutPoint.String (o : OutPoint) : GoString :=
  o.Hash.String ++ [58] ++ FormatUint o.Index

/-- The call `strings.SplitN(s, ":", 2)`: the text before the first colon and the text
after it, or the whole text when it has no colon. -/
def SplitN (s : GoString) : List GoString :=
  match s.span (fun c => decide (c ≠ 58)) with
  | (a, []) => [a]
  | (a, _ :: b) => [a, b]

/-- The digit loop of `strconv.ParseUint(s, 10, 32)`: a non-digit is a syntax error,
a value above 2^32 - 1 a range error; whichever comes first in the text is reported. -/
def parseUintLoop : List Byte → Nat → Except Error Nat
  | [], n => Except.ok n
  | c :: rest, n =>
    if 48 ≤ c.val ∧ c.val ≤ 57 then
      if n ≥ (2 ^ 64 - 1) / 10 + 1 then Except.error Error.parseRange
      else
        let n1 := n * 10 + (c.val - 48)
        if n1 > 2 ^ 32 - 1 then Except.error Error.parseRange
        else parseUintLoop rest n1
    else Except.error Error.parseSyntax

/-- The call `strconv.ParseUint(s, 10, 32)`. -/
def ParseUint (s : GoString) : Except Error Nat :=
  if s = [] then Except.error Error.parseSyntax else parseUintLoop s 0

/-- The call `strconv.ParseInt(s, 10, 32)`: an optional sign, then `ParseUint`; the
result must fit a signed 32-bit integer (cutoff 2^31). A range error of `ParseUint`
leaves the maximal value, which is above the cutoff, so it stays a range error. -/
def ParseInt (s : GoString) : Except Error Int :=
  match s with
  | [] => Except.error Error.parseSyntax
  | c :: rest =>
    let neg := decide (c.val = 45)
    let s1 := if c.val = 43 ∨ c.val = 45 then rest else s
    match ParseUint s1 with
    | Except.error err => Except.error err
    | Except.ok un =>
      let cutoff := 2 ^ 31
      if ¬ neg ∧ un ≥ cutoff then Except.error Error.parseRange
      else if neg ∧ un > cutoff then Except.error Error.parseRange
      else Except.ok (if neg then - (un : Int) else (un : Int))

/-- The Go conversion `uint32(index)` of an int64. -/
def toUint32 (index : Int) : Nat := (index % 2 ^ 32).toNat

/-- The function `parseOutPoint`. -/
def parseOutPoint (outPointBytes : List Byte) : Except Error OutPoint :=
  match SplitN outPointBytes with
  | [s0, s1] =>
    match NewHashFromStr s0 with
    | Except.error err => Except.error err
    | Except.ok txHash =>
      match ParseInt s1 with
      | Except.error err => Except.error err
      | Except.ok index => Except.ok { Hash := txHash, Index := toUint32 index }
  | _ => Except.error Error.wrongOutPointFormat

/-! ## Inputs, outputs and address histories -/

/-- The method `Tx.PutInput`. -/
def PutInput (tx : Tx) (outPoint : OutPoint) (txHash : Hash) : Tx × Option Error :=
  let p := Bucket.Put tx.bucketInputs outPoint.String txHash.slice
  ({ tx with bucketInputs := p.1 }, p.2)

/-- The method `Tx.Input`. -/
def Input (tx : Tx) (outPoint : OutPoint) : Except Error (Option Hash) :=
  match Bucket.Get tx.bucketInputs outPoint.String with
  | some value =>
    match SetBytes value with
    | Except.ok h => Except.ok (some h)
    | Except.error err => Except.error err
  | none => Except.ok none

/-- The method `Tx.DeleteInput`. -/
def DeleteInput (tx : Tx) (outPoint : OutPoint) : Tx :=
  { tx with bucketInputs := Bucket.Delete tx.bucketInputs outPoint.String }

/-- The method `Tx.PutOutput`; `txOut` is the struct a non-nil pointer points to. -/
def PutOutput (tx : Tx) (outPoint : OutPoint) (txOut : TxOut) : Tx × Option Error :=
  let w := writeJSON tx.bucketOutputs outPoint.String txOut
  ({ tx with bucketOutputs := w.1 }, w.2)

/-- The zero value `wire.TxOut{}`. -/
def TxOut.zero : TxOut := { Value := 0, PkScript := [] }

/-- The method `Tx.Output`. -/
def Output (tx : Tx) (outPoint : OutPoint) : Except Error (Option TxOut) :=
  let txOut := TxOut.zero
  match readJSON tx.bucketOutputs outPoint.String txOut with
  | (_, _, some err) => Except.error err
  | (false, _, none) => Except.ok none
  | (true, txOut, none) => Except.ok (some txOut)

/-- A Go map: its entries, one per key. -/
abbrev GoMap (κ ν : Type) := List (κ × ν)

/-- The Go statement `m[key] = value`. -/
def GoMap.set {κ ν : Type} [DecidableEq κ] : GoMap κ ν → κ → ν → GoMap κ ν
  | [], key, value => [(key, value)]
  | (k, v) :: rest, key, value =>
    if k = key then (key, value) :: rest else (k, v) :: GoMap.set rest key value

/-- The Go expression `m[key]` with its presence flag. -/
def GoMap.get {κ ν : Type} [DecidableEq κ] : GoMap κ ν → κ → Option ν
  | [], _ => none
  | (k, v) :: rest, key => if k = key then some v else GoMap.get rest key

/-- The Go expression `len(m)`. -/
def GoMap.len {κ ν : Type} (m : GoMap κ ν) : Nat := m.length

/-- The cursor loop of `Tx.Outputs`: decode the value, parse the key, store the pair. -/
def outputsLoop : List (List Byte × JSONBytes TxOut) → GoMap OutPoint TxOut →
    Except Error (GoMap OutPoint TxOut)
  | [], outputs => Except.ok outputs
  | (outPointBytes, txOutJSONBytes) :: rest, outputs =>
    match jsonUnmarshal txOutJSONBytes TxOut.zero with
    | Except.error err => Except.error err
    | Except.ok txOut =>
      match parseOutPoint outPointBytes with
      | Except.error err => Except.error err
      | Except.ok outPoint => outputsLoop rest (GoMap.set outputs outPoint txOut)

/-- The method `Tx.Outputs`. -/
def Outputs (tx : Tx) : Except Error (GoMap OutPoint TxOut) :=
  outputsLoop tx.bucketOutputs []

/-- The method `Tx.DeleteOutput`. -/
def DeleteOutput (tx : Tx) (outPoint : OutPoint) : Tx :=
  { tx with bucketOutputs := Bucket.Delete tx.bucketOutputs outPoint.String }

/-- The method `Tx.PutAddressHistory`. -/
def PutAddressHistory (tx : Tx) (scriptHashHex : GoString) (history : TxHistory) :
    Tx × Option Error :=
  let w := writeJSON tx.bucketAddressHistories scriptHashHex history
  ({ tx with bucketAddressHistories := w.1 }, w.2)

/-- The method `Tx.AddressHistory`: the history and the error. -/
def AddressHistory (tx : Tx) (scriptHashHex : GoString) : TxHistory × Option Error :=
  let history : TxHistory := []
  let r := readJSON tx.bucketAddressHistories scriptHashHex history
  (r.2.1, r.2.2)

/-! ## Sequences of store operations -/

/-- One call of a state-changing method of `Tx`. -/
inductive Op where
  | PutTx (txHash : Hash) (msgTx : Option MsgTx) (height : Int)
  | DeleteTx (txHash : Hash)
  | AddAddressToTx (txHash : Hash) (scriptHashHex : GoString)
  | RemoveAddressFromTx (txHash : Hash) (scriptHashHex : GoString)
  | MarkTxVerified (txHash : Hash) (headerTimestamp : Time)
  | PutInput (outPoint : OutPoint) (txHash : Hash)
  | DeleteInput (outPoint : OutPoint)
  | PutOutput (outPoint : OutPoint) (txOut : TxOut)
  | DeleteOutput (outPoint : OutPoint)
  | PutAddressHistory (scriptHashHex : GoString) (history : TxHistory)
  deriving DecidableEq

/-- The store after one operation (whatever it returned). -/
def step (tx : Tx) : Op → Tx
  | Op.PutTx txHash msgTx height => (PutTx tx txHash msgTx height).1
  | Op.DeleteTx txHash => DeleteTx tx txHash
  | Op.AddAddressToTx txHash a => (AddAddressToTx tx txHash a).1
  | Op.RemoveAddressFromTx txHash a => (RemoveAddressFromTx tx txHash a).1
  | Op.MarkTxVerified txHash t => (MarkTxVerified tx txHash t).1
  | Op.PutInput o txHash => (PutInput tx o txHash).1
  | Op.DeleteInput o => DeleteInput tx o
  | Op.PutOutput o txOut => (PutOutput tx o txOut).1
  | Op.DeleteOutput o => DeleteOutput tx o
  | Op.PutAddressHistory a history => (PutAddressHistory tx a history).1

/-- The store after a sequence of operations, starting from `tx`. -/
def runFrom (tx : Tx) (ops : List Op) : Tx := ops.foldl step tx

/-- The store after a sequence of operations on the empty store. -/
def run (ops : List Op) : Tx := runFrom Tx.empty ops

/-! ## Sample data -/

/-- A sample transaction hash: 32 zero bytes. -/
def hashA : Hash := ⟨List.replicate 32 0, by decide⟩

/-- A second sample transaction hash: 32 bytes of value one. -/
def hashB : Hash := ⟨List.replicate 32 1, by decide⟩

/-- A sample raw transaction. -/
def sampleMsgTx : MsgTx :=
  { Version := 1, TxIn := [], TxOut := [{ Value := 50000, PkScript := [118, 169] }],
    LockTime := 0 }

/-- A sample store: `hashA` has the address "a" and was verified at time 7. -/
def storeVerifiedA : Tx := run [Op.AddAddressToTx hashA [97], Op.MarkTxVerified hashA 7]

/-- A sample store: `hashA` was put at height 0 and has the address "a", unverified. -/
def storeUnverifiedA : Tx := run [Op.PutTx hashA (some sampleMsgTx) 0, Op.AddAddressToTx hashA [97]]

/-! ## Predicates on stores -/

/-- Every value stored in the transactions bucket is the JSON text of a record, and the
record satisfies `P`. -/
def AllRecords (P : walletTransaction → Prop) (tx : Tx) : Prop :=
  ∀ key v, Bucket.Get tx.bucketTransactions key = some v →
    ∃ w, v = JSONBytes.encoded w ∧ P w

/-- The transaction hash whose record or index entry an operation works on, if any. -/
def Op.target : Op → Option Hash
  | Op.PutTx txHash _ _ => some txHash
  | Op.DeleteTx txHash => some txHash
  | Op.AddAddressToTx txHash _ => some txHash
  | Op.RemoveAddressFromTx txHash _ => some txHash
  | Op.MarkTxVerified txHash _ => some txHash
  | _ => none

/-- Whether the sequence of operations, applied from `tx`, calls `AddAddressToTx` and
`RemoveAddressFromTx` only for a hash that has a stored record at that moment, and every
`MarkTxVerified` in it returns no error. -/
def indexCovering : Tx → List Op → Bool
  | _, [] => true
  | tx, op :: rest =>
    (match op with
      | Op.AddAddressToTx txHash _ => (Bucket.Get tx.bucketTransactions txHash.slice).isSome
      | Op.RemoveAddressFromTx txHash _ =>
        (Bucket.Get tx.bucketTransactions txHash.slice).isSome
      | Op.MarkTxVerified txHash t => (MarkTxVerified tx txHash t).2.isNone
      | _ => true) && indexCovering (step tx op) rest

/-- Whether the sequence of operations calls no `DeleteTx`. -/
def noDeleteTx : List Op → Bool
  | [] => true
  | Op.DeleteTx _ :: _ => false
  | _ :: rest => noDeleteTx rest

/-- Whether reading the record of the key succeeds: the key is missing, or its bytes
decode. -/
def canRead (tx : Tx) (key : List Byte) : Bool :=
  (readJSON tx.bucketTransactions key newWalletTransaction).2.2.isNone

/-- The first instant of the year 10000, which `Time.MarshalJSON` refuses. -/
def year10000 : Time := 253402300800000000000

end transactionsdb

/-! # Address sizes (`backend/coins/btc/addresses`) -/

namespace addresses

/-- The type `addresses.AddressType`, with the three supported address types. -/
inductive AddressType where
  /-- The constant `AddressTypeP2PKH`: legacy pay-to-public-key-hash. -/
  | P2PKH
  /-- The constant `AddressTypeP2WPKHP2SH`: segwit pay-to-witness-public-key-hash wrapped
  in pay-to-script-hash. -/
  | P2WPKHP2SH
  /-- The constant `AddressTypeP2WPKH`: native segwit pay-to-witness-public-key-hash. -/
  | P2WPKH
  deriving DecidableEq

/-- The variable `addressTypes` of `sizes_test.go`. -/
def addressTypes : List AddressType :=
  [AddressType.P2PKH, AddressType.P2WPKHP2SH, AddressType.P2WPKH]

/-- The longest DER encoding of a signature, without the sighash type byte. -/
def maxDERSignatureSize : Nat := 71

/-- The length of a serialized compressed public key. -/
def compressedPubKeySize : Nat := 33

/-- The length of the redeem script of a wrapped segwit address: `OP_0`, a push of 20
bytes, the 20-byte public key hash. -/
def redeemScriptSize : Nat := 1 + 1 + 20

/-- Modelled from the spec: the function `SigScriptWitnessSize` (the spec's `sizeFor`),
whose source file is not part of the sources at hand; only its test is. The spec has it
return the maximal signature-script size of a spend from the address type and whether
the type has a witness: the size counts the longest signature (71-byte DER plus the
sighash type byte) and the fixed-size pushes of the public key and, for the wrapped type,
of the redeem script; a native segwit spend has an empty signature script. -/
def SigScriptWitnessSize : AddressType → Nat × Bool
  | AddressType.P2PKH =>
    (1 + (maxDERSignatureSize + 1) + 1 + compressedPubKeySize, false)
  | AddressType.P2WPKHP2SH => (1 + redeemScriptSize, true)
  | AddressType.P2WPKH => (0, true)

/-- The number `n` as `k` little-endian bytes (`binary.LittleEndian.PutUint16` and
`PutUint32`). -/
def littleEndian : Nat → Nat → List transactionsdb.Byte
  | 0, _ => []
  | k + 1, n => Fin.ofNat (n % 256) :: littleEndian k (n / 256)

/-- The method `txscript.ScriptBuilder.AddData`: the script with a canonical push of
`data` appended (a small-integer opcode for a single small byte, else the shortest push
opcode, the length, and the data). -/
def AddData (script data : List transactionsdb.Byte) : List transactionsdb.Byte :=
  match data with
  | [] => script ++ [0]
  | [b] =>
    if b.val = 0 then script ++ [0]
    else if b.val ≤ 16 then script ++ [Fin.ofNat (80 + b.val)]
    else if b.val = 129 then script ++ [79]
    else script ++ [1, b]
  | _ =>
    if data.length < 76 then script ++ [Fin.ofNat data.length] ++ data
    else if data.length ≤ 255 then script ++ [76, Fin.ofNat data.length] ++ data
    else if data.length ≤ 65535 then script ++ [77] ++ littleEndian 2 data.length ++ data
    else script ++ [78] ++ littleEndian 4 data.length ++ data

/-- The constant `txscript.SigHashAll`. -/
def SigHashAll : transactionsdb.Byte := 1

/-- An account address as far as signature scripts go: its type, its serialized
compressed public key and the 20-byte hash of that key. -/
structure AccountAddress where
  addressType : AddressType
  publicKey : List transactionsdb.Byte
  publicKeyHash : List transactionsdb.Byte
  deriving DecidableEq

/-- The redeem script of a wrapped segwit address: `OP_0` and the push of the public key
hash. -/
def AccountAddress.redeemScript (address : AccountAddress) : List transactionsdb.Byte :=
  AddData [0] address.publicKeyHash

/-- Modelled from the spec: the method `AccountAddress.SignatureScript` that the test
compares the sizes with, whose source file is not part of the sources at hand. By the
spec a legacy spend has a signature script and no witness, a wrapped segwit spend has
both, and a native segwit spend has a witness and an empty signature script; the
signature script pushes the signature with its sighash type byte and the public key
(legacy) or the redeem script (wrapped), and the witness holds the signature with its
sighash type byte and the public key. `signature` is the DER serialization. -/
def AccountAddress.SignatureScript (address : AccountAddress)
    (signature : List transactionsdb.Byte) :
    List transactionsdb.Byte × Option (List (List transactionsdb.Byte)) :=
  match address.addressType with
  | AddressType.P2PKH =>
    (AddData (AddData [] (signature ++ [SigHashAll])) address.publicKey, none)
  | AddressType.P2WPKHP2SH =>
    (AddData [] address.redeemScript, some [signature ++ [SigHashAll], address.publicKey])
  | AddressType.P2WPKH =>
    ([], some [signature ++ [SigHashAll], address.publicKey])

/-- The 71-byte DER signature of `TestSigScriptWitnessSize`. -/
def testSignature : List transactionsdb.Byte :=
  [48, 69, 2, 33, 0, 169, 125, 194, 62, 71, 187, 121, 219, 255, 115, 227, 59, 228, 164, 228,
    118, 214, 239, 103, 200, 194, 58, 158, 228, 169, 238, 33, 244, 221, 128, 240, 242, 2, 32,
    28, 93, 75, 228, 55, 48, 133, 57, 225, 25, 61, 145, 24, 250, 224, 59, 174, 25, 66, 233,
    206, 39, 200, 104, 3, 187, 95, 24, 170, 4, 74, 70]

/-- A sample address of the given type: a compressed public key (a byte 2, then 32 bytes)
and a 20-byte key hash. -/
def sampleAddress (addressType : AddressType) : AccountAddress :=
  { addressType := addressType,
    publicKey := 2 :: List.replicate 32 7,
    publicKeyHash := List.replicate 20 9 }

end addresses

/-! # Currency formatting (`backend/coins/btc/handlers`) -/

namespace handlers

/-- The call `strings.Index(s, ".")` for a one-byte separator `c`: the index of its first
occurrence, or -1. -/
def Index : transactionsdb.GoString → transactionsdb.Byte → Int
  | [], _ => -1
  | b :: rest, c =>
    if b = c then 0
    else if Index rest c < 0 then -1 else Index rest c + 1

/-- The `for position > 0` loop of `formatAsCurrency`: insert an apostrophe (byte 39) at
`position`, then move three bytes to the left. `fuel` bounds the iterations. -/
def formatLoop : Nat → Int → transactionsdb.GoString → transactionsdb.GoString
  | 0, _, formatted => formatted
  | fuel + 1, position, formatted =>
    if position > 0 then
      formatLoop fuel (position - 3)
        (formatted.take position.toNat ++ [39] ++ formatted.drop position.toNat)
    else formatted

/-- The function `formatAsCurrency`. The rendering `strconv.FormatFloat(amount, 'f', 2, 64)`
of the float64 amount is the parameter `FormatFloat`; the loop runs at most `position`
times, which is the fuel it gets. -/
def formatAsCurrency {float64 : Type} (FormatFloat : float64 → transactionsdb.GoString)
    (amount : float64) : transactionsdb.GoString :=
  let formatted := FormatFloat amount
  let position := Index formatted 46 - 3
  formatLoop position.toNat position formatted

/-- The decimal digits of a natural number, as bytes. -/
def decimalDigits (n : Nat) : transactionsdb.GoString := transactionsdb.FormatUint n

/-- The text `strconv.FormatFloat(amount, 'f', 2, 64)` for an amount that is a whole
number of hundredths: a minus sign when negative, the integer part, a point, two
digits. -/
def formatHundredths (hundredths : Int) : transactionsdb.GoString :=
  (if hundredths < 0 then [45] else []) ++ decimalDigits (hundredths.natAbs / 100) ++ [46] ++
    [Fin.ofNat (48 + hundredths.natAbs % 100 / 10), Fin.ofNat (48 + hundredths.natAbs % 10)]

end handlers

namespace transactionsdb

/-! ## Facts about buckets -/

theorem Bucket.Get_upsert_self {κ ν : Type} [DecidableEq κ] [LT κ]
    [∀ a b : κ, Decidable (a < b)] (b : Bucket κ ν) (key : κ) (value : ν) :
    Bucket.Get (Bucket.upsert b key value) key = some value := by
  induction b with
  | nil => simp [Bucket.upsert, Bucket.Get]
  | cons e rest ih =>
    obtain ⟨k, v⟩ := e
    unfold Bucket.upsert
    by_cases h1 : k = key
    · simp [h1, Bucket.Get]
    · by_cases h2 : key < k
      · simp [h1, h2, Bucket.Get]
      · simp [h1, h2, Bucket.Get, ih]

theorem Bucket.Get_upsert_ne {κ ν : Type} [DecidableEq κ] [LT κ]
    [∀ a b : κ, Decidable (a < b)] (b : Bucket κ ν) (key other : κ) (value : ν)
    (hne : other ≠ key) :
    Bucket.Get (Bucket.upsert b key value) other = Bucket.Get b other := by
  have hne2 : ¬ key = other := fun h => hne h.symm
  induction b with
  | nil => simp [Bucket.upsert, Bucket.Get, hne2]
  | cons e rest ih =>
    obtain ⟨k, v⟩ := e
    unfold Bucket.upsert
    by_cases h1 : k = key
    · subst h1
      simp [Bucket.Get, hne2]
    · by_cases h2 : key < k
      · simp [h1, h2, Bucket.Get, hne2]
      · simp [h1, h2, Bucket.Get, ih]

theorem Bucket.Get_Delete_self {κ ν : Type} [DecidableEq κ] (b : Bucket κ ν) (key : κ) :
    Bucket.Get (Bucket.Delete b key) key = none := by
  induction b with
  | nil => simp [Bucket.Delete, Bucket.Get]
  | cons e rest ih =>
    obtain ⟨k, v⟩ := e
    unfold Bucket.Delete
    by_cases h1 : k = key
    · simp [h1, ih]
    · simp [h1, Bucket.Get, ih]

theorem Bucket.Get_Delete_ne {κ ν : Type} [DecidableEq κ] (b : Bucket κ ν) (key other : κ)
    (hne : other ≠ key) :
    Bucket.Get (Bucket.Delete b key) other = Bucket.Get b other := by
  have hne2 : ¬ key = other := fun h => hne h.symm
  induction b with
  | nil => simp [Bucket.Delete, Bucket.Get]
  | cons e rest ih =>
    obtain ⟨k, v⟩ := e
    unfold Bucket.Delete
    by_cases h1 : k = key
    · subst h1
      simp [Bucket.Get, hne2, ih]
    · simp [h1, Bucket.Get, ih]

theorem Bucket.mem_keys_iff {κ ν : Type} [DecidableEq κ] (b : Bucket κ ν) (key : κ) :
    key ∈ Bucket.keys b ↔ Bucket.Get b key ≠ none := by
  induction b with
  | nil => simp [Bucket.keys, Bucket.Get]
  | cons e rest ih =>
    obtain ⟨k, v⟩ := e
    by_cases h1 : k = key
    · simp [Bucket.keys, Bucket.Get, h1]
    · have h2 : key ≠ k := fun h => h1 h.symm
      simp only [Bucket.keys, List.map_cons, List.mem_cons, Bucket.Get, h1, h2, if_false,
        false_or]
      exact ih

theorem Bucket.mem_keys_upsert {κ ν : Type} [DecidableEq κ] [LT κ]
    [∀ a b : κ, Decidable (a < b)] (b : Bucket κ ν) (key other : κ) (value : ν) :
    other ∈ Bucket.keys (Bucket.upsert b key value) ↔
      other = key ∨ other ∈ Bucket.keys b := by
  rw [Bucket.mem_keys_iff, Bucket.mem_keys_iff]
  by_cases h : other = key
  · subst h
    simp [Bucket.Get_upsert_self]
  · simp [Bucket.Get_upsert_ne b key other value h, h]

theorem Bucket.mem_keys_Delete {κ ν : Type} [DecidableEq κ] (b : Bucket κ ν) (key other : κ) :
    other ∈ Bucket.keys (Bucket.Delete b key) ↔ other ≠ key ∧ other ∈ Bucket.keys b := by
  rw [Bucket.mem_keys_iff, Bucket.mem_keys_iff]
  by_cases h : other = key
  · subst h
    simp [Bucket.Get_Delete_self]
  · simp [Bucket.Get_Delete_ne b key other h, h]

/-- The method `bucket.Put` succeeds on a key of 1 to 32768 bytes. -/
theorem Bucket.Put_ok {ν : Type} (b : Bucket (List Byte) ν) (key : List Byte) (value : ν)
    (h0 : 0 < key.length) (hmax : key.length ≤ Bucket.MaxKeySize) :
    Bucket.Put b key value = (Bucket.upsert b key value, none) := by
  unfold Bucket.Put
  have h1 : ¬ key.length = 0 := by omega
  have h2 : ¬ key.length > Bucket.MaxKeySize := by omega
  simp only [h1, h2, if_false]

/-- The method `bucket.Put` succeeds on the 32 bytes of a hash. -/
theorem Bucket.Put_hash {ν : Type} (b : Bucket (List Byte) ν) (txHash : Hash) (value : ν) :
    Bucket.Put b txHash.slice value = (Bucket.upsert b txHash.slice value, none) := by
  have hlen : txHash.slice.length = 32 := txHash.property
  exact Bucket.Put_ok b txHash.slice value (by omega) (by rw [hlen]; decide)

/-! ## Facts about the JSON codec of `walletTransaction` -/

theorem marshal_walletTransaction (w : walletTransaction) :
    JSONValue.marshal w =
      if w.timestampMarshals = true then
        Except.ok { w with Addresses := normalizeAddresses w.Addresses }
      else Except.error Error.marshal := rfl

theorem decodes_walletTransaction (w : walletTransaction) :
    JSONValue.decodes w =
      (w.timestampMarshals && w.Addresses.all validUTF8 && decide w.Addresses.Nodup) := rfl

/-- A list of distinct valid UTF-8 keys is written to JSON as it is. -/
theorem normalizeAddresses_of_valid (m : List GoString)
    (hvalid : ∀ a ∈ m, validUTF8 a = true) (hnodup : m.Nodup) :
    normalizeAddresses m = m := by
  have hmap : m.map coerceUTF8 = m := by
    have : ∀ a ∈ m, coerceUTF8 a = id a := by
      intro a ha
      have := hvalid a ha
      simpa [validUTF8] using this
    rw [List.map_congr_left this, List.map_id]
  unfold normalizeAddresses
  rw [hmap]
  exact List.dedup_eq_self.mpr hnodup

theorem decodes_parts (w : walletTransaction) (h : JSONValue.decodes w = true) :
    w.timestampMarshals = true ∧ (∀ a ∈ w.Addresses, validUTF8 a = true) ∧
      w.Addresses.Nodup := by
  rw [decodes_walletTransaction] at h
  simp only [Bool.and_eq_true, List.all_eq_true, decide_eq_true_eq] at h
  exact ⟨h.1.1, h.1.2, h.2⟩

theorem decodes_of_parts (w : walletTransaction) (ht : w.timestampMarshals = true)
    (hvalid : ∀ a ∈ w.Addresses, validUTF8 a = true) (hnodup : w.Addresses.Nodup) :
    JSONValue.decodes w = true := by
  rw [decodes_walletTransaction]
  simp only [Bool.and_eq_true, List.all_eq_true, decide_eq_true_eq]
  exact ⟨⟨ht, hvalid⟩, hnodup⟩

/-- A record that a JSON text decodes to is written back by `json.Marshal` as it is. -/
theorem marshal_of_decodes (w : walletTransaction) (h : JSONValue.decodes w = true) :
    JSONValue.marshal w = Except.ok w := by
  obtain ⟨ht, hvalid, hnodup⟩ := decodes_parts w h
  rw [marshal_walletTransaction, if_pos ht, normalizeAddresses_of_valid _ hvalid hnodup]

theorem decodes_newWalletTransaction : JSONValue.decodes newWalletTransaction = true := by
  decide

/-! ## What `json.Marshal` writes is valid UTF-8 -/

theorem utf8Width_single (b0 : Byte) (r : GoString) (h : b0.val < 128) :
    utf8Width (b0 :: r) = 1 := by
  unfold utf8Width
  simp only [h, if_true]

/-- The width of the first character depends only on the bytes of that character. -/
theorem utf8Width_prefix (b0 : Byte) (r : GoString) (w : Nat)
    (h : utf8Width (b0 :: r) = w + 1) :
    w ≤ r.length ∧ ∀ t : GoString, utf8Width (b0 :: (r.take w ++ t)) = w + 1 := by
  by_cases h0 : b0.val < 128
  · rw [utf8Width_single b0 r h0] at h
    have hw : w = 0 := by omega
    subst hw
    exact ⟨Nat.zero_le _, fun t => utf8Width_single b0 _ h0⟩
  · unfold utf8Width at h
    simp only [h0, if_false] at h
    cases hl : utf8Lead b0 with
    | none =>
      rw [hl] at h
      simp at h
    | some p =>
      obtain ⟨size, lo, hi⟩ := p
      rw [hl] at h
      cases r with
      | nil => simp at h
      | cons b1 r1 =>
        simp only [] at h
        by_cases h1 : b1.val < lo ∨ hi < b1.val
        · simp only [h1, if_true] at h
          omega
        · simp only [h1, if_false] at h
          by_cases h2 : size ≤ 2
          · simp only [h2, if_true] at h
            have hw : w = 1 := by omega
            subst hw
            refine ⟨by simp, fun t => ?_⟩
            unfold utf8Width
            simp [h0, hl, h1, h2]
          · simp only [h2, if_false] at h
            cases r1 with
            | nil => simp at h
            | cons b2 r2 =>
              simp only [] at h
              by_cases h3 : utf8Continuation b2 = false
              · rw [if_pos h3] at h
                omega
              · rw [if_neg h3] at h
                by_cases h4 : size ≤ 3
                · simp only [h4, if_true] at h
                  have hw : w = 2 := by omega
                  subst hw
                  refine ⟨by simp, fun t => ?_⟩
                  unfold utf8Width
                  simp [h0, hl, h1, h2, h3, h4]
                · simp only [h4, if_false] at h
                  cases r2 with
                  | nil => simp at h
                  | cons b3 r3 =>
                    simp only [] at h
                    by_cases h5 : utf8Continuation b3 = false
                    · rw [if_pos h5] at h
                      omega
                    · rw [if_neg h5] at h
                      have hw : w = 3 := by omega
                      subst hw
                      refine ⟨by simp, fun t => ?_⟩
                      unfold utf8Width
                      simp [h0, hl, h1, h2, h3, h4, h5]

theorem coerceUTF8From_zero_cons (b : Byte) (rest : GoString) :
    coerceUTF8From 0 (b :: rest) =
      match utf8Width (b :: rest) with
      | 0 => [239, 191, 189] ++ coerceUTF8From 0 rest
      | width + 1 => b :: coerceUTF8From width rest := by
  rw [coerceUTF8From]

theorem coerceUTF8From_succ_cons (pending : Nat) (b : Byte) (rest : GoString) :
    coerceUTF8From (pending + 1) (b :: rest) = b :: coerceUTF8From pending rest := by
  rw [coerceUTF8From]

/-- The loop copies the pending bytes and goes on after them. -/
theorem coerceUTF8From_take (w : Nat) :
    ∀ r : GoString, w ≤ r.length →
      coerceUTF8From w r = r.take w ++ coerceUTF8From 0 (r.drop w) := by
  induction w with
  | zero => intro r _; simp
  | succ w ih =>
    intro r hr
    cases r with
    | nil => simp at hr
    | cons b rest =>
      rw [coerceUTF8From_succ_cons, ih rest (by simpa using hr)]
      simp

theorem utf8Width_replacement (t : GoString) : utf8Width (239 :: 191 :: 189 :: t) = 3 := by
  have h0 : ¬ ((239 : Byte).val < 128) := by decide
  have hl : utf8Lead (239 : Byte) = some (3, 128, 191) := by decide
  have h1 : ¬ ((191 : Byte).val < 128 ∨ 191 < (191 : Byte).val) := by decide
  have h2 : ¬ (utf8Continuation (189 : Byte) = false) := by decide
  unfold utf8Width
  simp only []
  rw [if_neg h0, hl]
  simp only []
  rw [if_neg h1, if_neg (by decide), if_neg h2, if_pos (by decide)]

/-- What `json.Marshal` writes for a string is valid UTF-8: writing it again changes
nothing. -/
theorem coerceUTF8From_idem (s : GoString) :
    ∀ n : Nat, coerceUTF8From n (coerceUTF8From n s) = coerceUTF8From n s := by
  induction s with
  | nil => intro n; cases n <;> simp [coerceUTF8From]
  | cons b rest ih =>
    intro n
    cases n with
    | succ k =>
      rw [coerceUTF8From_succ_cons, coerceUTF8From_succ_cons, ih k]
    | zero =>
      rw [coerceUTF8From_zero_cons]
      cases hw : utf8Width (b :: rest) with
      | zero =>
        simp only [List.cons_append, List.nil_append]
        rw [coerceUTF8From_zero_cons, utf8Width_replacement]
        simp only []
        rw [coerceUTF8From_succ_cons, coerceUTF8From_succ_cons, ih 0]
      | succ w =>
        simp only []
        obtain ⟨hlen, hpre⟩ := utf8Width_prefix b rest w hw
        rw [coerceUTF8From_zero_cons]
        have hw1 : utf8Width (b :: coerceUTF8From w rest) = w + 1 := by
          rw [coerceUTF8From_take w rest hlen]
          exact hpre _
        rw [hw1]
        simp only []
        rw [ih w]

theorem validUTF8_coerceUTF8 (s : GoString) : validUTF8 (coerceUTF8 s) = true := by
  unfold validUTF8 coerceUTF8
  rw [coerceUTF8From_idem s 0]
  exact decide_eq_true rfl

/-- The address keys that `json.Marshal` writes are valid UTF-8 and distinct. -/
theorem normalizeAddresses_valid (m : List GoString) :
    (∀ a ∈ normalizeAddresses m, validUTF8 a = true) ∧ (normalizeAddresses m).Nodup := by
  unfold normalizeAddresses
  refine ⟨?_, List.nodup_dedup _⟩
  intro a ha
  obtain ⟨b, _, hb⟩ := List.mem_map.mp (List.mem_dedup.mp ha)
  rw [← hb]
  exact validUTF8_coerceUTF8 b

/-- The JSON text that `json.Marshal` writes for a record decodes. -/
theorem marshal_decodes (w v : walletTransaction)
    (h : JSONValue.marshal w = Except.ok v) : JSONValue.decodes v = true := by
  rw [marshal_walletTransaction] at h
  by_cases ht : w.timestampMarshals = true
  · rw [if_pos ht] at h
    have hv := Except.ok.inj h
    rw [← hv]
    exact decodes_of_parts _ ht (normalizeAddresses_valid _).1 (normalizeAddresses_valid _).2
  · rw [if_neg ht] at h
    exact Except.noConfusion h

/-! ## Facts about `readJSON` and `modifyTx` -/

theorem readJSON_of_none {α : Type} [JSONValue α] (bucket : Bucket (List Byte) (JSONBytes α))
    (key : List Byte) (value : α) (h : Bucket.Get bucket key = none) :
    readJSON bucket key value = (false, value, none) := by
  simp [readJSON, h]

theorem readJSON_of_encoded {α : Type} [JSONValue α]
    (bucket : Bucket (List Byte) (JSONBytes α)) (key : List Byte) (value w : α)
    (h : Bucket.Get bucket key = some (JSONBytes.encoded w))
    (hw : JSONValue.decodes w = true) :
    readJSON bucket key value = (true, w, none) := by
  simp [readJSON, h, jsonUnmarshal, hw]

theorem readJSON_of_undecodable {α : Type} [JSONValue α]
    (bucket : Bucket (List Byte) (JSONBytes α)) (key : List Byte) (value w : α)
    (h : Bucket.Get bucket key = some (JSONBytes.encoded w))
    (hw : JSONValue.decodes w = false) :
    readJSON bucket key value = (true, value, some Error.unmarshal) := by
  simp [readJSON, h, jsonUnmarshal, hw]

theorem readJSON_of_malformed {α : Type} [JSONValue α]
    (bucket : Bucket (List Byte) (JSONBytes α)) (key : List Byte) (value : α)
    (h : Bucket.Get bucket key = some JSONBytes.malformed) :
    readJSON bucket key value = (true, value, some Error.unmarshal) := by
  simp [readJSON, h, jsonUnmarshal]

/-- The three cases of a stored value: missing, decodable, malformed. -/
theorem Bucket.Get_cases {α : Type} (bucket : Bucket (List Byte) (JSONBytes α))
    (key : List Byte) :
    Bucket.Get bucket key = none ∨ (∃ w, Bucket.Get bucket key = some (JSONBytes.encoded w)) ∨
      Bucket.Get bucket key = some JSONBytes.malformed := by
  cases h : Bucket.Get bucket key with
  | none => exact Or.inl rfl
  | some v =>
    cases v with
    | encoded w => exact Or.inr (Or.inl ⟨w, rfl⟩)
    | malformed => exact Or.inr (Or.inr rfl)

theorem encoded_ne_malformed {α : Type} {r : Option (JSONBytes α)} {w : α}
    (h : r = some (JSONBytes.encoded w)) : r ≠ some JSONBytes.malformed := by
  rw [h]
  intro hc
  exact JSONBytes.noConfusion (Option.some.inj hc)

/-- Reading a record succeeds exactly when the key is missing or holds a JSON text. -/
theorem canRead_iff (tx : Tx) (key : List Byte) :
    canRead tx key = true ↔
      Bucket.Get tx.bucketTransactions key = none ∨
      ∃ w, Bucket.Get tx.bucketTransactions key = some (JSONBytes.encoded w) ∧
        JSONValue.decodes w = true := by
  unfold canRead
  rcases Bucket.Get_cases tx.bucketTransactions key with h0 | ⟨w, h0⟩ | h0
  · rw [readJSON_of_none _ _ _ h0]
    exact ⟨fun _ => Or.inl h0, fun _ => rfl⟩
  · cases hw : JSONValue.decodes w with
    | true =>
      rw [readJSON_of_encoded _ _ _ w h0 hw]
      exact ⟨fun _ => Or.inr ⟨w, h0, hw⟩, fun _ => rfl⟩
    | false =>
      rw [readJSON_of_undecodable _ _ _ w h0 hw]
      constructor
      · intro hc
        exact absurd hc (by decide)
      · rintro (h1 | ⟨w1, h1, hw1⟩)
        · rw [h0] at h1
          exact Option.noConfusion h1
        · rw [h0] at h1
          have : w = w1 := JSONBytes.encoded.inj (Option.some.inj h1)
          rw [this, hw1] at hw
          exact Bool.noConfusion hw
  · rw [readJSON_of_malformed _ _ _ h0]
    constructor
    · intro hc
      exact absurd hc (by decide)
    · rintro (h1 | ⟨w1, h1, _⟩)
      · rw [h0] at h1
        exact Option.noConfusion h1
      · rw [h0] at h1
        exact JSONBytes.noConfusion (Option.some.inj h1)

theorem canRead_of_none (tx : Tx) (key : List Byte)
    (h : Bucket.Get tx.bucketTransactions key = none) : canRead tx key = true :=
  (canRead_iff tx key).mpr (Or.inl h)

theorem canRead_of_encoded (tx : Tx) (key : List Byte) (w : walletTransaction)
    (h : Bucket.Get tx.bucketTransactions key = some (JSONBytes.encoded w))
    (hw : JSONValue.decodes w = true) : canRead tx key = true :=
  (canRead_iff tx key).mpr (Or.inr ⟨w, h, hw⟩)

/-- A stored record that is read decodes. -/
theorem decodes_of_canRead (tx : Tx) (key : List Byte) (w : walletTransaction)
    (hread : canRead tx key = true)
    (h : Bucket.Get tx.bucketTransactions key = some (JSONBytes.encoded w)) :
    JSONValue.decodes w = true := by
  rcases (canRead_iff tx key).mp hread with h1 | ⟨w1, h1, hw1⟩
  · rw [h] at h1
    exact Option.noConfusion h1
  · rw [h] at h1
    have : w = w1 := JSONBytes.encoded.inj (Option.some.inj h1)
    rw [this]
    exact hw1

theorem not_malformed_of_canRead (tx : Tx) (key : List Byte) (hread : canRead tx key = true) :
    Bucket.Get tx.bucketTransactions key ≠ some JSONBytes.malformed := by
  rcases (canRead_iff tx key).mp hread with h1 | ⟨w1, h1, _⟩
  · rw [h1]
    exact fun hc => Option.noConfusion hc
  · exact encoded_ne_malformed h1

theorem readJSON_of_canRead (tx : Tx) (key : List Byte) (hread : canRead tx key = true) :
    ∃ found, readJSON tx.bucketTransactions key newWalletTransaction =
      (found, recordAt tx key, none) := by
  rcases (canRead_iff tx key).mp hread with h1 | ⟨w1, h1, hw1⟩
  · exact ⟨false, by simp [recordAt, readJSON_of_none _ _ _ h1]⟩
  · exact ⟨true, by simp [recordAt, readJSON_of_encoded _ _ _ w1 h1 hw1]⟩

theorem readJSON_of_not_canRead (tx : Tx) (key : List Byte) (hread : canRead tx key = false) :
    readJSON tx.bucketTransactions key newWalletTransaction =
      (true, newWalletTransaction, some Error.unmarshal) := by
  rcases Bucket.Get_cases tx.bucketTransactions key with h0 | ⟨w, h0⟩ | h0
  · rw [canRead_of_none tx key h0] at hread
    exact Bool.noConfusion hread
  · cases hw : JSONValue.decodes w with
    | true =>
      rw [canRead_of_encoded tx key w h0 hw] at hread
      exact Bool.noConfusion hread
    | false => rw [readJSON_of_undecodable _ _ _ w h0 hw]
  · rw [readJSON_of_malformed _ _ _ h0]

theorem recordAt_of_none (tx : Tx) (key : List Byte)
    (h : Bucket.Get tx.bucketTransactions key = none) :
    recordAt tx key = newWalletTransaction := by
  simp [recordAt, readJSON_of_none _ _ _ h]

theorem recordAt_of_encoded (tx : Tx) (key : List Byte) (w : walletTransaction)
    (h : Bucket.Get tx.bucketTransactions key = some (JSONBytes.encoded w))
    (hw : JSONValue.decodes w = true) :
    recordAt tx key = w := by
  simp [recordAt, readJSON_of_encoded _ _ _ w h hw]

/-- The record that is read, stored or fresh, is one a JSON text decodes to. -/
theorem decodes_recordAt (tx : Tx) (key : List Byte) (hread : canRead tx key = true) :
    JSONValue.decodes (recordAt tx key) = true := by
  rcases (canRead_iff tx key).mp hread with h1 | ⟨w1, h1, hw1⟩
  · rw [recordAt_of_none tx key h1]
    exact decodes_newWalletTransaction
  · rw [recordAt_of_encoded tx key w1 h1 hw1]
    exact hw1

/-- When the stored value does not decode, `modifyTx` returns the error and changes
nothing. -/
theorem modifyTx_unreadable {β : Type} (tx : Tx) (key : List Byte)
    (f : walletTransaction → β → walletTransaction × β) (captured : β)
    (hread : canRead tx key = false) :
    modifyTx tx key f captured = (tx, captured, some Error.unmarshal) := by
  simp only [modifyTx, readJSON_of_not_canRead tx key hread]

/-- When the record is read and `json.Marshal` accepts the modified record, `modifyTx`
writes it under the key (a key `bucket.Put` accepts) and returns no error. -/
theorem modifyTx_written {β : Type} (tx : Tx) (key : List Byte)
    (f : walletTransaction → β → walletTransaction × β) (captured : β)
    (v : walletTransaction) (hread : canRead tx key = true)
    (h0 : 0 < key.length) (hmax : key.length ≤ Bucket.MaxKeySize)
    (hmarshal : JSONValue.marshal (f (recordAt tx key) captured).1 = Except.ok v) :
    modifyTx tx key f captured =
      ({ tx with
          bucketTransactions := Bucket.upsert tx.bucketTransactions key (JSONBytes.encoded v) },
        (f (recordAt tx key) captured).2, none) := by
  obtain ⟨found, h⟩ := readJSON_of_canRead tx key hread
  simp only [modifyTx, h, writeJSON, jsonMarshal, hmarshal, Bucket.Put_ok _ key _ h0 hmax]

/-- When the record is read and `json.Marshal` rejects the modified record, `modifyTx`
returns that error and writes nothing. -/
theorem modifyTx_rejected {β : Type} (tx : Tx) (key : List Byte)
    (f : walletTransaction → β → walletTransaction × β) (captured : β)
    (err : Error) (hread : canRead tx key = true)
    (hmarshal : JSONValue.marshal (f (recordAt tx key) captured).1 = Except.error err) :
    modifyTx tx key f captured = (tx, (f (recordAt tx key) captured).2, some err) := by
  obtain ⟨found, h⟩ := readJSON_of_canRead tx key hread
  simp only [modifyTx, h, writeJSON, jsonMarshal, hmarshal]

theorem TxInfo_ok (tx : Tx) (txHash : Hash) (hread : canRead tx txHash.slice = true) :
    TxInfo tx txHash = Except.ok ((recordAt tx txHash.slice).Tx,
      (recordAt tx txHash.slice).Addresses, (recordAt tx txHash.slice).Height,
      (recordAt tx txHash.slice).HeaderTimestamp) := by
  obtain ⟨found, h⟩ := readJSON_of_canRead tx txHash.slice hread
  simp only [TxInfo, h]

theorem TxInfo_unreadable (tx : Tx) (txHash : Hash)
    (hread : canRead tx txHash.slice = false) :
    TxInfo tx txHash = Except.error Error.unmarshal := by
  simp only [TxInfo, readJSON_of_not_canRead tx txHash.slice hread]

theorem Hash.slice_length (txHash : Hash) : txHash.slice.length = 32 := txHash.property

theorem Hash.slice_pos (txHash : Hash) : 0 < txHash.slice.length := by
  rw [Hash.slice_length]; decide

theorem Hash.slice_le (txHash : Hash) : txHash.slice.length ≤ Bucket.MaxKeySize := by
  rw [Hash.slice_length]; decide

/-! ## What each transaction operation does -/

theorem PutTx_ok (tx : Tx) (txHash : Hash) (msgTx : Option MsgTx) (height : Int)
    (hread : canRead tx txHash.slice = true) :
    PutTx tx txHash msgTx height =
      ({ tx with
          bucketTransactions := Bucket.upsert tx.bucketTransactions txHash.slice
            (JSONBytes.encoded
              { recordAt tx txHash.slice with Tx := msgTx, Height := height }),
          bucketUnverifiedTransactions :=
            if (recordAt tx txHash.slice).Verified = none then
              Bucket.upsert tx.bucketUnverifiedTransactions txHash.slice ()
            else tx.bucketUnverifiedTransactions }, none) := by
  obtain ⟨ht, hvalid, hnodup⟩ := decodes_parts _ (decodes_recordAt tx txHash.slice hread)
  have hmarshal : JSONValue.marshal
      ({ recordAt tx txHash.slice with Tx := msgTx, Height := height } : walletTransaction) =
      Except.ok { recordAt tx txHash.slice with Tx := msgTx, Height := height } :=
    marshal_of_decodes _ (decodes_of_parts _ ht hvalid hnodup)
  unfold PutTx
  rw [modifyTx_written tx txHash.slice _ _ _ hread txHash.slice_pos txHash.slice_le hmarshal]
  by_cases hv : (recordAt tx txHash.slice).Verified = none
  · simp only [hv, if_true, Bucket.Put_hash]
  · simp only [hv, if_false]

theorem PutTx_unreadable (tx : Tx) (txHash : Hash) (msgTx : Option MsgTx) (height : Int)
    (hread : canRead tx txHash.slice = false) :
    PutTx tx txHash msgTx height = (tx, some Error.unmarshal) := by
  unfold PutTx
  rw [modifyTx_unreadable tx txHash.slice _ _ hread]

theorem AddAddressToTx_ok (tx : Tx) (txHash : Hash) (a : GoString)
    (hread : canRead tx txHash.slice = true) :
    AddAddressToTx tx txHash a =
      ({ tx with
          bucketTransactions := Bucket.upsert tx.bucketTransactions txHash.slice
            (JSONBytes.encoded
              { recordAt tx txHash.slice with
                Addresses := normalizeAddresses
                  (addressesInsert (recordAt tx txHash.slice).Addresses a) }) },
        none) := by
  obtain ⟨ht, _, _⟩ := decodes_parts _ (decodes_recordAt tx txHash.slice hread)
  have hmarshal : JSONValue.marshal
      ({ recordAt tx txHash.slice with
        Addresses := addressesInsert (recordAt tx txHash.slice).Addresses a } :
          walletTransaction) =
      Except.ok { recordAt tx txHash.slice with
        Addresses := normalizeAddresses
          (addressesInsert (recordAt tx txHash.slice).Addresses a) } := by
    rw [marshal_walletTransaction]
    exact if_pos ht
  unfold AddAddressToTx
  rw [modifyTx_written tx txHash.slice _ _ _ hread txHash.slice_pos txHash.slice_le hmarshal]

theorem AddAddressToTx_unreadable (tx : Tx) (txHash : Hash) (a : GoString)
    (hread : canRead tx txHash.slice = false) :
    AddAddressToTx tx txHash a = (tx, some Error.unmarshal) := by
  unfold AddAddressToTx
  rw [modifyTx_unreadable tx txHash.slice _ _ hread]

theorem mem_addressesDelete (m : List GoString) (key b : GoString) :
    b ∈ addressesDelete m key ↔ b ∈ m ∧ b ≠ key := by
  induction m with
  | nil => simp [addressesDelete]
  | cons a rest ih =>
    unfold addressesDelete
    by_cases h : a = key
    · subst h
      simp only [if_true, ih, List.mem_cons]
      constructor
      · rintro ⟨h1, h2⟩
        exact ⟨Or.inr h1, h2⟩
      · rintro ⟨h1 | h1, h2⟩
        · exact absurd h1 h2
        · exact ⟨h1, h2⟩
    · simp only [h, if_false, List.mem_cons, ih]
      constructor
      · rintro (h1 | ⟨h1, h2⟩)
        · exact ⟨Or.inl h1, fun hc => h (h1 ▸ hc)⟩
        · exact ⟨Or.inr h1, h2⟩
      · rintro ⟨h1 | h1, h2⟩
        · exact Or.inl h1
        · exact Or.inr ⟨h1, h2⟩

theorem mem_addressesInsert (m : List GoString) (key b : GoString) :
    b ∈ addressesInsert m key ↔ b ∈ m ∨ b = key := by
  unfold addressesInsert
  by_cases h : key ∈ m
  · simp only [h, if_true]
    constructor
    · exact Or.inl
    · rintro (h1 | h1)
      · exact h1
      · rw [h1]; exact h
  · simp [h]

theorem addressesDelete_nodup (m : List GoString) (key : GoString) (h : m.Nodup) :
    (addressesDelete m key).Nodup := by
  induction m with
  | nil => simp [addressesDelete]
  | cons a rest ih =>
    have hn := List.nodup_cons.mp h
    unfold addressesDelete
    by_cases hk : a = key
    · simp only [hk, if_true]
      exact ih hn.2
    · simp only [hk, if_false]
      exact List.nodup_cons.mpr
        ⟨fun hc => hn.1 ((mem_addressesDelete rest key a).mp hc).1, ih hn.2⟩

theorem addressesInsert_nodup (m : List GoString) (key : GoString) (h : m.Nodup) :
    (addressesInsert m key).Nodup := by
  unfold addressesInsert
  by_cases hk : key ∈ m
  · simp only [hk, if_true]
    exact h
  · simp only [hk, if_false]
    exact List.Nodup.append h (List.nodup_singleton key)
      (by
        intro x hx hx1
        rw [List.mem_singleton.mp hx1] at hx
        exact hk hx)

theorem RemoveAddressFromTx_ok (tx : Tx) (txHash : Hash) (a : GoString)
    (hread : canRead tx txHash.slice = true) :
    RemoveAddressFromTx tx txHash a =
      ({ tx with
          bucketTransactions := Bucket.upsert tx.bucketTransactions txHash.slice
            (JSONBytes.encoded
              { recordAt tx txHash.slice with
                Addresses := addressesDelete (recordAt tx txHash.slice).Addresses a }) },
        decide ((addressesDelete (recordAt tx txHash.slice).Addresses a).length = 0),
        none) := by
  obtain ⟨ht, hvalid, hnodup⟩ := decodes_parts _ (decodes_recordAt tx txHash.slice hread)
  have hmarshal : JSONValue.marshal
      ({ recordAt tx txHash.slice with
        Addresses := addressesDelete (recordAt tx txHash.slice).Addresses a } :
          walletTransaction) =
      Except.ok { recordAt tx txHash.slice with
        Addresses := addressesDelete (recordAt tx txHash.slice).Addresses a } :=
    marshal_of_decodes _ (decodes_of_parts _ ht
      (fun b hb => hvalid b ((mem_addressesDelete _ _ _).mp hb).1)
      (addressesDelete_nodup _ _ hnodup))
  unfold RemoveAddressFromTx
  rw [modifyTx_written tx txHash.slice _ _ _ hread txHash.slice_pos txHash.slice_le hmarshal]

theorem RemoveAddressFromTx_unreadable (tx : Tx) (txHash : Hash) (a : GoString)
    (hread : canRead tx txHash.slice = false) :
    RemoveAddressFromTx tx txHash a = (tx, false, some Error.unmarshal) := by
  unfold RemoveAddressFromTx
  rw [modifyTx_unreadable tx txHash.slice _ _ hread]

theorem MarkTxVerified_ok (tx : Tx) (txHash : Hash) (t : Time)
    (hread : canRead tx txHash.slice = true) (ht : timeMarshals t = true) :
    MarkTxVerified tx txHash t =
      ({ tx with
          bucketTransactions := Bucket.upsert tx.bucketTransactions txHash.slice
            (JSONBytes.encoded
              { recordAt tx txHash.slice with Verified := some true, HeaderTimestamp := some t }),
          bucketUnverifiedTransactions :=
            Bucket.Delete tx.bucketUnverifiedTransactions txHash.slice }, none) := by
  obtain ⟨_, hvalid, hnodup⟩ := decodes_parts _ (decodes_recordAt tx txHash.slice hread)
  have hmarshal : JSONValue.marshal
      ({ recordAt tx txHash.slice with Verified := some true, HeaderTimestamp := some t } :
        walletTransaction) =
      Except.ok { recordAt tx txHash.slice with
        Verified := some true, HeaderTimestamp := some t } :=
    marshal_of_decodes _ (decodes_of_parts _ ht hvalid hnodup)
  unfold MarkTxVerified
  have h0 : canRead ({ tx with
      bucketUnverifiedTransactions :=
        Bucket.Delete tx.bucketUnverifiedTransactions txHash.slice } : Tx) txHash.slice =
      true := hread
  simp only []
  rw [modifyTx_written _ txHash.slice _ _ _ h0 txHash.slice_pos txHash.slice_le hmarshal]

theorem MarkTxVerified_unreadable (tx : Tx) (txHash : Hash) (t : Time)
    (hread : canRead tx txHash.slice = false) :
    MarkTxVerified tx txHash t =
      ({ tx with
          bucketUnverifiedTransactions :=
            Bucket.Delete tx.bucketUnverifiedTransactions txHash.slice },
        some Error.unmarshal) := by
  unfold MarkTxVerified
  have h0 : canRead ({ tx with
      bucketUnverifiedTransactions :=
        Bucket.Delete tx.bucketUnverifiedTransactions txHash.slice } : Tx) txHash.slice =
      false := hread
  simp only []
  rw [modifyTx_unreadable _ txHash.slice _ _ h0]

/-- With a header timestamp outside the years 0..9999, `MarkTxVerified` has deleted the
index entry when `json.Marshal` fails: the record stays as it was. -/
theorem MarkTxVerified_rejected (tx : Tx) (txHash : Hash) (t : Time)
    (hread : canRead tx txHash.slice = true) (ht : timeMarshals t = false) :
    MarkTxVerified tx txHash t =
      ({ tx with
          bucketUnverifiedTransactions :=
            Bucket.Delete tx.bucketUnverifiedTransactions txHash.slice },
        some Error.marshal) := by
  have hmarshal : JSONValue.marshal
      ({ recordAt tx txHash.slice with Verified := some true, HeaderTimestamp := some t } :
        walletTransaction) = Except.error Error.marshal := by
    rw [marshal_walletTransaction]
    have : ({ recordAt tx txHash.slice with
        Verified := some true, HeaderTimestamp := some t } :
          walletTransaction).timestampMarshals = false := ht
    rw [this]
    rfl
  unfold MarkTxVerified
  have h0 : canRead ({ tx with
      bucketUnverifiedTransactions :=
        Bucket.Delete tx.bucketUnverifiedTransactions txHash.slice } : Tx) txHash.slice =
      true := hread
  simp only []
  rw [modifyTx_rejected _ txHash.slice _ _ _ h0 hmarshal]

theorem Bool.true_or_false (b : Bool) : b = true ∨ b = false := by
  cases b
  · exact Or.inr rfl
  · exact Or.inl rfl

theorem PutTx_error_none (tx : Tx) (txHash : Hash) (msgTx : Option MsgTx) (height : Int)
    (h : (PutTx tx txHash msgTx height).2 = none) :
    canRead tx txHash.slice = true := by
  rcases Bool.true_or_false (canRead tx txHash.slice) with hr | hr
  · exact hr
  · rw [PutTx_unreadable tx txHash msgTx height hr] at h
    exact Option.noConfusion h

theorem MarkTxVerified_error_none (tx : Tx) (txHash : Hash) (t : Time)
    (h : (MarkTxVerified tx txHash t).2 = none) :
    canRead tx txHash.slice = true ∧ timeMarshals t = true := by
  rcases Bool.true_or_false (canRead tx txHash.slice) with hr | hr
  · rcases Bool.true_or_false (timeMarshals t) with ht | ht
    · exact ⟨hr, ht⟩
    · rw [MarkTxVerified_rejected tx txHash t hr ht] at h
      exact Option.noConfusion h
  · rw [MarkTxVerified_unreadable tx txHash t hr] at h
    exact Option.noConfusion h

theorem RemoveAddressFromTx_error_none (tx : Tx) (txHash : Hash) (a : GoString)
    (h : (RemoveAddressFromTx tx txHash a).2.2 = none) :
    canRead tx txHash.slice = true := by
  rcases Bool.true_or_false (canRead tx txHash.slice) with hr | hr
  · exact hr
  · rw [RemoveAddressFromTx_unreadable tx txHash a hr] at h
    exact Option.noConfusion h

theorem AddAddressToTx_error_none (tx : Tx) (txHash : Hash) (a : GoString)
    (h : (AddAddressToTx tx txHash a).2 = none) :
    canRead tx txHash.slice = true := by
  rcases Bool.true_or_false (canRead tx txHash.slice) with hr | hr
  · exact hr
  · rw [AddAddressToTx_unreadable tx txHash a hr] at h
    exact Option.noConfusion h

theorem getTransactionsLoop_mem (keys : List (List Byte)) :
    ∀ (result l : List Hash), getTransactionsLoop keys result = Except.ok l →
      ∀ txHash ∈ l, txHash ∈ result ∨ txHash.slice ∈ keys := by
  induction keys with
  | nil =>
    intro result l h txHash hmem
    simp only [getTransactionsLoop, Except.ok.injEq] at h
    subst h
    exact Or.inl hmem
  | cons k rest ih =>
    intro result l h txHash hmem
    unfold getTransactionsLoop at h
    cases hs : SetBytes k with
    | error err => rw [hs] at h; exact Except.noConfusion h
    | ok kh =>
      rw [hs] at h
      have hk : kh.slice = k := by
        unfold SetBytes at hs
        by_cases hl : k.length = HashSize
        · rw [dif_pos hl] at hs
          have := Except.ok.inj hs
          rw [← this]; rfl
        · rw [dif_neg hl] at hs
          exact Except.noConfusion hs
      rcases ih (result ++ [kh]) l h txHash hmem with h1 | h1
      · rcases List.mem_append.mp h1 with h2 | h2
        · exact Or.inl h2
        · right
          have : txHash = kh := by simpa using h2
          rw [this, hk]
          exact List.mem_cons_self _ _
      · exact Or.inr (List.mem_cons_of_mem _ h1)

/-- A hash that `getTransactions` returns is a key of the bucket. -/
theorem getTransactions_mem {ν : Type} (bucket : Bucket (List Byte) ν) (l : List Hash)
    (h : getTransactions bucket = Except.ok l) (txHash : Hash) (hmem : txHash ∈ l) :
    txHash.slice ∈ Bucket.keys bucket := by
  rcases getTransactionsLoop_mem (Bucket.keys bucket) [] l h txHash hmem with h1 | h1
  · exact absurd h1 (List.not_mem_nil _)
  · exact h1

/-! ## C2: `PutTx` merges into the record -/

/-- C2. After a successful `PutTx(h, tx, n)`, `TxInfo(h)` returns `tx` and `n`, and the
stored record keeps the address set, `Verified` flag and header timestamp it had before
the call; when `h` had no record these are those of the fresh record (empty, unset). -/
theorem PutTx_merges_record (tx : Tx) (h : Hash) (msgTx : Option MsgTx) (n : Int)
    (hput : (PutTx tx h msgTx n).2 = none) :
    ∃ w0 : walletTransaction,
      (Bucket.Get tx.bucketTransactions h.slice = some (JSONBytes.encoded w0) ∨
        (Bucket.Get tx.bucketTransactions h.slice = none ∧ w0.Addresses = [] ∧
          w0.Verified = none ∧ w0.HeaderTimestamp = none)) ∧
      TxInfo tx h = Except.ok (w0.Tx, w0.Addresses, w0.Height, w0.HeaderTimestamp) ∧
      Bucket.Get (PutTx tx h msgTx n).1.bucketTransactions h.slice =
        some (JSONBytes.encoded { w0 with Tx := msgTx, Height := n }) ∧
      TxInfo (PutTx tx h msgTx n).1 h =
        Except.ok (msgTx, w0.Addresses, n, w0.HeaderTimestamp) := by
  have hm := PutTx_error_none tx h msgTx n hput
  have hget : Bucket.Get (PutTx tx h msgTx n).1.bucketTransactions h.slice =
      some (JSONBytes.encoded { recordAt tx h.slice with Tx := msgTx, Height := n }) := by
    rw [PutTx_ok tx h msgTx n hm]
    exact Bucket.Get_upsert_self _ _ _
  refine ⟨recordAt tx h.slice, ?_, TxInfo_ok tx h hm, hget, ?_⟩
  · rcases (canRead_iff tx h.slice).mp hm with h0 | ⟨w, h0, hw⟩
    · right
      rw [recordAt_of_none tx _ h0]
      exact ⟨h0, rfl, rfl, rfl⟩
    · left
      rw [recordAt_of_encoded tx _ w h0 hw]
      exact h0
  · obtain ⟨ht, hvalid, hnodup⟩ := decodes_parts _ (decodes_recordAt tx h.slice hm)
    have hdec : JSONValue.decodes
        ({ recordAt tx h.slice with Tx := msgTx, Height := n } : walletTransaction) = true :=
      decodes_of_parts _ ht hvalid hnodup
    rw [TxInfo_ok _ h (canRead_of_encoded _ _ _ hget hdec),
      recordAt_of_encoded _ _ _ hget hdec]

/-- Witness for C2: a record with an address, verified at time 7, is overwritten by
`PutTx` with a raw transaction at height 120. -/
theorem PutTx_merges_record_witness :
    (PutTx storeVerifiedA hashA (some sampleMsgTx) 120).2 = none ∧
    ∃ w0 : walletTransaction,
      (Bucket.Get storeVerifiedA.bucketTransactions hashA.slice = some (JSONBytes.encoded w0) ∨
        (Bucket.Get storeVerifiedA.bucketTransactions hashA.slice = none ∧
          w0.Addresses = [] ∧ w0.Verified = none ∧ w0.HeaderTimestamp = none)) ∧
      TxInfo storeVerifiedA hashA =
        Except.ok (w0.Tx, w0.Addresses, w0.Height, w0.HeaderTimestamp) ∧
      Bucket.Get (PutTx storeVerifiedA hashA (some sampleMsgTx) 120).1.bucketTransactions
          hashA.slice =
        some (JSONBytes.encoded { w0 with Tx := some sampleMsgTx, Height := 120 }) ∧
      TxInfo (PutTx storeVerifiedA hashA (some sampleMsgTx) 120).1 hashA =
        Except.ok (some sampleMsgTx, w0.Addresses, 120, w0.HeaderTimestamp) :=
  ⟨by decide, PutTx_merges_record storeVerifiedA hashA (some sampleMsgTx) 120 (by decide)⟩

/-! ## C4: `PutTx` and the unverified index -/

/-- C4. After a successful `PutTx(h, tx, n)`: when `h` had no record, or a record whose
`Verified` flag was unset, `h` is a key of the unverified index; when the record's
`Verified` flag was set, the unverified index is unchanged. -/
theorem PutTx_unverified_index (tx : Tx) (h : Hash) (msgTx : Option MsgTx) (n : Int)
    (hput : (PutTx tx h msgTx n).2 = none) :
    ((Bucket.Get tx.bucketTransactions h.slice = none ∨
        ∃ w, Bucket.Get tx.bucketTransactions h.slice = some (JSONBytes.encoded w) ∧
          w.Verified = none) →
      h.slice ∈ Bucket.keys (PutTx tx h msgTx n).1.bucketUnverifiedTransactions) ∧
    (∀ w, Bucket.Get tx.bucketTransactions h.slice = some (JSONBytes.encoded w) →
      w.Verified ≠ none →
      (PutTx tx h msgTx n).1.bucketUnverifiedTransactions = tx.bucketUnverifiedTransactions) := by
  have hm := PutTx_error_none tx h msgTx n hput
  rw [PutTx_ok tx h msgTx n hm]
  constructor
  · intro hcase
    have hv : (recordAt tx h.slice).Verified = none := by
      rcases hcase with h0 | ⟨w, h0, hw⟩
      · rw [recordAt_of_none tx _ h0]; rfl
      · rw [recordAt_of_encoded tx _ w h0 (decodes_of_canRead tx _ w hm h0)]; exact hw
    simp only [hv, if_true]
    exact (Bucket.mem_keys_upsert _ _ _ _).mpr (Or.inl rfl)
  · intro w h0 hw
    have hv : ¬ (recordAt tx h.slice).Verified = none := by
      rw [recordAt_of_encoded tx _ w h0 (decodes_of_canRead tx _ w hm h0)]; exact hw
    simp only [hv, if_false]

/-- Witness for C4: `PutTx` on a new hash of the empty store indexes it, and `PutTx` on
the verified sample record leaves the unverified index (empty) as it is. -/
theorem PutTx_unverified_index_witness :
    ((PutTx Tx.empty hashA (some sampleMsgTx) 3).2 = none ∧
      hashA.slice ∈ Bucket.keys
        (PutTx Tx.empty hashA (some sampleMsgTx) 3).1.bucketUnverifiedTransactions) ∧
    ((PutTx storeVerifiedA hashA (some sampleMsgTx) 3).2 = none ∧
      (PutTx storeVerifiedA hashA (some sampleMsgTx) 3).1.bucketUnverifiedTransactions =
        storeVerifiedA.bucketUnverifiedTransactions) :=
  ⟨⟨by decide, (PutTx_unverified_index Tx.empty hashA (some sampleMsgTx) 3 (by decide)).1
      (Or.inl (by decide))⟩,
    ⟨by decide, (PutTx_unverified_index storeVerifiedA hashA (some sampleMsgTx) 3
      (by decide)).2 (walletTransaction.mk none 0 [[97]] (some true) (some 7))
      (by decide) (by decide)⟩⟩

/-! ## C3: `MarkTxVerified` and its repetition -/

/-- The method `MarkTxVerified` always leaves the hash out of the unverified index. -/
theorem MarkTxVerified_not_indexed (tx : Tx) (h : Hash) (t : Time) :
    h.slice ∉ Bucket.keys (MarkTxVerified tx h t).1.bucketUnverifiedTransactions ∧
    ∀ l, UnverifiedTransactions (MarkTxVerified tx h t).1 = Except.ok l → h ∉ l := by
  have hnot : h.slice ∉ Bucket.keys (MarkTxVerified tx h t).1.bucketUnverifiedTransactions := by
    rcases Bool.true_or_false (canRead tx h.slice) with hr | hr
    · rcases Bool.true_or_false (timeMarshals t) with ht | ht
      · rw [MarkTxVerified_ok tx h t hr ht]
        intro hc
        exact ((Bucket.mem_keys_Delete _ _ _).mp hc).1 rfl
      · rw [MarkTxVerified_rejected tx h t hr ht]
        intro hc
        exact ((Bucket.mem_keys_Delete _ _ _).mp hc).1 rfl
    · rw [MarkTxVerified_unreadable tx h t hr]
      intro hc
      exact ((Bucket.mem_keys_Delete _ _ _).mp hc).1 rfl
  exact ⟨hnot, fun l hl hc => hnot (getTransactions_mem _ l hl h hc)⟩

/-- The record a successful `MarkTxVerified` leaves: the one read, verified, with the
timestamp; it decodes. -/
theorem MarkTxVerified_record (tx : Tx) (h : Hash) (t : Time)
    (hread : canRead tx h.slice = true) (ht : timeMarshals t = true) :
    Bucket.Get (MarkTxVerified tx h t).1.bucketTransactions h.slice =
      some (JSONBytes.encoded
        { recordAt tx h.slice with Verified := some true, HeaderTimestamp := some t }) ∧
    JSONValue.decodes ({ recordAt tx h.slice with
      Verified := some true, HeaderTimestamp := some t } : walletTransaction) = true := by
  obtain ⟨_, hvalid, hnodup⟩ := decodes_parts _ (decodes_recordAt tx h.slice hread)
  constructor
  · rw [MarkTxVerified_ok tx h t hread ht]
    exact Bucket.Get_upsert_self _ _ _
  · exact decodes_of_parts _ ht hvalid hnodup

/-- C3, amended. After `MarkTxVerified(h, t)`, `h` is no key of the unverified index and no
list `UnverifiedTransactions()` returns contains `h`; when the call returned no error,
`TxInfo(h)` returns the header timestamp `t`. A second call `MarkTxVerified(h, t2)` leaves
`h` out of the unverified index; when the year of `t2` is within 0..9999 it returns no
error and makes `TxInfo(h)` return `t2` with the other fields unchanged, and otherwise it
returns the error of `json.Marshal` and `TxInfo(h)` still returns `t`. The first call
returns no error exactly when the stored bytes of `h`, if any, decode and the year of `t`
is within 0..9999. -/
theorem MarkTxVerified_then_again (tx : Tx) (h : Hash) (t t2 : Time) :
    (h.slice ∉ Bucket.keys (MarkTxVerified tx h t).1.bucketUnverifiedTransactions ∧
      ∀ l, UnverifiedTransactions (MarkTxVerified tx h t).1 = Except.ok l → h ∉ l) ∧
    ((MarkTxVerified tx h t).2 = none →
      ∃ (msgTx : Option MsgTx) (addresses : List GoString) (height : Int),
        TxInfo (MarkTxVerified tx h t).1 h = Except.ok (msgTx, addresses, height, some t) ∧
        h.slice ∉ Bucket.keys
          (MarkTxVerified (MarkTxVerified tx h t).1 h t2).1.bucketUnverifiedTransactions ∧
        (∀ l, UnverifiedTransactions (MarkTxVerified (MarkTxVerified tx h t).1 h t2).1 =
          Except.ok l → h ∉ l) ∧
        (timeMarshals t2 = true →
          (MarkTxVerified (MarkTxVerified tx h t).1 h t2).2 = none ∧
          TxInfo (MarkTxVerified (MarkTxVerified tx h t).1 h t2).1 h =
            Except.ok (msgTx, addresses, height, some t2)) ∧
        (timeMarshals t2 = false →
          (MarkTxVerified (MarkTxVerified tx h t).1 h t2).2 = some Error.marshal ∧
          TxInfo (MarkTxVerified (MarkTxVerified tx h t).1 h t2).1 h =
            Except.ok (msgTx, addresses, height, some t))) ∧
    ((MarkTxVerified tx h t).2 = none ↔
      canRead tx h.slice = true ∧ timeMarshals t = true) := by
  refine ⟨MarkTxVerified_not_indexed tx h t, ?_,
    ⟨MarkTxVerified_error_none tx h t,
      fun hc => by rw [MarkTxVerified_ok tx h t hc.1 hc.2]⟩⟩
  intro hmark
  obtain ⟨hread, ht⟩ := MarkTxVerified_error_none tx h t hmark
  obtain ⟨hG1, hD1⟩ := MarkTxVerified_record tx h t hread ht
  have hread1 := canRead_of_encoded _ _ _ hG1 hD1
  have hrec1 := recordAt_of_encoded _ _ _ hG1 hD1
  have hinfo1 : TxInfo (MarkTxVerified tx h t).1 h =
      Except.ok ((recordAt tx h.slice).Tx, (recordAt tx h.slice).Addresses,
        (recordAt tx h.slice).Height, some t) := by
    rw [TxInfo_ok _ h hread1, hrec1]
  obtain ⟨hU2, hL2⟩ := MarkTxVerified_not_indexed (MarkTxVerified tx h t).1 h t2
  refine ⟨(recordAt tx h.slice).Tx, (recordAt tx h.slice).Addresses,
    (recordAt tx h.slice).Height, hinfo1, hU2, hL2, ?_, ?_⟩
  · intro ht2
    obtain ⟨hG2, hD2⟩ := MarkTxVerified_record (MarkTxVerified tx h t).1 h t2 hread1 ht2
    refine ⟨by rw [MarkTxVerified_ok _ h t2 hread1 ht2], ?_⟩
    rw [TxInfo_ok _ h (canRead_of_encoded _ _ _ hG2 hD2),
      recordAt_of_encoded _ _ _ hG2 hD2, hrec1]
  · intro ht2
    rw [MarkTxVerified_rejected _ h t2 hread1 ht2]
    exact ⟨rfl, hinfo1⟩

/-- Witness for C3 (amended): an unverified transaction with an address is marked
verified at time 7 and again at time 9. -/
theorem MarkTxVerified_then_again_witness :
    (MarkTxVerified storeUnverifiedA hashA 7).2 = none ∧
    UnverifiedTransactions storeUnverifiedA = Except.ok [hashA] ∧
    UnverifiedTransactions (MarkTxVerified storeUnverifiedA hashA 7).1 = Except.ok [] ∧
    TxInfo (MarkTxVerified storeUnverifiedA hashA 7).1 hashA =
      Except.ok (some sampleMsgTx, [[97]], 0, some 7) ∧
    (MarkTxVerified (MarkTxVerified storeUnverifiedA hashA 7).1 hashA 9).2 = none ∧
    TxInfo (MarkTxVerified (MarkTxVerified storeUnverifiedA hashA 7).1 hashA 9).1 hashA =
      Except.ok (some sampleMsgTx, [[97]], 0, some 9) ∧
    ∃ (msgTx : Option MsgTx) (addresses : List GoString) (height : Int),
      TxInfo (MarkTxVerified storeUnverifiedA hashA 7).1 hashA =
        Except.ok (msgTx, addresses, height, some 7) ∧
      hashA.slice ∉ Bucket.keys
        (MarkTxVerified (MarkTxVerified storeUnverifiedA hashA 7).1 hashA
          9).1.bucketUnverifiedTransactions ∧
      (∀ l, UnverifiedTransactions
        (MarkTxVerified (MarkTxVerified storeUnverifiedA hashA 7).1 hashA 9).1 =
        Except.ok l → hashA ∉ l) ∧
      (timeMarshals 9 = true →
        (MarkTxVerified (MarkTxVerified storeUnverifiedA hashA 7).1 hashA 9).2 = none ∧
        TxInfo (MarkTxVerified (MarkTxVerified storeUnverifiedA hashA 7).1 hashA 9).1 hashA =
          Except.ok (msgTx, addresses, height, some 9)) ∧
      (timeMarshals 9 = false →
        (MarkTxVerified (MarkTxVerified storeUnverifiedA hashA 7).1 hashA 9).2 =
          some Error.marshal ∧
        TxInfo (MarkTxVerified (MarkTxVerified storeUnverifiedA hashA 7).1 hashA 9).1 hashA =
          Except.ok (msgTx, addresses, height, some 7)) :=
  ⟨by decide, by decide, by decide, by decide, by decide, by decide,
    (MarkTxVerified_then_again storeUnverifiedA hashA 7 9).2.1 (by decide)⟩

/-- C3 as stated fails: after `MarkTxVerified(hashA, 7)`, a second call with the first
instant of the year 10000 returns the error of `json.Marshal`, and `TxInfo(hashA)` still
returns the header timestamp 7 and not the new one. -/
theorem MarkTxVerified_then_again_counterexample :
    (MarkTxVerified storeUnverifiedA hashA 7).2 = none ∧
    (MarkTxVerified (MarkTxVerified storeUnverifiedA hashA 7).1 hashA year10000).2 =
      some Error.marshal ∧
    TxInfo (MarkTxVerified (MarkTxVerified storeUnverifiedA hashA 7).1 hashA year10000).1
      hashA = Except.ok (some sampleMsgTx, [[97]], 0, some 7) ∧
    year10000 ≠ 7 := by
  decide

/-! ## C8: `RemoveAddressFromTx` reports an empty address set -/

theorem length_eq_zero_iff_no_mem (l : List GoString) :
    decide (l.length = 0) = true ↔ ∀ b, b ∉ l := by
  cases l with
  | nil => simp
  | cons a rest =>
    simp only [List.length_cons, Nat.succ_ne_zero, decide_False, Bool.false_eq_true,
      false_iff, not_forall, not_not]
    exact ⟨a, List.mem_cons_self _ _⟩

/-- The record a successful `RemoveAddressFromTx` leaves: the one read, without the
address; it decodes. -/
theorem RemoveAddressFromTx_record (tx : Tx) (h : Hash) (a : GoString)
    (hread : canRead tx h.slice = true) :
    Bucket.Get (RemoveAddressFromTx tx h a).1.bucketTransactions h.slice =
      some (JSONBytes.encoded { recordAt tx h.slice with
        Addresses := addressesDelete (recordAt tx h.slice).Addresses a }) ∧
    JSONValue.decodes ({ recordAt tx h.slice with
      Addresses := addressesDelete (recordAt tx h.slice).Addresses a } :
        walletTransaction) = true := by
  obtain ⟨ht, hvalid, hnodup⟩ := decodes_parts _ (decodes_recordAt tx h.slice hread)
  constructor
  · rw [RemoveAddressFromTx_ok tx h a hread]
    exact Bucket.Get_upsert_self _ _ _
  · exact decodes_of_parts _ ht
      (fun b hb => hvalid b ((mem_addressesDelete _ _ _).mp hb).1)
      (addressesDelete_nodup _ _ hnodup)

/-- The record a successful `AddAddressToTx` of a valid UTF-8 address leaves: the one
read, with the address; it decodes. -/
theorem AddAddressToTx_record (tx : Tx) (h : Hash) (a : GoString)
    (hread : canRead tx h.slice = true) (ha : validUTF8 a = true) :
    Bucket.Get (AddAddressToTx tx h a).1.bucketTransactions h.slice =
      some (JSONBytes.encoded { recordAt tx h.slice with
        Addresses := addressesInsert (recordAt tx h.slice).Addresses a }) ∧
    JSONValue.decodes ({ recordAt tx h.slice with
      Addresses := addressesInsert (recordAt tx h.slice).Addresses a } :
        walletTransaction) = true := by
  obtain ⟨ht, hvalid, hnodup⟩ := decodes_parts _ (decodes_recordAt tx h.slice hread)
  have hvalid1 : ∀ b ∈ addressesInsert (recordAt tx h.slice).Addresses a,
      validUTF8 b = true := by
    intro b hb
    rcases (mem_addressesInsert _ _ _).mp hb with h1 | h1
    · exact hvalid b h1
    · rw [h1]; exact ha
  have hnodup1 := addressesInsert_nodup _ a hnodup
  constructor
  · rw [AddAddressToTx_ok tx h a hread, normalizeAddresses_of_valid _ hvalid1 hnodup1]
    exact Bucket.Get_upsert_self _ _ _
  · exact decodes_of_parts _ ht hvalid1 hnodup1

/-- The record a successful `AddAddressToTx` leaves: the one read, with the address as
`json.Marshal` writes it; it decodes. -/
theorem AddAddressToTx_record_written (tx : Tx) (h : Hash) (a : GoString)
    (hread : canRead tx h.slice = true) :
    Bucket.Get (AddAddressToTx tx h a).1.bucketTransactions h.slice =
      some (JSONBytes.encoded { recordAt tx h.slice with
        Addresses := normalizeAddresses
          (addressesInsert (recordAt tx h.slice).Addresses a) }) ∧
    JSONValue.decodes ({ recordAt tx h.slice with
      Addresses := normalizeAddresses
        (addressesInsert (recordAt tx h.slice).Addresses a) } : walletTransaction) = true := by
  obtain ⟨ht, _, _⟩ := decodes_parts _ (decodes_recordAt tx h.slice hread)
  constructor
  · rw [AddAddressToTx_ok tx h a hread]
    exact Bucket.Get_upsert_self _ _ _
  · exact decodes_of_parts _ ht (normalizeAddresses_valid _).1 (normalizeAddresses_valid _).2

/-- C8, amended. Whenever `RemoveAddressFromTx(h, a)` returns without error, the addresses
of `h` afterwards are those before without `a`, and the returned flag is true exactly when
that set is empty. For an address `a` that is valid UTF-8, after a successful
`AddAddressToTx(h, a)`, `RemoveAddressFromTx(h, a)` succeeds and returns true exactly when
`h` had no address other than `a`, so false when another address remains; for an address
`a` that is not valid UTF-8 it succeeds and returns false, whatever addresses `h` had. -/
theorem RemoveAddressFromTx_reports_empty (tx : Tx) (h : Hash) (a : GoString) :
    ((RemoveAddressFromTx tx h a).2.2 = none →
      ∃ (m0 m1 : Option MsgTx) (before after : List GoString) (n0 n1 : Int)
          (t0 t1 : Option Time),
        TxInfo tx h = Except.ok (m0, before, n0, t0) ∧
        TxInfo (RemoveAddressFromTx tx h a).1 h = Except.ok (m1, after, n1, t1) ∧
        (∀ b, b ∈ after ↔ b ∈ before ∧ b ≠ a) ∧
        ((RemoveAddressFromTx tx h a).2.1 = true ↔ after = [])) ∧
    (validUTF8 a = true → (AddAddressToTx tx h a).2 = none →
      ∃ (m0 : Option MsgTx) (before : List GoString) (n0 : Int) (t0 : Option Time),
        TxInfo tx h = Except.ok (m0, before, n0, t0) ∧
        (RemoveAddressFromTx (AddAddressToTx tx h a).1 h a).2.2 = none ∧
        ((RemoveAddressFromTx (AddAddressToTx tx h a).1 h a).2.1 = true ↔
          ∀ b ∈ before, b = a)) ∧
    (validUTF8 a = false → (AddAddressToTx tx h a).2 = none →
      (RemoveAddressFromTx (AddAddressToTx tx h a).1 h a).2 = (false, none)) := by
  refine ⟨?_, ?_, ?_⟩
  · intro hr
    have hread := RemoveAddressFromTx_error_none tx h a hr
    obtain ⟨hget, hdec⟩ := RemoveAddressFromTx_record tx h a hread
    refine ⟨(recordAt tx h.slice).Tx, (recordAt tx h.slice).Tx,
      (recordAt tx h.slice).Addresses, addressesDelete (recordAt tx h.slice).Addresses a,
      (recordAt tx h.slice).Height, (recordAt tx h.slice).Height,
      (recordAt tx h.slice).HeaderTimestamp, (recordAt tx h.slice).HeaderTimestamp,
      TxInfo_ok tx h hread, ?_, ?_, ?_⟩
    · rw [TxInfo_ok _ h (canRead_of_encoded _ _ _ hget hdec),
        recordAt_of_encoded _ _ _ hget hdec]
    · intro b
      exact mem_addressesDelete _ _ _
    · rw [RemoveAddressFromTx_ok tx h a hread]
      simp only [decide_eq_true_eq, List.length_eq_zero]
  · intro hvalid ha
    have hread := AddAddressToTx_error_none tx h a ha
    obtain ⟨hget, hdec⟩ := AddAddressToTx_record tx h a hread hvalid
    have hread1 := canRead_of_encoded _ _ _ hget hdec
    refine ⟨(recordAt tx h.slice).Tx, (recordAt tx h.slice).Addresses,
      (recordAt tx h.slice).Height, (recordAt tx h.slice).HeaderTimestamp,
      TxInfo_ok tx h hread, ?_, ?_⟩
    · rw [RemoveAddressFromTx_ok _ h a hread1]
    · rw [RemoveAddressFromTx_ok _ h a hread1, recordAt_of_encoded _ _ _ hget hdec]
      simp only []
      rw [length_eq_zero_iff_no_mem]
      constructor
      · intro hall b hb
        by_contra hne
        exact hall b ((mem_addressesDelete _ _ _).mpr
          ⟨(mem_addressesInsert _ _ _).mpr (Or.inl hb), hne⟩)
      · intro hall b hb
        obtain ⟨h1, h2⟩ := (mem_addressesDelete _ _ _).mp hb
        rcases (mem_addressesInsert _ _ _).mp h1 with h3 | h3
        · exact h2 (hall b h3)
        · exact h2 h3
  · intro hinvalid ha
    have hread := AddAddressToTx_error_none tx h a ha
    obtain ⟨hget, hdec⟩ := AddAddressToTx_record_written tx h a hread
    have hread1 := canRead_of_encoded _ _ _ hget hdec
    rw [RemoveAddressFromTx_ok _ h a hread1, recordAt_of_encoded _ _ _ hget hdec]
    simp only []
    have hne : coerceUTF8 a ≠ a := by
      intro hc
      have : validUTF8 a = true := by
        unfold validUTF8
        exact decide_eq_true hc
      rw [this] at hinvalid
      exact Bool.noConfusion hinvalid
    have hmem : coerceUTF8 a ∈ addressesDelete
        (normalizeAddresses (addressesInsert (recordAt tx h.slice).Addresses a)) a := by
      refine (mem_addressesDelete _ _ _).mpr ⟨?_, hne⟩
      unfold normalizeAddresses
      exact List.mem_dedup.mpr
        (List.mem_map.mpr ⟨a, (mem_addressesInsert _ _ _).mpr (Or.inr rfl), rfl⟩)
    have hfalse : decide ((addressesDelete
        (normalizeAddresses (addressesInsert (recordAt tx h.slice).Addresses a)) a).length =
          0) = false := by
      apply decide_eq_false
      intro hc
      rw [List.length_eq_zero.mp hc] at hmem
      exact absurd hmem (List.not_mem_nil _)
    rw [hfalse]

/-- Witness for C8 (amended): removing the only address "a" of the sample record reports
true; after adding "b" to the sample record and then "a" again, removing "a" reports
false. -/
theorem RemoveAddressFromTx_reports_empty_witness :
    (RemoveAddressFromTx storeUnverifiedA hashA [97]).2 = (true, none) ∧
    (RemoveAddressFromTx (AddAddressToTx Tx.empty hashA [97]).1 hashA [97]).2 = (true, none) ∧
    (RemoveAddressFromTx (AddAddressToTx (AddAddressToTx Tx.empty hashA [98]).1 hashA [97]).1
      hashA [97]).2 = (false, none) ∧
    (∃ (m0 m1 : Option MsgTx) (before after : List GoString) (n0 n1 : Int)
        (t0 t1 : Option Time),
      TxInfo storeUnverifiedA hashA = Except.ok (m0, before, n0, t0) ∧
      TxInfo (RemoveAddressFromTx storeUnverifiedA hashA [97]).1 hashA =
        Except.ok (m1, after, n1, t1) ∧
      (∀ b, b ∈ after ↔ b ∈ before ∧ b ≠ [97]) ∧
      ((RemoveAddressFromTx storeUnverifiedA hashA [97]).2.1 = true ↔ after = [])) ∧
    ∃ (m0 : Option MsgTx) (before : List GoString) (n0 : Int) (t0 : Option Time),
      TxInfo Tx.empty hashA = Except.ok (m0, before, n0, t0) ∧
      (RemoveAddressFromTx (AddAddressToTx Tx.empty hashA [97]).1 hashA [97]).2.2 = none ∧
      ((RemoveAddressFromTx (AddAddressToTx Tx.empty hashA [97]).1 hashA [97]).2.1 = true ↔
        ∀ b ∈ before, b = [97]) :=
  ⟨by decide, by decide, by decide,
    (RemoveAddressFromTx_reports_empty storeUnverifiedA hashA [97]).1 (by decide),
    (RemoveAddressFromTx_reports_empty Tx.empty hashA [97]).2.1 (by decide) (by decide)⟩

/-- C8 as stated fails for an address that is not valid UTF-8: on the empty store the
transaction has no address at all, `AddAddressToTx(hashA, "\xff")` succeeds and stores the
address as U+FFFD, and `RemoveAddressFromTx(hashA, "\xff")` then finds nothing to remove,
succeeds and returns false. -/
theorem RemoveAddressFromTx_reports_empty_counterexample :
    TxInfo Tx.empty hashA = Except.ok (none, [], 0, none) ∧
    (AddAddressToTx Tx.empty hashA [255]).2 = none ∧
    TxInfo (AddAddressToTx Tx.empty hashA [255]).1 hashA =
      Except.ok (none, [[239, 191, 189]], 0, none) ∧
    (RemoveAddressFromTx (AddAddressToTx Tx.empty hashA [255]).1 hashA [255]).2 =
      (false, none) :=
  ⟨by decide, by decide, by decide, by decide⟩

/-! ## C9: address histories are replaced, not merged -/

theorem AddressHistory_after_Put (tx : Tx) (a : GoString) (history : TxHistory)
    (h0 : 0 < a.length) (hmax : a.length ≤ Bucket.MaxKeySize) :
    (PutAddressHistory tx a history).2 = none ∧
    AddressHistory (PutAddressHistory tx a history).1 a = (history, none) := by
  have hput : PutAddressHistory tx a history =
      ({ tx with bucketAddressHistories :=
          Bucket.upsert tx.bucketAddressHistories a (JSONBytes.encoded history) }, none) := by
    simp only [PutAddressHistory, writeJSON, jsonMarshal, JSONValue.marshal,
      Bucket.Put_ok _ a _ h0 hmax]
  have hget : Bucket.Get (PutAddressHistory tx a history).1.bucketAddressHistories a =
      some (JSONBytes.encoded history) := by
    rw [hput]
    exact Bucket.Get_upsert_self _ _ _
  refine ⟨by rw [hput], ?_⟩
  simp only [AddressHistory]
  rw [readJSON_of_encoded _ _ _ history hget rfl]

/-- C9, amended. For an address `a` of 1 to 32768 bytes, `PutAddressHistory(a, hist)`
returns no error and `AddressHistory(a)` then returns exactly `hist`, in order; a further
`PutAddressHistory(a, hist2)` returns no error and `AddressHistory(a)` then returns exactly
`hist2`, so no entry of `hist` that is not in `hist2` is in the result. For the empty
address `PutAddressHistory` returns the error "key required" of `bucket.Put`, and for an
address of more than 32768 bytes the error "key too large"; in both cases the store is
left as it was. -/
theorem PutAddressHistory_replaces (tx : Tx) (a : GoString) (hist hist2 : TxHistory) :
    (0 < a.length → a.length ≤ Bucket.MaxKeySize →
      (PutAddressHistory tx a hist).2 = none ∧
      AddressHistory (PutAddressHistory tx a hist).1 a = (hist, none) ∧
      (PutAddressHistory (PutAddressHistory tx a hist).1 a hist2).2 = none ∧
      AddressHistory (PutAddressHistory (PutAddressHistory tx a hist).1 a hist2).1 a =
        (hist2, none) ∧
      ∀ e ∈ hist, e ∉ hist2 →
        e ∉ (AddressHistory
          (PutAddressHistory (PutAddressHistory tx a hist).1 a hist2).1 a).1) ∧
    (a.length = 0 → PutAddressHistory tx a hist = (tx, some Error.keyRequired)) ∧
    (Bucket.MaxKeySize < a.length →
      PutAddressHistory tx a hist = (tx, some Error.keyTooLarge)) := by
  refine ⟨?_, ?_, ?_⟩
  · intro h0 hmax
    obtain ⟨h1, h2⟩ := AddressHistory_after_Put tx a hist h0 hmax
    obtain ⟨h3, h4⟩ := AddressHistory_after_Put (PutAddressHistory tx a hist).1 a hist2 h0 hmax
    refine ⟨h1, h2, h3, h4, ?_⟩
    intro e _ he
    rw [h4]
    exact he
  · intro h0
    simp only [PutAddressHistory, writeJSON, jsonMarshal, JSONValue.marshal, Bucket.Put, h0,
      if_true]
  · intro hmax
    have h0 : ¬ a.length = 0 := by
      intro hc
      rw [hc] at hmax
      exact Nat.not_lt_zero _ hmax
    simp only [PutAddressHistory, writeJSON, jsonMarshal, JSONValue.marshal, Bucket.Put, h0,
      if_false, gt_iff_lt, hmax, if_true]

/-- Witness for C9 (amended): the history of the address "a" is put twice on the empty
store, first one entry at height 5 and then one entry at height 6. -/
theorem PutAddressHistory_replaces_witness :
    AddressHistory
      (PutAddressHistory (PutAddressHistory Tx.empty [97] [TxInfoEntry.mk 5 hashA]).1 [97]
        [TxInfoEntry.mk 6 hashA]).1 [97] = ([TxInfoEntry.mk 6 hashA], none) ∧
    ((PutAddressHistory Tx.empty [97] [TxInfoEntry.mk 5 hashA]).2 = none ∧
      AddressHistory (PutAddressHistory Tx.empty [97] [TxInfoEntry.mk 5 hashA]).1 [97] =
        ([TxInfoEntry.mk 5 hashA], none) ∧
      (PutAddressHistory (PutAddressHistory Tx.empty [97] [TxInfoEntry.mk 5 hashA]).1 [97]
        [TxInfoEntry.mk 6 hashA]).2 = none ∧
      AddressHistory
        (PutAddressHistory (PutAddressHistory Tx.empty [97] [TxInfoEntry.mk 5 hashA]).1 [97]
          [TxInfoEntry.mk 6 hashA]).1 [97] = ([TxInfoEntry.mk 6 hashA], none) ∧
      ∀ e ∈ [TxInfoEntry.mk 5 hashA], e ∉ [TxInfoEntry.mk 6 hashA] →
        e ∉ (AddressHistory
          (PutAddressHistory (PutAddressHistory Tx.empty [97] [TxInfoEntry.mk 5 hashA]).1 [97]
            [TxInfoEntry.mk 6 hashA]).1 [97]).1) :=
  ⟨by decide,
    (PutAddressHistory_replaces Tx.empty [97] [TxInfoEntry.mk 5 hashA]
      [TxInfoEntry.mk 6 hashA]).1 (by decide) (by decide)⟩

/-- C9 as stated fails for the empty address: `PutAddressHistory("", hist)` returns the
error "key required" of `bucket.Put`, stores nothing, and `AddressHistory("")` then
returns the empty history and not `hist`. -/
theorem PutAddressHistory_replaces_counterexample :
    PutAddressHistory Tx.empty [] [TxInfoEntry.mk 5 hashA] =
      (Tx.empty, some Error.keyRequired) ∧
    AddressHistory (PutAddressHistory Tx.empty [] [TxInfoEntry.mk 5 hashA]).1 [] =
      ([], none) :=
  ⟨by decide, by decide⟩

/-! ## Invariants of the transactions bucket -/

theorem AllRecords_recordAt (P : walletTransaction → Prop) (tx : Tx)
    (hnew : P newWalletTransaction) (hall : AllRecords P tx) (key : List Byte)
    (hread : canRead tx key = true) :
    P (recordAt tx key) := by
  rcases (canRead_iff tx key).mp hread with h0 | ⟨w, h0, hw⟩
  · rw [recordAt_of_none tx key h0]; exact hnew
  · rw [recordAt_of_encoded tx key w h0 hw]
    obtain ⟨w1, hw1, hp⟩ := hall key _ h0
    rw [JSONBytes.encoded.inj hw1]
    exact hp

theorem AllRecords_upsert (P : walletTransaction → Prop) (tx : Tx) (hall : AllRecords P tx)
    (key : List Byte) (w : walletTransaction) (hw : P w) (tx1 : Tx)
    (h1 : tx1.bucketTransactions =
      Bucket.upsert tx.bucketTransactions key (JSONBytes.encoded w)) :
    AllRecords P tx1 := by
  intro k v hv
  rw [h1] at hv
  by_cases hk : k = key
  · subst hk
    rw [Bucket.Get_upsert_self] at hv
    exact ⟨w, (Option.some.inj hv).symm, hw⟩
  · rw [Bucket.Get_upsert_ne _ _ _ _ hk] at hv
    exact hall k v hv

theorem AllRecords_Delete (P : walletTransaction → Prop) (tx : Tx) (hall : AllRecords P tx)
    (key : List Byte) (tx1 : Tx)
    (h1 : tx1.bucketTransactions = Bucket.Delete tx.bucketTransactions key) :
    AllRecords P tx1 := by
  intro k v hv
  rw [h1] at hv
  by_cases hk : k = key
  · subst hk
    rw [Bucket.Get_Delete_self] at hv
    exact Option.noConfusion hv
  · rw [Bucket.Get_Delete_ne _ _ _ hk] at hv
    exact hall k v hv

/-- A property of records that the fresh record has and that the record updates of
`PutTx`, `AddAddressToTx`, `RemoveAddressFromTx` and `MarkTxVerified` keep, holds of every
record after any operation. -/
theorem AllRecords_step (P : walletTransaction → Prop) (hnew : P newWalletTransaction)
    (hput : ∀ w msgTx height, P w → P { w with Tx := msgTx, Height := height })
    (haddr : ∀ w addresses, P w → P { w with Addresses := addresses })
    (hmark : ∀ w t, P w → P { w with Verified := some true, HeaderTimestamp := some t })
    (tx : Tx) (hall : AllRecords P tx) (op : Op) : AllRecords P (step tx op) := by
  have hrec := fun key hread => AllRecords_recordAt P tx hnew hall key hread
  cases op with
  | PutTx txHash msgTx height =>
    simp only [step]
    rcases Bool.true_or_false (canRead tx txHash.slice) with hr | hr
    · refine AllRecords_upsert P tx hall txHash.slice _
        (hput (recordAt tx txHash.slice) msgTx height (hrec txHash.slice hr)) _ ?_
      rw [PutTx_ok tx txHash msgTx height hr]
    · rw [PutTx_unreadable tx txHash msgTx height hr]
      exact hall
  | DeleteTx txHash => exact AllRecords_Delete P tx hall txHash.slice _ rfl
  | AddAddressToTx txHash a =>
    simp only [step]
    rcases Bool.true_or_false (canRead tx txHash.slice) with hr | hr
    · refine AllRecords_upsert P tx hall txHash.slice _
        (haddr (recordAt tx txHash.slice)
          (normalizeAddresses (addressesInsert (recordAt tx txHash.slice).Addresses a))
          (hrec txHash.slice hr)) _ ?_
      rw [AddAddressToTx_ok tx txHash a hr]
    · rw [AddAddressToTx_unreadable tx txHash a hr]
      exact hall
  | RemoveAddressFromTx txHash a =>
    simp only [step]
    rcases Bool.true_or_false (canRead tx txHash.slice) with hr | hr
    · refine AllRecords_upsert P tx hall txHash.slice _
        (haddr (recordAt tx txHash.slice)
          (addressesDelete (recordAt tx txHash.slice).Addresses a) (hrec txHash.slice hr)) _ ?_
      rw [RemoveAddressFromTx_ok tx txHash a hr]
    · rw [RemoveAddressFromTx_unreadable tx txHash a hr]
      exact hall
  | MarkTxVerified txHash t =>
    simp only [step]
    rcases Bool.true_or_false (canRead tx txHash.slice) with hr | hr
    · rcases Bool.true_or_false (timeMarshals t) with ht | ht
      · refine AllRecords_upsert P tx hall txHash.slice _
          (hmark (recordAt tx txHash.slice) t (hrec txHash.slice hr)) _ ?_
        rw [MarkTxVerified_ok tx txHash t hr ht]
      · rw [MarkTxVerified_rejected tx txHash t hr ht]
        exact hall
    · rw [MarkTxVerified_unreadable tx txHash t hr]
      exact hall
  | PutInput o txHash => exact hall
  | DeleteInput o => exact hall
  | PutOutput o txOut => exact hall
  | DeleteOutput o => exact hall
  | PutAddressHistory a history => exact hall

theorem AllRecords_runFrom (P : walletTransaction → Prop) (hnew : P newWalletTransaction)
    (hput : ∀ w msgTx height, P w → P { w with Tx := msgTx, Height := height })
    (haddr : ∀ w addresses, P w → P { w with Addresses := addresses })
    (hmark : ∀ w t, P w → P { w with Verified := some true, HeaderTimestamp := some t })
    (ops : List Op) : ∀ tx : Tx, AllRecords P tx → AllRecords P (runFrom tx ops) := by
  induction ops with
  | nil => intro tx hall; exact hall
  | cons op rest ih =>
    intro tx hall
    exact ih (step tx op) (AllRecords_step P hnew hput haddr hmark tx hall op)

theorem AllRecords_empty (P : walletTransaction → Prop) : AllRecords P Tx.empty := by
  intro key v hv
  exact Option.noConfusion hv

/-- Every operation keeps the stored records decodable: what it writes is what
`json.Marshal` wrote. -/
theorem recordsDecode_step (tx : Tx)
    (hall : AllRecords (fun w => JSONValue.decodes w = true) tx) (op : Op) :
    AllRecords (fun w => JSONValue.decodes w = true) (step tx op) := by
  cases op with
  | PutTx txHash msgTx height =>
    simp only [step]
    rcases Bool.true_or_false (canRead tx txHash.slice) with hr | hr
    · obtain ⟨ht, hvalid, hnodup⟩ := decodes_parts _ (decodes_recordAt tx txHash.slice hr)
      refine AllRecords_upsert _ tx hall txHash.slice
        { recordAt tx txHash.slice with Tx := msgTx, Height := height }
        (decodes_of_parts _ ht hvalid hnodup) _ ?_
      rw [PutTx_ok tx txHash msgTx height hr]
    · rw [PutTx_unreadable tx txHash msgTx height hr]
      exact hall
  | DeleteTx txHash => exact AllRecords_Delete _ tx hall txHash.slice _ rfl
  | AddAddressToTx txHash a =>
    simp only [step]
    rcases Bool.true_or_false (canRead tx txHash.slice) with hr | hr
    · refine AllRecords_upsert _ tx hall txHash.slice _
        (AddAddressToTx_record_written tx txHash a hr).2 _ ?_
      rw [AddAddressToTx_ok tx txHash a hr]
    · rw [AddAddressToTx_unreadable tx txHash a hr]
      exact hall
  | RemoveAddressFromTx txHash a =>
    simp only [step]
    rcases Bool.true_or_false (canRead tx txHash.slice) with hr | hr
    · refine AllRecords_upsert _ tx hall txHash.slice _
        (RemoveAddressFromTx_record tx txHash a hr).2 _ ?_
      rw [RemoveAddressFromTx_ok tx txHash a hr]
    · rw [RemoveAddressFromTx_unreadable tx txHash a hr]
      exact hall
  | MarkTxVerified txHash t =>
    simp only [step]
    rcases Bool.true_or_false (canRead tx txHash.slice) with hr | hr
    · rcases Bool.true_or_false (timeMarshals t) with ht | ht
      · refine AllRecords_upsert _ tx hall txHash.slice _
          (MarkTxVerified_record tx txHash t hr ht).2 _ ?_
        rw [MarkTxVerified_ok tx txHash t hr ht]
      · rw [MarkTxVerified_rejected tx txHash t hr ht]
        exact hall
    · rw [MarkTxVerified_unreadable tx txHash t hr]
      exact hall
  | PutInput o txHash => exact hall
  | DeleteInput o => exact hall
  | PutOutput o txOut => exact hall
  | DeleteOutput o => exact hall
  | PutAddressHistory a history => exact hall

theorem recordsDecode_runFrom (ops : List Op) :
    ∀ tx : Tx, AllRecords (fun w => JSONValue.decodes w = true) tx →
      AllRecords (fun w => JSONValue.decodes w = true) (runFrom tx ops) := by
  induction ops with
  | nil => intro tx hall; exact hall
  | cons op rest ih =>
    intro tx hall
    exact ih (step tx op) (recordsDecode_step tx hall op)

/-- In every store reached from the empty store, reading the record of any key succeeds:
the read error of `readJSON` needs bytes that this code did not write. -/
theorem canRead_run (ops : List Op) (key : List Byte) : canRead (run ops) key = true := by
  have hall := recordsDecode_runFrom ops Tx.empty (AllRecords_empty _)
  rcases Bucket.Get_cases (run ops).bucketTransactions key with h0 | ⟨w, h0⟩ | h0
  · exact canRead_of_none _ _ h0
  · obtain ⟨w1, hw1, hd⟩ := hall key _ h0
    rw [← JSONBytes.encoded.inj hw1] at hd
    exact canRead_of_encoded _ _ w h0 hd
  · obtain ⟨w1, hw1, _⟩ := hall key _ h0
    exact JSONBytes.noConfusion hw1

/-! ## C10: a header timestamp is present exactly on verified records -/

/-- C10. In every store reached from the empty store by a sequence of operations, every
stored transaction record has a header timestamp if and only if its `Verified` flag is
true. -/
theorem headerTimestamp_iff_verified (ops : List Op) (key : List Byte)
    (v : JSONBytes walletTransaction)
    (hv : Bucket.Get (run ops).bucketTransactions key = some v) :
    ∃ w, v = JSONBytes.encoded w ∧ (w.HeaderTimestamp.isSome = true ↔ w.Verified = some true) := by
  have hall := AllRecords_runFrom
    (fun w => w.HeaderTimestamp.isSome = true ↔ w.Verified = some true)
    (by decide) (fun w _ _ hw => hw) (fun w _ hw => hw) (fun w t _ => by simp)
    ops Tx.empty (AllRecords_empty _)
  exact hall key v hv

/-- Witness for C10: the verified sample record has a header timestamp, after three
operations on the empty store. -/
theorem headerTimestamp_iff_verified_witness :
    ∃ w, JSONBytes.encoded (walletTransaction.mk (some sampleMsgTx) 5 [[97]] (some true) (some 7))
        = JSONBytes.encoded w ∧
      (w.HeaderTimestamp.isSome = true ↔ w.Verified = some true) :=
  headerTimestamp_iff_verified
    [Op.AddAddressToTx hashA [97], Op.MarkTxVerified hashA 7, Op.PutTx hashA (some sampleMsgTx) 5]
    hashA.slice _ (by decide)

/-! ## Operations leave other keys alone -/

/-- An operation changes neither the stored record nor the index membership of a key
other than the hash it works on. -/
theorem step_frame (tx : Tx) (op : Op) (key : List Byte)
    (hkey : ∀ txHash, op.target = some txHash → key ≠ txHash.slice) :
    Bucket.Get (step tx op).bucketTransactions key = Bucket.Get tx.bucketTransactions key ∧
    (key ∈ Bucket.keys (step tx op).bucketUnverifiedTransactions ↔
      key ∈ Bucket.keys tx.bucketUnverifiedTransactions) := by
  cases op with
  | PutTx txHash msgTx height =>
    have hne := hkey txHash rfl
    simp only [step]
    rcases Bool.true_or_false (canRead tx txHash.slice) with hm | hm
    · rw [PutTx_ok tx txHash msgTx height hm]
      refine ⟨Bucket.Get_upsert_ne _ _ _ _ hne, ?_⟩
      by_cases hv : (recordAt tx txHash.slice).Verified = none
      · simp only [hv, if_true]
        rw [Bucket.mem_keys_upsert]
        exact ⟨fun h => h.resolve_left hne, Or.inr⟩
      · simp only [hv, if_false]
    · rw [PutTx_unreadable tx txHash msgTx height hm]
      exact ⟨rfl, Iff.rfl⟩
  | DeleteTx txHash =>
    exact ⟨Bucket.Get_Delete_ne _ _ _ (hkey txHash rfl), Iff.rfl⟩
  | AddAddressToTx txHash a =>
    have hne := hkey txHash rfl
    simp only [step]
    rcases Bool.true_or_false (canRead tx txHash.slice) with hm | hm
    · rw [AddAddressToTx_ok tx txHash a hm]
      exact ⟨Bucket.Get_upsert_ne _ _ _ _ hne, Iff.rfl⟩
    · rw [AddAddressToTx_unreadable tx txHash a hm]
      exact ⟨rfl, Iff.rfl⟩
  | RemoveAddressFromTx txHash a =>
    have hne := hkey txHash rfl
    simp only [step]
    rcases Bool.true_or_false (canRead tx txHash.slice) with hm | hm
    · rw [RemoveAddressFromTx_ok tx txHash a hm]
      exact ⟨Bucket.Get_upsert_ne _ _ _ _ hne, Iff.rfl⟩
    · rw [RemoveAddressFromTx_unreadable tx txHash a hm]
      exact ⟨rfl, Iff.rfl⟩
  | MarkTxVerified txHash t =>
    have hne := hkey txHash rfl
    simp only [step]
    rcases Bool.true_or_false (canRead tx txHash.slice) with hm | hm
    · rcases Bool.true_or_false (timeMarshals t) with ht | ht
      · rw [MarkTxVerified_ok tx txHash t hm ht]
        refine ⟨Bucket.Get_upsert_ne _ _ _ _ hne, ?_⟩
        simp only [Bucket.mem_keys_Delete]
        exact ⟨fun h => h.2, fun h => ⟨hne, h⟩⟩
      · rw [MarkTxVerified_rejected tx txHash t hm ht]
        refine ⟨rfl, ?_⟩
        simp only [Bucket.mem_keys_Delete]
        exact ⟨fun h => h.2, fun h => ⟨hne, h⟩⟩
    · rw [MarkTxVerified_unreadable tx txHash t hm]
      refine ⟨rfl, ?_⟩
      simp only [Bucket.mem_keys_Delete]
      exact ⟨fun h => h.2, fun h => ⟨hne, h⟩⟩
  | PutInput o txHash => exact ⟨rfl, Iff.rfl⟩
  | DeleteInput o => exact ⟨rfl, Iff.rfl⟩
  | PutOutput o txOut => exact ⟨rfl, Iff.rfl⟩
  | DeleteOutput o => exact ⟨rfl, Iff.rfl⟩
  | PutAddressHistory a history => exact ⟨rfl, Iff.rfl⟩

/-- Two hashes with the same bytes are the same hash. -/
theorem Hash.eq_of_slice_eq (a b : Hash) (h : a.slice = b.slice) : a = b :=
  Subtype.ext h

/-! ## C5: verification is one-way as long as the record is not deleted -/

/-- A verified, unindexed record stays so under any operation but `DeleteTx` of it. -/
theorem verified_step (tx : Tx) (h : Hash) (op : Op) (hop : op ≠ Op.DeleteTx h)
    (hU : h.slice ∉ Bucket.keys tx.bucketUnverifiedTransactions)
    (hrec : ∃ w, Bucket.Get tx.bucketTransactions h.slice = some (JSONBytes.encoded w) ∧
      w.Verified = some true) :
    h.slice ∉ Bucket.keys (step tx op).bucketUnverifiedTransactions ∧
    ∃ w, Bucket.Get (step tx op).bucketTransactions h.slice = some (JSONBytes.encoded w) ∧
      w.Verified = some true := by
  obtain ⟨w, hw, hv⟩ := hrec
  by_cases ht : op.target = some h
  · cases op with
    | PutTx txHash msgTx height =>
      have he : txHash = h := Option.some.inj ht
      subst he
      simp only [step]
      rcases Bool.true_or_false (canRead tx txHash.slice) with hm | hm
      · have hr := recordAt_of_encoded tx txHash.slice w hw
          (decodes_of_canRead tx txHash.slice w hm hw)
        rw [PutTx_ok tx txHash msgTx height hm, hr]
        have hvn : ¬ w.Verified = none := by rw [hv]; exact fun hc => Option.noConfusion hc
        simp only [hvn, if_false]
        exact ⟨hU, _, Bucket.Get_upsert_self _ _ _, hv⟩
      · rw [PutTx_unreadable tx txHash msgTx height hm]
        exact ⟨hU, w, hw, hv⟩
    | DeleteTx txHash =>
      have he : txHash = h := Option.some.inj ht
      subst he
      exact absurd rfl hop
    | AddAddressToTx txHash a =>
      have he : txHash = h := Option.some.inj ht
      subst he
      simp only [step]
      rcases Bool.true_or_false (canRead tx txHash.slice) with hm | hm
      · have hr := recordAt_of_encoded tx txHash.slice w hw
          (decodes_of_canRead tx txHash.slice w hm hw)
        rw [AddAddressToTx_ok tx txHash a hm, hr]
        exact ⟨hU, _, Bucket.Get_upsert_self _ _ _, hv⟩
      · rw [AddAddressToTx_unreadable tx txHash a hm]
        exact ⟨hU, w, hw, hv⟩
    | RemoveAddressFromTx txHash a =>
      have he : txHash = h := Option.some.inj ht
      subst he
      simp only [step]
      rcases Bool.true_or_false (canRead tx txHash.slice) with hm | hm
      · have hr := recordAt_of_encoded tx txHash.slice w hw
          (decodes_of_canRead tx txHash.slice w hm hw)
        rw [RemoveAddressFromTx_ok tx txHash a hm, hr]
        exact ⟨hU, _, Bucket.Get_upsert_self _ _ _, hv⟩
      · rw [RemoveAddressFromTx_unreadable tx txHash a hm]
        exact ⟨hU, w, hw, hv⟩
    | MarkTxVerified txHash t =>
      have he : txHash = h := Option.some.inj ht
      subst he
      simp only [step]
      have hdel : ∀ b : Bucket (List Byte) Unit,
          txHash.slice ∉ Bucket.keys (Bucket.Delete b txHash.slice) :=
        fun b hc => ((Bucket.mem_keys_Delete _ _ _).mp hc).1 rfl
      rcases Bool.true_or_false (canRead tx txHash.slice) with hm | hm
      · rcases Bool.true_or_false (timeMarshals t) with hti | hti
        · rw [MarkTxVerified_ok tx txHash t hm hti]
          exact ⟨hdel _, _, Bucket.Get_upsert_self _ _ _, rfl⟩
        · rw [MarkTxVerified_rejected tx txHash t hm hti]
          exact ⟨hdel _, w, hw, hv⟩
      · rw [MarkTxVerified_unreadable tx txHash t hm]
        exact ⟨hdel _, w, hw, hv⟩
    | PutInput o txHash => exact Option.noConfusion ht
    | DeleteInput o => exact Option.noConfusion ht
    | PutOutput o txOut => exact Option.noConfusion ht
    | DeleteOutput o => exact Option.noConfusion ht
    | PutAddressHistory a history => exact Option.noConfusion ht
  · have hkey : ∀ txHash, op.target = some txHash → h.slice ≠ txHash.slice := by
      intro txHash h1 h2
      exact ht (by rw [h1, Hash.eq_of_slice_eq h txHash h2])
    obtain ⟨h1, h2⟩ := step_frame tx op h.slice hkey
    exact ⟨fun hc => hU (h2.mp hc), w, h1.trans hw, hv⟩

/-- C5, amended. Once `MarkTxVerified(h, t)` has returned without error, after any later
sequence of store operations that contains no `DeleteTx(h)`, `h` is not in the unverified
index and `h` has a stored record whose `Verified` flag is true. -/
theorem verified_stays_verified (tx : Tx) (h : Hash) (t : Time) (ops : List Op)
    (hmark : (MarkTxVerified tx h t).2 = none) (hops : Op.DeleteTx h ∉ ops) :
    h.slice ∉ Bucket.keys
      (runFrom (MarkTxVerified tx h t).1 ops).bucketUnverifiedTransactions ∧
    ∃ w, Bucket.Get (runFrom (MarkTxVerified tx h t).1 ops).bucketTransactions h.slice =
        some (JSONBytes.encoded w) ∧ w.Verified = some true := by
  have hm := MarkTxVerified_error_none tx h t hmark
  have hstart : h.slice ∉ Bucket.keys (MarkTxVerified tx h t).1.bucketUnverifiedTransactions ∧
      ∃ w, Bucket.Get (MarkTxVerified tx h t).1.bucketTransactions h.slice =
        some (JSONBytes.encoded w) ∧ w.Verified = some true := by
    rw [MarkTxVerified_ok tx h t hm.1 hm.2]
    refine ⟨?_, _, Bucket.Get_upsert_self _ _ _, rfl⟩
    intro hc
    exact ((Bucket.mem_keys_Delete _ _ _).mp hc).1 rfl
  revert hstart
  generalize (MarkTxVerified tx h t).1 = s
  induction ops generalizing s with
  | nil => intro hs; exact hs
  | cons op rest ih =>
    intro hs
    have hop : op ≠ Op.DeleteTx h := fun hc => hops (hc ▸ List.mem_cons_self _ _)
    have hrest : Op.DeleteTx h ∉ rest := fun hc => hops (List.mem_cons_of_mem _ hc)
    exact ih hrest (step s op) (verified_step s h op hop hs.1 hs.2)

/-- Witness for C5 (amended): after verification, `PutTx`, address updates, a second
verification and `DeleteTx` of another hash leave `hashA` verified and unindexed. -/
theorem verified_stays_verified_witness :
    hashA.slice ∉ Bucket.keys
      (runFrom (MarkTxVerified storeUnverifiedA hashA 7).1
        [Op.PutTx hashA none 9, Op.RemoveAddressFromTx hashA [97], Op.DeleteTx hashB,
          Op.PutTx hashB none 1, Op.MarkTxVerified hashA 8]).bucketUnverifiedTransactions ∧
    ∃ w, Bucket.Get (runFrom (MarkTxVerified storeUnverifiedA hashA 7).1
        [Op.PutTx hashA none 9, Op.RemoveAddressFromTx hashA [97], Op.DeleteTx hashB,
          Op.PutTx hashB none 1, Op.MarkTxVerified hashA 8]).bucketTransactions hashA.slice =
        some (JSONBytes.encoded w) ∧ w.Verified = some true :=
  verified_stays_verified storeUnverifiedA hashA 7
    [Op.PutTx hashA none 9, Op.RemoveAddressFromTx hashA [97], Op.DeleteTx hashB,
      Op.PutTx hashB none 1, Op.MarkTxVerified hashA 8] (by decide) (by decide)

/-- C5 as stated fails: after `MarkTxVerified(hashA, 7)`, the later operations
`DeleteTx(hashA)`, `PutTx(hashA, nil, 0)` put `hashA` back into the unverified index with
a stored record whose `Verified` flag is unset. -/
theorem verified_stays_verified_counterexample :
    (MarkTxVerified storeUnverifiedA hashA 7).2 = none ∧
    hashA.slice ∈ Bucket.keys
      (runFrom (MarkTxVerified storeUnverifiedA hashA 7).1
        [Op.DeleteTx hashA, Op.PutTx hashA none 0]).bucketUnverifiedTransactions ∧
    Bucket.Get (runFrom (MarkTxVerified storeUnverifiedA hashA 7).1
        [Op.DeleteTx hashA, Op.PutTx hashA none 0]).bucketTransactions hashA.slice =
      some (JSONBytes.encoded (walletTransaction.mk none 0 [] none none)) := by
  decide


/-! ## C1: the unverified index and the `Verified` flag -/

/-- The record read for a key of the unverified index has its `Verified` flag unset, when
every key of the index has no record or a record whose flag is unset. -/
theorem recordAt_unverified_of_indexed (tx : Tx) (key : List Byte)
    (hA : Bucket.Get tx.bucketTransactions key = none ∨
      ∃ w, Bucket.Get tx.bucketTransactions key = some (JSONBytes.encoded w) ∧
        w.Verified = none)
    (hread : canRead tx key = true) :
    (recordAt tx key).Verified = none := by
  rcases hA with h0 | ⟨w, h0, hw⟩
  · rw [recordAt_of_none tx key h0]; rfl
  · rw [recordAt_of_encoded tx key w h0 (decodes_of_canRead tx key w hread h0)]; exact hw

/-- The index is sound after one more operation: a key of the unverified index has no
record, or a record whose `Verified` flag is unset. -/
theorem indexSound_step (tx : Tx) (op : Op)
    (hA : ∀ key, key ∈ Bucket.keys tx.bucketUnverifiedTransactions →
      Bucket.Get tx.bucketTransactions key = none ∨
      ∃ w, Bucket.Get tx.bucketTransactions key = some (JSONBytes.encoded w) ∧
        w.Verified = none) :
    ∀ key, key ∈ Bucket.keys (step tx op).bucketUnverifiedTransactions →
      Bucket.Get (step tx op).bucketTransactions key = none ∨
      ∃ w, Bucket.Get (step tx op).bucketTransactions key = some (JSONBytes.encoded w) ∧
        w.Verified = none := by
  intro key hkey
  by_cases ht : ∃ txHash, op.target = some txHash ∧ key = txHash.slice
  · obtain ⟨txHash, ht1, ht2⟩ := ht
    subst ht2
    have hdel : ∀ b : Bucket (List Byte) Unit,
        txHash.slice ∉ Bucket.keys (Bucket.Delete b txHash.slice) :=
      fun b hc => ((Bucket.mem_keys_Delete _ _ _).mp hc).1 rfl
    cases op with
    | PutTx txHash1 msgTx height =>
      have he : txHash1 = txHash := Option.some.inj ht1
      subst he
      simp only [step] at hkey ⊢
      rcases Bool.true_or_false (canRead tx txHash1.slice) with hr | hr
      · rw [PutTx_ok tx txHash1 msgTx height hr] at hkey ⊢
        right
        refine ⟨_, Bucket.Get_upsert_self _ _ _, ?_⟩
        by_cases hv : (recordAt tx txHash1.slice).Verified = none
        · exact hv
        · simp only [hv, if_false] at hkey
          exact recordAt_unverified_of_indexed tx _ (hA _ hkey) hr
      · rw [PutTx_unreadable tx txHash1 msgTx height hr] at hkey ⊢
        exact hA _ hkey
    | DeleteTx txHash1 =>
      have he : txHash1 = txHash := Option.some.inj ht1
      subst he
      exact Or.inl (Bucket.Get_Delete_self _ _)
    | AddAddressToTx txHash1 a =>
      have he : txHash1 = txHash := Option.some.inj ht1
      subst he
      simp only [step] at hkey ⊢
      rcases Bool.true_or_false (canRead tx txHash1.slice) with hr | hr
      · rw [AddAddressToTx_ok tx txHash1 a hr] at hkey ⊢
        exact Or.inr ⟨_, Bucket.Get_upsert_self _ _ _,
          recordAt_unverified_of_indexed tx _ (hA _ hkey) hr⟩
      · rw [AddAddressToTx_unreadable tx txHash1 a hr] at hkey ⊢
        exact hA _ hkey
    | RemoveAddressFromTx txHash1 a =>
      have he : txHash1 = txHash := Option.some.inj ht1
      subst he
      simp only [step] at hkey ⊢
      rcases Bool.true_or_false (canRead tx txHash1.slice) with hr | hr
      · rw [RemoveAddressFromTx_ok tx txHash1 a hr] at hkey ⊢
        exact Or.inr ⟨_, Bucket.Get_upsert_self _ _ _,
          recordAt_unverified_of_indexed tx _ (hA _ hkey) hr⟩
      · rw [RemoveAddressFromTx_unreadable tx txHash1 a hr] at hkey ⊢
        exact hA _ hkey
    | MarkTxVerified txHash1 t =>
      have he : txHash1 = txHash := Option.some.inj ht1
      subst he
      exact absurd hkey (MarkTxVerified_not_indexed tx txHash1 t).1
    | PutInput o txHash1 => exact Option.noConfusion ht1
    | DeleteInput o => exact Option.noConfusion ht1
    | PutOutput o txOut => exact Option.noConfusion ht1
    | DeleteOutput o => exact Option.noConfusion ht1
    | PutAddressHistory a history => exact Option.noConfusion ht1
  · have hfr : ∀ txHash, op.target = some txHash → key ≠ txHash.slice :=
      fun txHash h1 h2 => ht ⟨txHash, h1, h2⟩
    obtain ⟨h1, h2⟩ := step_frame tx op key hfr
    rw [h1]
    exact hA key (h2.mp hkey)

theorem indexSound_runFrom (ops : List Op) :
    ∀ tx : Tx,
      (∀ key, key ∈ Bucket.keys tx.bucketUnverifiedTransactions →
        Bucket.Get tx.bucketTransactions key = none ∨
        ∃ w, Bucket.Get tx.bucketTransactions key = some (JSONBytes.encoded w) ∧
          w.Verified = none) →
      ∀ key, key ∈ Bucket.keys (runFrom tx ops).bucketUnverifiedTransactions →
        Bucket.Get (runFrom tx ops).bucketTransactions key = none ∨
        ∃ w, Bucket.Get (runFrom tx ops).bucketTransactions key =
          some (JSONBytes.encoded w) ∧ w.Verified = none := by
  induction ops with
  | nil => intro tx hA; exact hA
  | cons op rest ih =>
    intro tx hA
    exact ih (step tx op) (indexSound_step tx op hA)

/-- Without `DeleteTx`, every key of the unverified index keeps a record whose `Verified`
flag is unset after one more operation. -/
theorem indexHasRecord_step (tx : Tx) (op : Op) (hop : ∀ txHash, op ≠ Op.DeleteTx txHash)
    (hC : ∀ key, key ∈ Bucket.keys tx.bucketUnverifiedTransactions →
      ∃ w, Bucket.Get tx.bucketTransactions key = some (JSONBytes.encoded w) ∧
        w.Verified = none) :
    ∀ key, key ∈ Bucket.keys (step tx op).bucketUnverifiedTransactions →
      ∃ w, Bucket.Get (step tx op).bucketTransactions key = some (JSONBytes.encoded w) ∧
        w.Verified = none := by
  intro key hkey
  have hA : ∀ key, key ∈ Bucket.keys tx.bucketUnverifiedTransactions →
      Bucket.Get tx.bucketTransactions key = none ∨
      ∃ w, Bucket.Get tx.bucketTransactions key = some (JSONBytes.encoded w) ∧
        w.Verified = none := fun k hk => Or.inr (hC k hk)
  rcases indexSound_step tx op hA key hkey with h0 | h0
  · exfalso
    by_cases ht : ∃ txHash, op.target = some txHash ∧ key = txHash.slice
    · obtain ⟨txHash, ht1, ht2⟩ := ht
      subst ht2
      cases op with
      | PutTx txHash1 msgTx height =>
        have he : txHash1 = txHash := Option.some.inj ht1
        subst he
        simp only [step] at hkey h0
        rcases Bool.true_or_false (canRead tx txHash1.slice) with hr | hr
        · rw [PutTx_ok tx txHash1 msgTx height hr] at h0
          rw [Bucket.Get_upsert_self] at h0
          exact Option.noConfusion h0
        · rw [PutTx_unreadable tx txHash1 msgTx height hr] at hkey h0
          obtain ⟨w, hw, _⟩ := hC _ hkey
          rw [hw] at h0
          exact Option.noConfusion h0
      | DeleteTx txHash1 => exact hop txHash1 rfl
      | AddAddressToTx txHash1 a =>
        have he : txHash1 = txHash := Option.some.inj ht1
        subst he
        simp only [step] at hkey h0
        rcases Bool.true_or_false (canRead tx txHash1.slice) with hr | hr
        · rw [AddAddressToTx_ok tx txHash1 a hr] at h0
          rw [Bucket.Get_upsert_self] at h0
          exact Option.noConfusion h0
        · rw [AddAddressToTx_unreadable tx txHash1 a hr] at hkey h0
          obtain ⟨w, hw, _⟩ := hC _ hkey
          rw [hw] at h0
          exact Option.noConfusion h0
      | RemoveAddressFromTx txHash1 a =>
        have he : txHash1 = txHash := Option.some.inj ht1
        subst he
        simp only [step] at hkey h0
        rcases Bool.true_or_false (canRead tx txHash1.slice) with hr | hr
        · rw [RemoveAddressFromTx_ok tx txHash1 a hr] at h0
          rw [Bucket.Get_upsert_self] at h0
          exact Option.noConfusion h0
        · rw [RemoveAddressFromTx_unreadable tx txHash1 a hr] at hkey h0
          obtain ⟨w, hw, _⟩ := hC _ hkey
          rw [hw] at h0
          exact Option.noConfusion h0
      | MarkTxVerified txHash1 t =>
        have he : txHash1 = txHash := Option.some.inj ht1
        subst he
        exact absurd hkey (MarkTxVerified_not_indexed tx txHash1 t).1
      | PutInput o txHash1 => exact Option.noConfusion ht1
      | DeleteInput o => exact Option.noConfusion ht1
      | PutOutput o txOut => exact Option.noConfusion ht1
      | DeleteOutput o => exact Option.noConfusion ht1
      | PutAddressHistory a history => exact Option.noConfusion ht1
    · have hfr : ∀ txHash, op.target = some txHash → key ≠ txHash.slice :=
        fun txHash h1 h2 => ht ⟨txHash, h1, h2⟩
      obtain ⟨h1, h2⟩ := step_frame tx op key hfr
      obtain ⟨w, hw, _⟩ := hC key (h2.mp hkey)
      rw [h1, hw] at h0
      exact Option.noConfusion h0
  · exact h0

theorem noDeleteTx_cons (op : Op) (rest : List Op) (h : noDeleteTx (op :: rest) = true) :
    (∀ txHash, op ≠ Op.DeleteTx txHash) ∧ noDeleteTx rest = true := by
  cases op with
  | DeleteTx txHash1 => exact Bool.noConfusion h
  | PutTx txHash1 msgTx height => exact ⟨fun _ hc => Op.noConfusion hc, h⟩
  | AddAddressToTx txHash1 a => exact ⟨fun _ hc => Op.noConfusion hc, h⟩
  | RemoveAddressFromTx txHash1 a => exact ⟨fun _ hc => Op.noConfusion hc, h⟩
  | MarkTxVerified txHash1 t => exact ⟨fun _ hc => Op.noConfusion hc, h⟩
  | PutInput o txHash1 => exact ⟨fun _ hc => Op.noConfusion hc, h⟩
  | DeleteInput o => exact ⟨fun _ hc => Op.noConfusion hc, h⟩
  | PutOutput o txOut => exact ⟨fun _ hc => Op.noConfusion hc, h⟩
  | DeleteOutput o => exact ⟨fun _ hc => Op.noConfusion hc, h⟩
  | PutAddressHistory a history => exact ⟨fun _ hc => Op.noConfusion hc, h⟩

theorem indexHasRecord_runFrom (ops : List Op) :
    ∀ tx : Tx, noDeleteTx ops = true →
      (∀ key, key ∈ Bucket.keys tx.bucketUnverifiedTransactions →
        ∃ w, Bucket.Get tx.bucketTransactions key = some (JSONBytes.encoded w) ∧
          w.Verified = none) →
      ∀ key, key ∈ Bucket.keys (runFrom tx ops).bucketUnverifiedTransactions →
        ∃ w, Bucket.Get (runFrom tx ops).bucketTransactions key =
          some (JSONBytes.encoded w) ∧ w.Verified = none := by
  induction ops with
  | nil => intro tx _ hC; exact hC
  | cons op rest ih =>
    intro tx hno hC
    obtain ⟨hop, hrest⟩ := noDeleteTx_cons op rest hno
    exact ih (step tx op) hrest (indexHasRecord_step tx op hop hC)

/-- Under the `indexCovering` restriction the index covers the unverified records after
one more operation: a stored record whose `Verified` flag is unset has its key in the
unverified index. -/
theorem indexCovers_step (tx : Tx) (op : Op) (rest : List Op)
    (hcov : indexCovering tx (op :: rest) = true)
    (hB : ∀ key w, Bucket.Get tx.bucketTransactions key = some (JSONBytes.encoded w) →
      w.Verified = none → key ∈ Bucket.keys tx.bucketUnverifiedTransactions) :
    ∀ key w, Bucket.Get (step tx op).bucketTransactions key = some (JSONBytes.encoded w) →
      w.Verified = none → key ∈ Bucket.keys (step tx op).bucketUnverifiedTransactions := by
  intro key w hget hv
  simp only [indexCovering, Bool.and_eq_true] at hcov
  have hcov1 := hcov.1
  by_cases ht : ∃ txHash, op.target = some txHash ∧ key = txHash.slice
  · obtain ⟨txHash, ht1, ht2⟩ := ht
    subst ht2
    cases op with
    | PutTx txHash1 msgTx height =>
      have he : txHash1 = txHash := Option.some.inj ht1
      subst he
      simp only [step] at hget ⊢
      rcases Bool.true_or_false (canRead tx txHash1.slice) with hr | hr
      · rw [PutTx_ok tx txHash1 msgTx height hr] at hget ⊢
        rw [Bucket.Get_upsert_self] at hget
        have hw := JSONBytes.encoded.inj (Option.some.inj hget)
        have hv1 : (recordAt tx txHash1.slice).Verified = none := by
          rw [← hw] at hv
          exact hv
        simp only [hv1, if_true]
        exact (Bucket.mem_keys_upsert _ _ _ _).mpr (Or.inl rfl)
      · rw [PutTx_unreadable tx txHash1 msgTx height hr] at hget ⊢
        exact hB _ w hget hv
    | DeleteTx txHash1 =>
      have he : txHash1 = txHash := Option.some.inj ht1
      subst he
      simp only [step, DeleteTx] at hget
      rw [Bucket.Get_Delete_self] at hget
      exact Option.noConfusion hget
    | AddAddressToTx txHash1 a =>
      have he : txHash1 = txHash := Option.some.inj ht1
      subst he
      simp only [step] at hget ⊢
      rcases Bool.true_or_false (canRead tx txHash1.slice) with hr | hr
      · rcases (canRead_iff tx txHash1.slice).mp hr with h0 | ⟨w0, h0, hw0⟩
        · have hsome : (Bucket.Get tx.bucketTransactions txHash1.slice).isSome = true := hcov1
          rw [h0] at hsome
          exact Bool.noConfusion hsome
        · rw [AddAddressToTx_ok tx txHash1 a hr] at hget ⊢
          rw [Bucket.Get_upsert_self, recordAt_of_encoded tx _ w0 h0 hw0] at hget
          have hw := JSONBytes.encoded.inj (Option.some.inj hget)
          have hv1 : w0.Verified = none := by
            rw [← hw] at hv
            exact hv
          exact hB _ w0 h0 hv1
      · rw [AddAddressToTx_unreadable tx txHash1 a hr] at hget ⊢
        exact hB _ w hget hv
    | RemoveAddressFromTx txHash1 a =>
      have he : txHash1 = txHash := Option.some.inj ht1
      subst he
      simp only [step] at hget ⊢
      rcases Bool.true_or_false (canRead tx txHash1.slice) with hr | hr
      · rcases (canRead_iff tx txHash1.slice).mp hr with h0 | ⟨w0, h0, hw0⟩
        · have hsome : (Bucket.Get tx.bucketTransactions txHash1.slice).isSome = true := hcov1
          rw [h0] at hsome
          exact Bool.noConfusion hsome
        · rw [RemoveAddressFromTx_ok tx txHash1 a hr] at hget ⊢
          rw [Bucket.Get_upsert_self, recordAt_of_encoded tx _ w0 h0 hw0] at hget
          have hw := JSONBytes.encoded.inj (Option.some.inj hget)
          have hv1 : w0.Verified = none := by
            rw [← hw] at hv
            exact hv
          exact hB _ w0 h0 hv1
      · rw [RemoveAddressFromTx_unreadable tx txHash1 a hr] at hget ⊢
        exact hB _ w hget hv
    | MarkTxVerified txHash1 t =>
      have he : txHash1 = txHash := Option.some.inj ht1
      subst he
      exfalso
      have hisNone : (MarkTxVerified tx txHash1 t).2.isNone = true := hcov1
      have hnone : (MarkTxVerified tx txHash1 t).2 = none := by
        cases hm : (MarkTxVerified tx txHash1 t).2 with
        | none => rfl
        | some err =>
          rw [hm] at hisNone
          exact Bool.noConfusion hisNone
      obtain ⟨hr, hti⟩ := MarkTxVerified_error_none tx txHash1 t hnone
      simp only [step] at hget
      rw [MarkTxVerified_ok tx txHash1 t hr hti] at hget
      rw [Bucket.Get_upsert_self] at hget
      have hw := JSONBytes.encoded.inj (Option.some.inj hget)
      rw [← hw] at hv
      exact Option.noConfusion hv
    | PutInput o txHash1 => exact Option.noConfusion ht1
    | DeleteInput o => exact Option.noConfusion ht1
    | PutOutput o txOut => exact Option.noConfusion ht1
    | DeleteOutput o => exact Option.noConfusion ht1
    | PutAddressHistory a history => exact Option.noConfusion ht1
  · have hfr : ∀ txHash, op.target = some txHash → key ≠ txHash.slice :=
      fun txHash h1 h2 => ht ⟨txHash, h1, h2⟩
    obtain ⟨h1, h2⟩ := step_frame tx op key hfr
    rw [h1] at hget
    exact h2.mpr (hB key w hget hv)

theorem indexCovers_runFrom (ops : List Op) :
    ∀ tx : Tx, indexCovering tx ops = true →
      (∀ key w, Bucket.Get tx.bucketTransactions key = some (JSONBytes.encoded w) →
        w.Verified = none → key ∈ Bucket.keys tx.bucketUnverifiedTransactions) →
      ∀ key w, Bucket.Get (runFrom tx ops).bucketTransactions key =
        some (JSONBytes.encoded w) →
        w.Verified = none → key ∈ Bucket.keys (runFrom tx ops).bucketUnverifiedTransactions := by
  induction ops with
  | nil => intro tx _ hB; exact hB
  | cons op rest ih =>
    intro tx hcov hB
    have hcov1 : indexCovering (step tx op) rest = true := by
      simp only [indexCovering, Bool.and_eq_true] at hcov
      exact hcov.2
    exact ih (step tx op) hcov1 (indexCovers_step tx op rest hcov hB)

/-- In every store reached from the empty store, the `Verified` flag of a stored record
is unset or true. -/
theorem verified_unset_or_true (ops : List Op) :
    AllRecords (fun w => w.Verified = none ∨ w.Verified = some true) (run ops) :=
  AllRecords_runFrom _ (Or.inl rfl) (fun _ _ _ hw => hw) (fun _ _ hw => hw)
    (fun _ _ _ => Or.inr rfl) ops Tx.empty (AllRecords_empty _)

/-- C1, amended. In every store reached from the empty store by a sequence of operations,
a key of the unverified index has no stored record (after `DeleteTx`) or a stored record
whose `Verified` flag is unset; when the sequence contains no `DeleteTx`, it has a stored
record whose `Verified` flag is unset. When the sequence is `indexCovering`
(`AddAddressToTx` and `RemoveAddressFromTx` only for hashes that have a record at that
moment, and every `MarkTxVerified` returns no error), every hash for which the
transactions bucket holds a record whose `Verified` flag is not true is a key of the
unverified index. -/
theorem unverified_index_invariant (ops : List Op) (h : Hash) :
    (h.slice ∈ Bucket.keys (run ops).bucketUnverifiedTransactions →
      Bucket.Get (run ops).bucketTransactions h.slice = none ∨
      ∃ w, Bucket.Get (run ops).bucketTransactions h.slice = some (JSONBytes.encoded w) ∧
        w.Verified = none) ∧
    (noDeleteTx ops = true →
      h.slice ∈ Bucket.keys (run ops).bucketUnverifiedTransactions →
      ∃ w, Bucket.Get (run ops).bucketTransactions h.slice = some (JSONBytes.encoded w) ∧
        w.Verified = none) ∧
    (indexCovering Tx.empty ops = true →
      (∃ w, Bucket.Get (run ops).bucketTransactions h.slice = some (JSONBytes.encoded w) ∧
        w.Verified ≠ some true) →
      h.slice ∈ Bucket.keys (run ops).bucketUnverifiedTransactions) := by
  refine ⟨?_, ?_, ?_⟩
  · exact indexSound_runFrom ops Tx.empty (fun key _ => Or.inl rfl) h.slice
  · intro hno
    exact indexHasRecord_runFrom ops Tx.empty hno
      (fun key hk => absurd hk (List.not_mem_nil _)) h.slice
  · rintro hcov ⟨w, hw, hv⟩
    obtain ⟨w1, hw1, hv1⟩ := verified_unset_or_true ops h.slice _ hw
    have : w = w1 := JSONBytes.encoded.inj hw1
    subst this
    exact indexCovers_runFrom ops Tx.empty hcov
      (fun key w0 h0 _ => Option.noConfusion h0) h.slice w hw (hv1.resolve_right hv)

/-- Witness for C1 (amended): after `PutTx` and `DeleteTx` the index entry of `hashA`
points at no record; after `PutTx`, `AddAddressToTx`, `PutTx(hashB)`, `MarkTxVerified`
the index entry of `hashB` has an unverified record; and after `PutTx(hashB)`,
`PutTx(hashA)`, `DeleteTx(hashA)`, `AddAddressToTx(hashB)` the unverified record of
`hashB` is indexed. -/
theorem unverified_index_invariant_witness :
    (Bucket.Get (run [Op.PutTx hashA none 0, Op.DeleteTx hashA]).bucketTransactions
        hashA.slice = none ∨
      ∃ w, Bucket.Get (run [Op.PutTx hashA none 0, Op.DeleteTx hashA]).bucketTransactions
        hashA.slice = some (JSONBytes.encoded w) ∧ w.Verified = none) ∧
    (∃ w, Bucket.Get (run [Op.PutTx hashA none 0, Op.AddAddressToTx hashA [97],
        Op.PutTx hashB none 0, Op.MarkTxVerified hashA 7]).bucketTransactions hashB.slice =
          some (JSONBytes.encoded w) ∧ w.Verified = none) ∧
    hashB.slice ∈ Bucket.keys (run [Op.PutTx hashB none 0, Op.PutTx hashA none 0,
      Op.DeleteTx hashA, Op.AddAddressToTx hashB [97]]).bucketUnverifiedTransactions :=
  ⟨(unverified_index_invariant [Op.PutTx hashA none 0, Op.DeleteTx hashA] hashA).1 (by decide),
    (unverified_index_invariant [Op.PutTx hashA none 0, Op.AddAddressToTx hashA [97],
      Op.PutTx hashB none 0, Op.MarkTxVerified hashA 7] hashB).2.1 (by decide) (by decide),
    (unverified_index_invariant [Op.PutTx hashB none 0, Op.PutTx hashA none 0,
      Op.DeleteTx hashA, Op.AddAddressToTx hashB [97]] hashB).2.2 (by decide)
      ⟨walletTransaction.mk none 0 [[97]] none none, by decide, by decide⟩⟩

/-- C1 as stated fails in both directions. After `PutTx(hashA)`, `DeleteTx(hashA)` the
hash is a key of the unverified index although the transactions bucket holds no record
for it; after `AddAddressToTx(hashA, "a")` on the empty store the transactions bucket
holds a record for `hashA` whose `Verified` flag is unset although the hash is no key of
the unverified index; and after `PutTx(hashA)` and a `MarkTxVerified(hashA, t)` that fails
in `json.Marshal`, `t` being the first instant of the year 10000, the record of `hashA` is
still unverified although the hash is no key of the unverified index any more. -/
theorem unverified_index_counterexample :
    ¬ (hashA.slice ∈ Bucket.keys
        (run [Op.PutTx hashA none 0, Op.DeleteTx hashA]).bucketUnverifiedTransactions ↔
      ∃ w, Bucket.Get (run [Op.PutTx hashA none 0, Op.DeleteTx hashA]).bucketTransactions
        hashA.slice = some (JSONBytes.encoded w) ∧ w.Verified ≠ some true) ∧
    ¬ (hashA.slice ∈ Bucket.keys
        (run [Op.AddAddressToTx hashA [97]]).bucketUnverifiedTransactions ↔
      ∃ w, Bucket.Get (run [Op.AddAddressToTx hashA [97]]).bucketTransactions hashA.slice =
        some (JSONBytes.encoded w) ∧ w.Verified ≠ some true) ∧
    ¬ (hashA.slice ∈ Bucket.keys
        (run [Op.PutTx hashA none 0,
          Op.MarkTxVerified hashA year10000]).bucketUnverifiedTransactions ↔
      ∃ w, Bucket.Get (run [Op.PutTx hashA none 0,
          Op.MarkTxVerified hashA year10000]).bucketTransactions hashA.slice =
        some (JSONBytes.encoded w) ∧ w.Verified ≠ some true) := by
  refine ⟨?_, ?_, ?_⟩
  · intro hiff
    obtain ⟨w, hw, _⟩ := hiff.mp (by decide)
    have hnone : Bucket.Get
        (run [Op.PutTx hashA none 0, Op.DeleteTx hashA]).bucketTransactions hashA.slice =
        none := by decide
    rw [hnone] at hw
    exact Option.noConfusion hw
  · intro hiff
    have hin := hiff.mpr ⟨walletTransaction.mk none 0 [[97]] none none, by decide, by decide⟩
    exact absurd hin (by decide)
  · intro hiff
    have hin := hiff.mpr ⟨walletTransaction.mk none 0 [] none none, by decide, by decide⟩
    exact absurd hin (by decide)

/-! ## Outpoint keys: hex digits -/

theorem fromHexChar_hextable (i : Fin 16) : fromHexChar (hextable.getD i.val 0) = some i.val := by
  revert i
  decide

theorem hextable_ne_colon (i : Fin 16) : hextable.getD i.val 0 ≠ (58 : Byte) := by
  revert i
  decide

theorem hexEncodeToString_cons (v : Byte) (rest : List Byte) :
    hexEncodeToString (v :: rest) =
      hextable.getD (v.val / 16) 0 :: hextable.getD (v.val % 16) 0 :: hexEncodeToString rest := by
  simp [hexEncodeToString, List.flatMap_cons]

theorem hexEncodeToString_length (src : List Byte) :
    (hexEncodeToString src).length = 2 * src.length := by
  induction src with
  | nil => rfl
  | cons v rest ih =>
    rw [hexEncodeToString_cons]
    simp only [List.length_cons, ih]
    omega

theorem hexEncodeToString_no_colon (src : List Byte) :
    ∀ c ∈ hexEncodeToString src, c ≠ (58 : Byte) := by
  induction src with
  | nil => intro c hc; exact absurd hc (List.not_mem_nil _)
  | cons v rest ih =>
    intro c hc
    rw [hexEncodeToString_cons] at hc
    have h1 : v.val / 16 < 16 := by have := v.isLt; omega
    have h2 : v.val % 16 < 16 := Nat.mod_lt _ (by decide)
    rcases List.mem_cons.mp hc with h | h
    · rw [h]; exact hextable_ne_colon ⟨v.val / 16, h1⟩
    · rcases List.mem_cons.mp h with h | h
      · rw [h]; exact hextable_ne_colon ⟨v.val % 16, h2⟩
      · exact ih c h

theorem hexDecode_hexEncodeToString (src : List Byte) :
    hexDecode (hexEncodeToString src) = Except.ok src := by
  induction src with
  | nil => rfl
  | cons v rest ih =>
    rw [hexEncodeToString_cons]
    have h1 : v.val / 16 < 16 := by have := v.isLt; omega
    have h2 : v.val % 16 < 16 := Nat.mod_lt _ (by decide)
    have e1 := fromHexChar_hextable ⟨v.val / 16, h1⟩
    have e2 := fromHexChar_hextable ⟨v.val % 16, h2⟩
    simp only at e1 e2
    simp only [hexDecode, e1, e2, ih]
    have hv : (v.val / 16 * 16 + v.val % 16) % 256 = v.val := by
      have := v.isLt; omega
    rw [hv]
    congr 2
    apply Fin.ext
    simp [Fin.ofNat]

theorem NewHashFromStr_String (hash : Hash) : NewHashFromStr hash.String = Except.ok hash := by
  have hlen : hash.String.length = 64 := by
    unfold Hash.String
    rw [hexEncodeToString_length, List.length_reverse, hash.property]
    rfl
  unfold NewHashFromStr
  have h1 : ¬ hash.String.length > MaxHashStringSize := by rw [hlen]; decide
  have h2 : hash.String.length % 2 = 0 := by rw [hlen]
  simp only [h1, h2, if_true, if_false]
  have h3 : hexDecode hash.String = Except.ok hash.val.reverse :=
    hexDecode_hexEncodeToString _
  rw [h3]
  simp only [List.length_reverse, hash.property, Nat.sub_self, List.replicate_zero,
    List.nil_append, List.reverse_reverse]
  unfold SetBytes
  rw [dif_pos hash.property]

/-! ## Outpoint keys: the decimal index -/

theorem foldl_digits_le (ds : List Byte) :
    ∀ m : Nat, m ≤ List.foldl (fun acc (c : Byte) => acc * 10 + (c.val - 48)) m ds := by
  induction ds with
  | nil => intro m; exact Nat.le_refl m
  | cons c rest ih =>
    intro m
    simp only [List.foldl_cons]
    exact Nat.le_trans (by omega) (ih (m * 10 + (c.val - 48)))

/-- On decimal digits whose value fits 32 bits, the digit loop returns the value. -/
theorem parseUintLoop_digits (ds : List Byte) :
    ∀ m : Nat, (∀ c ∈ ds, 48 ≤ c.val ∧ c.val ≤ 57) →
      List.foldl (fun acc (c : Byte) => acc * 10 + (c.val - 48)) m ds ≤ 2 ^ 32 - 1 →
      parseUintLoop ds m =
        Except.ok (List.foldl (fun acc (c : Byte) => acc * 10 + (c.val - 48)) m ds) := by
  induction ds with
  | nil => intro m _ _; rfl
  | cons c rest ih =>
    intro m hd hle
    simp only [List.foldl_cons] at hle ⊢
    have hc := hd c (List.mem_cons_self _ _)
    have h1 := foldl_digits_le rest (m * 10 + (c.val - 48))
    have h2 : ¬ m ≥ (2 ^ 64 - 1) / 10 + 1 := by
      norm_num at hle ⊢
      omega
    have h3 : ¬ m * 10 + (c.val - 48) > 2 ^ 32 - 1 := by omega
    unfold parseUintLoop
    simp only [hc, and_self, if_true, h2, if_false, h3]
    exact ih _ (fun c1 hc1 => hd c1 (List.mem_cons_of_mem _ hc1)) hle

theorem digitByte_val (n : Nat) : (Fin.ofNat (48 + n % 10) : Byte).val = 48 + n % 10 := by
  have : n % 10 < 10 := Nat.mod_lt _ (by decide)
  simp only [Fin.ofNat]
  omega

/-- The digit loop writes, in front of `acc`, a non-empty run of decimal digits whose
value is `n`. -/
theorem formatDigits_spec (fuel : Nat) :
    ∀ (n : Nat) (acc : List Byte), n < 10 ^ fuel → 0 < fuel →
      ∃ ds : List Byte, formatDigits fuel n acc = ds ++ acc ∧ ds ≠ [] ∧
        (∀ c ∈ ds, 48 ≤ c.val ∧ c.val ≤ 57) ∧
        List.foldl (fun acc (c : Byte) => acc * 10 + (c.val - 48)) 0 ds = n := by
  induction fuel with
  | zero => intro n acc _ h; exact absurd h (Nat.lt_irrefl 0)
  | succ fuel ih =>
    intro n acc hn _
    have hmod : n % 10 < 10 := Nat.mod_lt _ (by decide)
    have hval := digitByte_val n
    unfold formatDigits
    by_cases hz : n / 10 = 0
    · simp only [hz, if_true]
      refine ⟨[Fin.ofNat (48 + n % 10)], rfl, by simp, ?_, ?_⟩
      · intro c hc
        rw [List.mem_singleton.mp hc, hval]
        omega
      · simp only [List.foldl_cons, List.foldl_nil, hval]
        omega
    · simp only [hz, if_false]
      have hn1 : n / 10 < 10 ^ fuel := by
        rw [Nat.pow_succ] at hn
        exact Nat.div_lt_of_lt_mul (by rw [Nat.mul_comm]; exact hn)
      have hfuel : 0 < fuel := by
        rcases Nat.eq_zero_or_pos fuel with h0 | h0
        · rw [h0] at hn1
          simp only [pow_zero, Nat.lt_one_iff] at hn1
          exact absurd hn1 hz
        · exact h0
      obtain ⟨ds, h1, _, h3, h4⟩ := ih (n / 10) (Fin.ofNat (48 + n % 10) :: acc) hn1 hfuel
      refine ⟨ds ++ [Fin.ofNat (48 + n % 10)], ?_, by simp, ?_, ?_⟩
      · rw [h1]; simp
      · intro c hc
        rcases List.mem_append.mp hc with h | h
        · exact h3 c h
        · rw [List.mem_singleton.mp h, hval]
          omega
      · rw [List.foldl_append, h4]
        simp only [List.foldl_cons, List.foldl_nil, hval]
        omega

/-- The call `ParseInt(FormatUint(n), 10, 32)` for a uint32 `n`: the value below 2^31,
a range error from 2^31 on. -/
theorem ParseInt_FormatUint (n : Nat) (hn : n < 2 ^ 32) :
    ParseInt (FormatUint n) =
      if n < 2 ^ 31 then Except.ok (n : Int) else Except.error Error.parseRange := by
  obtain ⟨ds, h1, h2, h3, h4⟩ := formatDigits_spec 20 n [] (by norm_num at hn ⊢; omega)
    (by decide)
  rw [List.append_nil] at h1
  unfold FormatUint
  rw [h1]
  cases ds with
  | nil => exact absurd rfl h2
  | cons c rest =>
    have hc := h3 c (List.mem_cons_self _ _)
    have hc1 : ¬ c.val = 43 := by omega
    have hc2 : ¬ c.val = 45 := by omega
    have hparse : ParseUint (c :: rest) = Except.ok n := by
      unfold ParseUint
      simp only [List.cons_ne_nil, if_false]
      rw [parseUintLoop_digits (c :: rest) 0 h3 (by rw [h4]; omega), h4]
    unfold ParseInt
    simp only [hc1, hc2, or_self, if_false, hparse, decide_False, Bool.false_eq_true,
      not_false_eq_true, true_and, false_and]
    by_cases hlt : n < 2 ^ 31
    · have : ¬ n ≥ 2 ^ 31 := by omega
      simp only [this, if_false, hlt, if_true]
    · have : n ≥ 2 ^ 31 := by omega
      simp only [this, if_true, hlt, if_false]

/-! ## C6: the outpoint key and `parseOutPoint` -/

theorem SplitN_append_colon (l1 l2 : GoString) (h : ∀ c ∈ l1, c ≠ (58 : Byte)) :
    SplitN (l1 ++ [58] ++ l2) = [l1, l2] := by
  have hp : ∀ c ∈ l1, (fun c : Byte => decide (c ≠ 58)) c = true := by
    intro c hc
    simp only [decide_eq_true_eq]
    exact h c hc
  unfold SplitN
  rw [List.span_eq_take_drop, List.append_assoc, List.takeWhile_append_of_pos hp,
    List.dropWhile_append_of_pos hp]
  simp

/-- C6. For every outpoint with a uint32 index, `parseOutPoint` applied to the key
`outPoint.String()` returns the same outpoint when the index is below 2^31, and fails
with a range error when the index is 2^31 or more. -/
theorem parseOutPoint_String (o : OutPoint) (hidx : o.Index < 2 ^ 32) :
    parseOutPoint o.String =
      if o.Index < 2 ^ 31 then Except.ok o else Except.error Error.parseRange := by
  have hsplit : SplitN o.String = [o.Hash.String, FormatUint o.Index] :=
    SplitN_append_colon _ _ (hexEncodeToString_no_colon _)
  unfold parseOutPoint
  rw [hsplit]
  simp only [NewHashFromStr_String, ParseInt_FormatUint o.Index hidx]
  by_cases hlt : o.Index < 2 ^ 31
  · simp only [hlt, if_true]
    have hto : toUint32 (o.Index : Int) = o.Index := by
      unfold toUint32
      have h1 : ((o.Index : Int) % 2 ^ 32) = (o.Index : Int) :=
        Int.emod_eq_of_lt (Int.ofNat_nonneg _) (by exact_mod_cast hidx)
      rw [h1]
      exact Int.toNat_natCast _
    rw [hto]
  · simp only [hlt, if_false]

/-- Witness for C6, the failing input: the key of the outpoint with hash `hashB` and
index 2^31 does not parse. -/
theorem parseOutPoint_String_witness :
    parseOutPoint (OutPoint.String (OutPoint.mk hashB 2147483648)) =
      Except.error Error.parseRange ∧
    parseOutPoint (OutPoint.String (OutPoint.mk hashB 2147483647)) =
      Except.ok (OutPoint.mk hashB 2147483647) :=
  ⟨(parseOutPoint_String (OutPoint.mk hashB 2147483648) (by decide)).trans (if_neg (by decide)),
    (parseOutPoint_String (OutPoint.mk hashB 2147483647) (by decide)).trans (if_pos (by decide))⟩

/-! ## The outpoint key is one `bucket.Put` accepts -/

theorem formatDigits_length_le (fuel : Nat) :
    ∀ (n : Nat) (acc : List Byte), (formatDigits fuel n acc).length ≤ fuel + acc.length := by
  induction fuel with
  | zero => intro n acc; simp [formatDigits]
  | succ fuel ih =>
    intro n acc
    unfold formatDigits
    by_cases hz : n / 10 = 0
    · simp only [hz, if_true, List.length_cons]
      omega
    · simp only [hz, if_false]
      have := ih (n / 10) (Fin.ofNat (48 + n % 10) :: acc)
      simp only [List.length_cons] at this
      omega

/-- The key of an outpoint has between 65 and 85 bytes. -/
theorem OutPoint.String_length (o : OutPoint) :
    0 < o.String.length ∧ o.String.length ≤ Bucket.MaxKeySize := by
  have hhash : o.Hash.String.length = 64 := by
    unfold Hash.String
    rw [hexEncodeToString_length, List.length_reverse, o.Hash.property]
    rfl
  have hfmt : (FormatUint o.Index).length ≤ 20 := formatDigits_length_le 20 o.Index []
  unfold OutPoint.String
  simp only [List.length_append, List.length_cons, List.length_nil, hhash, Bucket.MaxKeySize]
  omega

/-- The method `PutOutput` stores the output under the key of the outpoint and returns no
error. -/
theorem PutOutput_ok (tx : Tx) (o : OutPoint) (txOut : TxOut) :
    PutOutput tx o txOut =
      ({ tx with bucketOutputs :=
          Bucket.upsert tx.bucketOutputs o.String (JSONBytes.encoded txOut) }, none) := by
  simp only [PutOutput, writeJSON, jsonMarshal, JSONValue.marshal,
    Bucket.Put_ok _ o.String _ (OutPoint.String_length o).1 (OutPoint.String_length o).2]

/-! ## C7: `Outputs` after `PutOutput` -/

/-- The key of an outpoint whose index is 2^31 or more does not parse: the signed 32-bit
parse of the index is out of range. -/
theorem parseOutPoint_range_error (o : OutPoint) (hlo : 2 ^ 31 ≤ o.Index)
    (hhi : o.Index < 2 ^ 32) : parseOutPoint o.String = Except.error Error.parseRange := by
  have hsplit : SplitN o.String = [o.Hash.String, FormatUint o.Index] :=
    SplitN_append_colon _ _ (hexEncodeToString_no_colon _)
  have hint : ParseInt (FormatUint o.Index) = Except.error Error.parseRange := by
    rw [ParseInt_FormatUint o.Index hhi]
    exact if_neg (by omega)
  unfold parseOutPoint
  rw [hsplit]
  simp only [NewHashFromStr_String, hint]

theorem Bucket.mem_of_Get {κ ν : Type} [DecidableEq κ] (b : Bucket κ ν) (key : κ) (value : ν)
    (h : Bucket.Get b key = some value) : (key, value) ∈ b := by
  induction b with
  | nil => exact Option.noConfusion h
  | cons e rest ih =>
    obtain ⟨k, v⟩ := e
    unfold Bucket.Get at h
    by_cases hk : k = key
    · simp only [hk, if_true, Option.some.injEq] at h
      rw [hk, h]
      exact List.mem_cons_self _ _
    · simp only [hk, if_false] at h
      exact List.mem_cons_of_mem _ (ih h)

/-- The cursor loop fails when some key of the bucket does not parse. -/
theorem outputsLoop_error (entries : List (List Byte × JSONBytes TxOut)) :
    ∀ (outputs : GoMap OutPoint TxOut) (key : List Byte) (value : JSONBytes TxOut),
      (key, value) ∈ entries → (∃ err, parseOutPoint key = Except.error err) →
      ∃ err, outputsLoop entries outputs = Except.error err := by
  induction entries with
  | nil => intro _ key value hmem _; exact absurd hmem (List.not_mem_nil _)
  | cons e rest ih =>
    intro outputs key value hmem hbad
    obtain ⟨k, v⟩ := e
    unfold outputsLoop
    cases hj : jsonUnmarshal v TxOut.zero with
    | error err => exact ⟨err, rfl⟩
    | ok txOut =>
      cases hp : parseOutPoint k with
      | error err => exact ⟨err, rfl⟩
      | ok outPoint =>
        simp only []
        rcases List.mem_cons.mp hmem with h | h
        · obtain ⟨err, herr⟩ := hbad
          have hk : key = k := (Prod.mk.inj h).1
          rw [hk, hp] at herr
          exact Except.noConfusion herr
        · exact ih _ key value h hbad

/-- C7. After `PutOutput` of an outpoint whose uint32 index is 2^31 or more, on any
store, `Outputs()` returns an error instead of the map of the stored outputs. -/
theorem Outputs_error_after_PutOutput (tx : Tx) (o : OutPoint) (txOut : TxOut)
    (hlo : 2 ^ 31 ≤ o.Index) (hhi : o.Index < 2 ^ 32) :
    (PutOutput tx o txOut).2 = none ∧
    ∃ err, Outputs (PutOutput tx o txOut).1 = Except.error err := by
  refine ⟨by rw [PutOutput_ok], ?_⟩
  have hget : Bucket.Get (PutOutput tx o txOut).1.bucketOutputs o.String =
      some (JSONBytes.encoded txOut) := by
    rw [PutOutput_ok]
    exact Bucket.Get_upsert_self _ _ _
  have hbad : parseOutPoint o.String = Except.error Error.parseRange :=
    parseOutPoint_range_error o hlo hhi
  exact outputsLoop_error _ [] o.String _ (Bucket.mem_of_Get _ _ _ hget) ⟨_, hbad⟩

/-- Witness for C7, the failing input: one successful `PutOutput` of the outpoint
`hashB:2147483648` on the empty store, and `Outputs()` returns the range error. -/
theorem Outputs_error_after_PutOutput_witness :
    Outputs (PutOutput Tx.empty (OutPoint.mk hashB 2147483648)
      (TxOut.mk 50000 [118, 169])).1 = Except.error Error.parseRange ∧
    ((PutOutput Tx.empty (OutPoint.mk hashB 2147483648) (TxOut.mk 50000 [118, 169])).2 = none ∧
      ∃ err, Outputs (PutOutput Tx.empty (OutPoint.mk hashB 2147483648)
        (TxOut.mk 50000 [118, 169])).1 = Except.error err) :=
  ⟨by decide, Outputs_error_after_PutOutput Tx.empty (OutPoint.mk hashB 2147483648)
    (TxOut.mk 50000 [118, 169]) (by decide) (by decide)⟩

/-! ## C11: `PutOutput`, `Output`, `DeleteOutput` -/

/-- C11. For every store, outpoint and output: `PutOutput(o, out)` returns no error and
`Output(o)` then returns an output with the same value and the same script; after
`DeleteOutput(o)`, also right after that `PutOutput`, `Output(o)` returns nil and no
error. -/
theorem Output_after_PutOutput_DeleteOutput (tx : Tx) (o : OutPoint) (out : TxOut) :
    (PutOutput tx o out).2 = none ∧
    Output (PutOutput tx o out).1 o = Except.ok (some out) ∧
    (∀ got, Output (PutOutput tx o out).1 o = Except.ok (some got) →
      got.Value = out.Value ∧ got.PkScript = out.PkScript) ∧
    Output (DeleteOutput tx o) o = Except.ok none ∧
    Output (DeleteOutput (PutOutput tx o out).1 o) o = Except.ok none := by
  have hput : Output (PutOutput tx o out).1 o = Except.ok (some out) := by
    have hget : Bucket.Get (PutOutput tx o out).1.bucketOutputs o.String =
        some (JSONBytes.encoded out) := by
      rw [PutOutput_ok]
      exact Bucket.Get_upsert_self _ _ _
    simp only [Output]
    rw [readJSON_of_encoded _ _ _ out hget rfl]
  have hdel : ∀ s : Tx, Output (DeleteOutput s o) o = Except.ok none := by
    intro s
    have hget : Bucket.Get (DeleteOutput s o).bucketOutputs o.String = none := by
      simp only [DeleteOutput]
      exact Bucket.Get_Delete_self _ _
    simp only [Output]
    rw [readJSON_of_none _ _ _ hget]
  refine ⟨by rw [PutOutput_ok], hput, ?_, hdel tx, hdel _⟩
  intro got hgot
  rw [hput] at hgot
  have : out = got := Option.some.inj (Except.ok.inj hgot)
  rw [this]
  exact ⟨rfl, rfl⟩

/-- Witness for C11: an output put on the empty store is read back, and is gone after
`DeleteOutput`. -/
theorem Output_after_PutOutput_DeleteOutput_witness :
    Output (PutOutput Tx.empty (OutPoint.mk hashA 0) (TxOut.mk 50000 [118, 169])).1
      (OutPoint.mk hashA 0) = Except.ok (some (TxOut.mk 50000 [118, 169])) ∧
    Output (DeleteOutput (PutOutput Tx.empty (OutPoint.mk hashA 0)
      (TxOut.mk 50000 [118, 169])).1 (OutPoint.mk hashA 0)) (OutPoint.mk hashA 0) =
      Except.ok none :=
  ⟨(Output_after_PutOutput_DeleteOutput Tx.empty (OutPoint.mk hashA 0)
      (TxOut.mk 50000 [118, 169])).2.1,
    (Output_after_PutOutput_DeleteOutput Tx.empty (OutPoint.mk hashA 0)
      (TxOut.mk 50000 [118, 169])).2.2.2.2⟩

/-! ## C12: an unknown key is not an error -/

/-- C12. For a transaction hash with no stored record, `TxInfo` returns a nil
transaction, no addresses, height 0, a nil header timestamp and no error; for an address
with no stored history, `AddressHistory` returns the empty history and no error. -/
theorem unknown_key_no_error (tx : Tx) (h : Hash) (a : GoString) :
    (Bucket.Get tx.bucketTransactions h.slice = none →
      TxInfo tx h = Except.ok (none, [], 0, none)) ∧
    (Bucket.Get tx.bucketAddressHistories a = none →
      AddressHistory tx a = ([], none)) := by
  constructor
  · intro h0
    simp only [TxInfo]
    rw [readJSON_of_none _ _ _ h0]
    rfl
  · intro h0
    simp only [AddressHistory]
    rw [readJSON_of_none _ _ _ h0]

/-- Witness for C12: the sample store knows `hashA` but neither `hashB` nor the address
"b". -/
theorem unknown_key_no_error_witness :
    TxInfo storeVerifiedA hashA ≠ Except.ok (none, [], 0, none) ∧
    TxInfo storeVerifiedA hashB = Except.ok (none, [], 0, none) ∧
    AddressHistory (PutAddressHistory storeVerifiedA [97] [TxInfoEntry.mk 5 hashA]).1 [98] =
      ([], none) :=
  ⟨by decide,
    (unknown_key_no_error storeVerifiedA hashB [98]).1 (by decide),
    (unknown_key_no_error (PutAddressHistory storeVerifiedA [97] [TxInfoEntry.mk 5 hashA]).1
      hashB [98]).2 (by decide)⟩


end transactionsdb

/-! # Address sizes: C13 -/

namespace addresses

theorem AddData_length (script data : List transactionsdb.Byte) (h2 : 2 ≤ data.length)
    (h76 : data.length < 76) :
    (AddData script data).length = script.length + 1 + data.length := by
  cases data with
  | nil => simp at h2
  | cons a rest =>
    cases rest with
    | nil => simp at h2
    | cons b rest1 =>
      have h : rest1.length + 1 + 1 < 76 := by simpa using h76
      unfold AddData
      rw [if_pos (by simpa using h)]
      simp only [List.length_append, List.length_cons, List.length_nil]

theorem AddData_length_le (script data : List transactionsdb.Byte) (h76 : data.length < 76) :
    (AddData script data).length ≤ script.length + 1 + data.length := by
  cases data with
  | nil => simp [AddData]
  | cons a rest =>
    cases rest with
    | nil =>
      simp only [AddData]
      split_ifs <;> simp
    | cons b rest1 =>
      exact Nat.le_of_eq (AddData_length script (a :: b :: rest1) (by simp) h76)

/-- C13. For an address of each of the three types, with a 33-byte compressed public key
and a 20-byte key hash: the size `SigScriptWitnessSize` returns equals the length of the
signature script the address produces for a 71-byte DER signature, and is not below the
length of the signature script for any shorter signature; `hasWitness` is true exactly
when the address produces a witness, which is exactly for the two segwit types. -/
theorem SigScriptWitnessSize_matches (address : AccountAddress)
    (signature : List transactionsdb.Byte)
    (hkey : address.publicKey.length = compressedPubKeySize)
    (hhash : address.publicKeyHash.length = 20) :
    (signature.length = maxDERSignatureSize →
      (SigScriptWitnessSize address.addressType).1 =
        (address.SignatureScript signature).1.length) ∧
    (signature.length ≤ maxDERSignatureSize →
      (address.SignatureScript signature).1.length ≤
        (SigScriptWitnessSize address.addressType).1) ∧
    ((SigScriptWitnessSize address.addressType).2 = true ↔
      (address.SignatureScript signature).2 ≠ none) ∧
    ((SigScriptWitnessSize address.addressType).2 = true ↔
      address.addressType = AddressType.P2WPKHP2SH ∨
        address.addressType = AddressType.P2WPKH) := by
  have hredeem : address.redeemScript.length = redeemScriptSize := by
    unfold AccountAddress.redeemScript
    rw [AddData_length [0] address.publicKeyHash (by omega) (by omega), hhash]
    rfl
  have hk : address.publicKey.length = 33 := hkey
  have hr : address.redeemScript.length = 22 := hredeem
  cases ht : address.addressType with
  | P2PKH =>
    simp only [AccountAddress.SignatureScript, ht, SigScriptWitnessSize, maxDERSignatureSize,
      compressedPubKeySize]
    refine ⟨?_, ?_, by simp, by simp⟩
    · intro hs
      rw [AddData_length _ address.publicKey (by omega) (by omega),
        AddData_length [] (signature ++ [SigHashAll]) (by simp; omega) (by simp; omega)]
      simp only [List.length_append, List.length_cons, List.length_nil, hs, hk]
    · intro hs
      rw [AddData_length _ address.publicKey (by omega) (by omega)]
      have := AddData_length_le [] (signature ++ [SigHashAll]) (by simp; omega)
      simp only [List.length_append, List.length_cons, List.length_nil] at this
      omega
  | P2WPKHP2SH =>
    simp only [AccountAddress.SignatureScript, ht, SigScriptWitnessSize, redeemScriptSize]
    refine ⟨?_, ?_, by simp, by simp⟩
    · intro _
      rw [AddData_length [] address.redeemScript (by omega) (by omega), hr]
      rfl
    · intro _
      rw [AddData_length [] address.redeemScript (by omega) (by omega), hr]
      simp
  | P2WPKH =>
    simp only [AccountAddress.SignatureScript, ht, SigScriptWitnessSize]
    exact ⟨fun _ => rfl, fun _ => Nat.le_refl _, by simp, by simp⟩

/-- Witness for C13: the 71-byte signature of the test and a sample address of each
type. -/
theorem SigScriptWitnessSize_matches_witness :
    (addressTypes.map SigScriptWitnessSize = [(107, false), (23, true), (0, true)] ∧
      addressTypes.map
        (fun t => ((sampleAddress t).SignatureScript testSignature).1.length) =
        [107, 23, 0]) ∧
    (SigScriptWitnessSize (sampleAddress AddressType.P2PKH).addressType).1 =
      ((sampleAddress AddressType.P2PKH).SignatureScript testSignature).1.length ∧
    ((SigScriptWitnessSize (sampleAddress AddressType.P2WPKHP2SH).addressType).2 = true ↔
      ((sampleAddress AddressType.P2WPKHP2SH).SignatureScript testSignature).2 ≠ none) :=
  ⟨by decide,
    (SigScriptWitnessSize_matches (sampleAddress AddressType.P2PKH) testSignature
      (by decide) (by decide)).1 (by decide),
    (SigScriptWitnessSize_matches (sampleAddress AddressType.P2WPKHP2SH) testSignature
      (by decide) (by decide)).2.2.1⟩

end addresses

/-! # Currency formatting: C14 -/

namespace handlers

/-- The index of the first point in a text that has none before it. -/
theorem Index_append_point (pre rest : transactionsdb.GoString)
    (hpre : ∀ c ∈ pre, c ≠ (46 : transactionsdb.Byte)) :
    Index (pre ++ [46] ++ rest) 46 = pre.length := by
  induction pre with
  | nil => simp [Index]
  | cons b pre1 ih =>
    have hb : b ≠ 46 := hpre b (List.mem_cons_self _ _)
    have ih1 := ih (fun c hc => hpre c (List.mem_cons_of_mem _ hc))
    simp only [List.cons_append, List.append_assoc, List.singleton_append] at ih1 ⊢
    simp only [Index, hb, if_false, ih1, List.length_cons]
    have : ¬ ((pre1.length : Int) < 0) := by omega
    simp only [this, if_false]
    push_cast
    rfl

/-- The loop has fuel enough: with at least `position` iterations allowed the result
does not depend on the fuel, so the loop of the code ends with it. -/
theorem formatLoop_fuel (fuel : Nat) :
    ∀ (more : Nat) (position : Int) (formatted : transactionsdb.GoString),
      position.toNat ≤ fuel →
      formatLoop (fuel + more) position formatted = formatLoop fuel position formatted := by
  induction fuel with
  | zero =>
    intro more position formatted h
    have hp : ¬ position > 0 := by omega
    cases more with
    | zero => rfl
    | succ m =>
      simp only [Nat.zero_add]
      unfold formatLoop
      simp only [hp, if_false]
  | succ fuel ih =>
    intro more position formatted h
    have e : fuel + 1 + more = (fuel + more) + 1 := by omega
    rw [e]
    unfold formatLoop
    by_cases hp : position > 0
    · simp only [hp, if_true]
      exact ih more _ _ (by omega)
    · simp only [hp, if_false]

/-- The loop only inserts apostrophes: without them the text is what it was. -/
theorem formatLoop_filter (fuel : Nat) :
    ∀ (position : Int) (formatted : transactionsdb.GoString),
      (formatLoop fuel position formatted).filter (fun c => decide (c ≠ 39)) =
        formatted.filter (fun c => decide (c ≠ 39)) := by
  induction fuel with
  | zero => intro position formatted; rfl
  | succ fuel ih =>
    intro position formatted
    unfold formatLoop
    by_cases hp : position > 0
    · simp only [hp, if_true]
      rw [ih]
      have h39 : List.filter (fun c : transactionsdb.Byte => decide (c ≠ 39)) [39] = [] := by
        decide
      rw [List.filter_append, List.filter_append, h39, List.append_nil, ← List.filter_append,
        List.take_append_drop]
    · simp only [hp, if_false]

/-- From a position that is 1 modulo 3 the loop ends by inserting an apostrophe right
after the first byte. -/
theorem formatLoop_after_first (fuel : Nat) :
    ∀ (position : Int) (x : transactionsdb.Byte) (rest : transactionsdb.GoString),
      0 < position → position % 3 = 1 → position.toNat ≤ fuel →
      position.toNat ≤ rest.length →
      (formatLoop fuel position (x :: rest)).take 2 = [x, 39] := by
  induction fuel with
  | zero => intro position x rest hp _ hf _; omega
  | succ fuel ih =>
    intro position x rest hp hmod hf hlen
    unfold formatLoop
    simp only [gt_iff_lt, hp, if_true]
    obtain ⟨n, hn⟩ : ∃ n : Nat, position.toNat = n + 1 := ⟨position.toNat - 1, by omega⟩
    rw [hn]
    simp only [List.take_succ_cons, List.drop_succ_cons, List.cons_append]
    by_cases h1 : position = 1
    · have hn0 : n = 0 := by omega
      subst hn0
      have hstop : ¬ (position - 3 > 0) := by omega
      simp only [List.take_zero, List.drop_zero, List.nil_append]
      cases fuel with
      | zero => rfl
      | succ f =>
        unfold formatLoop
        simp only [hstop, if_false]
        rfl
    · exact ih (position - 3) x _ (by omega) (by omega) (by omega)
        (by simp only [List.length_append, List.length_take, List.length_drop,
              List.length_cons, List.length_nil]; omega)

/-- C14. For every amount, removing the apostrophes from `formatAsCurrency(amount)` gives
the text of `FormatFloat(amount)` without apostrophes; and whenever that text is a minus
sign, a number of integer digits that is a positive multiple of three, a point and the
fraction, the result starts with the minus sign followed directly by an apostrophe: this
apostrophe has no digit before it. -/
theorem formatAsCurrency_apostrophes {float64 : Type}
    (FormatFloat : float64 → transactionsdb.GoString) (amount : float64) :
    (formatAsCurrency FormatFloat amount).filter (fun c => decide (c ≠ 39)) =
      (FormatFloat amount).filter (fun c => decide (c ≠ 39)) ∧
    ∀ (digits frac : transactionsdb.GoString),
      FormatFloat amount = [45] ++ digits ++ [46] ++ frac →
      (∀ c ∈ digits, 48 ≤ c.val ∧ c.val ≤ 57) → digits ≠ [] → digits.length % 3 = 0 →
      (formatAsCurrency FormatFloat amount).take 2 = [45, 39] := by
  refine ⟨formatLoop_filter _ _ _, ?_⟩
  intro digits frac htext hdigits hne hmod
  have hlen : 3 ≤ digits.length := by
    have : digits.length ≠ 0 := fun h => hne (List.length_eq_zero.mp h)
    omega
  have hpre : ∀ c ∈ ([45] ++ digits : transactionsdb.GoString),
      c ≠ (46 : transactionsdb.Byte) := by
    intro c hc
    rcases List.mem_append.mp hc with h | h
    · rw [List.mem_singleton.mp h]; decide
    · intro h46
      have := hdigits c h
      rw [h46] at this
      exact absurd this (by decide)
  have hidx : Index (FormatFloat amount) 46 = (digits.length : Int) + 1 := by
    rw [htext, Index_append_point ([45] ++ digits) frac hpre]
    simp only [List.length_append, List.length_cons, List.length_nil]
    push_cast
    omega
  unfold formatAsCurrency
  simp only [hidx]
  rw [htext]
  simp only [List.singleton_append, List.cons_append, List.append_assoc]
  exact formatLoop_after_first _ _ 45 _ (by omega) (by omega) (Nat.le_refl _)
    (by simp only [List.length_append, List.length_cons, List.length_nil]; omega)

/-- Witness for C14, the failing input: the amount -123.45, whose two-decimal text is
"-123.45", is formatted as "-'123.45"; an amount of 1234567.89 is formatted as
"1'234'567.89". -/
theorem formatAsCurrency_apostrophes_witness :
    formatHundredths (-12345) = [45, 49, 50, 51, 46, 52, 53] ∧
    formatAsCurrency formatHundredths (-12345) = [45, 39, 49, 50, 51, 46, 52, 53] ∧
    formatAsCurrency formatHundredths 123456789 =
      [49, 39, 50, 51, 52, 39, 53, 54, 55, 46, 56, 57] ∧
    (formatAsCurrency formatHundredths (-12345)).take 2 = [45, 39] :=
  ⟨by decide, by decide, by decide,
    (formatAsCurrency_apostrophes formatHundredths (-12345)).2 [49, 50, 51] [52, 53]
      (by decide)
      (by
        intro c hc
        simp only [List.mem_cons, List.mem_singleton, List.not_mem_nil, or_false] at hc
        rcases hc with h | h | h <;> subst h <;> decide)
      (by decide) (by decide)⟩

end handlers
